import Mathlib

/-!
# A shallow embedding of the `xfast` crate (x-fast trie) and proofs about it

The Rust source stores trie nodes behind raw pointers (`NonNull<TrieNode<T>>`)
that are allocated with `Box::leak` and never freed.  We model the heap as an
arena (`List TrieNode`) and a pointer as an index into the arena; `HashMap`s
become association lists whose `get`/`insert`/`remove`/`len` have the same
observable behaviour.  Every loop of the source is either structural
recursion over the loop counter or is given explicit fuel; the fuel is large
enough that on every state the claims quantify over, the modelled loop
finishes exactly like the Rust loop does.  Values are specialised to `Nat`
(the claims are value-polymorphic).
-/

set_option maxRecDepth 20000
set_option maxHeartbeats 1000000

/-- Translation of `struct TrieNode<T>` (src/lib.rs, lines 12-27); the two
`NonNull` child pointers become `Option Nat` arena indices. -/
structure TrieNode where
  key : Nat
  value : Option Nat
  level : Nat
  right : Option Nat
  left : Option Nat
  is_desc_left : Bool
  is_desc_right : Bool
  deriving DecidableEq, Repr

/-- Placeholder returned when an arena index is read out of range; never
reachable for indices the modelled code actually dereferences. -/
def defaultNode : TrieNode := ⟨0, none, 0, none, none, true, true⟩

/-- Translation of `TrieNode::new` (lines 32-42): a leaf with both
descendant flags set. -/
def TrieNode.mk_leaf (key v level : Nat) : TrieNode :=
  ⟨key, some v, level, none, none, true, true⟩

/-- Translation of `TrieNode::new_internal` (lines 45-55). -/
def TrieNode.new_internal (level : Nat) : TrieNode :=
  ⟨0, none, level, none, none, true, true⟩

/-- Translation of `struct Xfast<T>` (lines 124-127): the vector of per-level
hash maps becomes a list of association lists mapping a level's key prefix to
the arena index of the node stored there. -/
structure Xfast where
  nr_levels : Nat
  level_maps : List (List (Nat × Nat))
  arena : List TrieNode
  deriving DecidableEq, Repr

/-- `HashMap::get`, specialised to our association lists. -/
def mapGet (m : List (Nat × Nat)) (k : Nat) : Option Nat :=
  (m.find? (fun q => q.1 == k)).map (fun q => q.2)

/-- `HashMap::insert`: replaces any existing binding of `k`. -/
def mapInsert (m : List (Nat × Nat)) (k v : Nat) : List (Nat × Nat) :=
  (k, v) :: m.filter (fun q => q.1 != k)

/-- `HashMap::remove`. -/
def mapRemove (m : List (Nat × Nat)) (k : Nat) : List (Nat × Nat) :=
  m.filter (fun q => q.1 != k)

/-- The hash map at level `i` (out-of-range levels read as empty; the Rust
code never indexes out of range on the states the claims range over). -/
def lvl (t : Xfast) (i : Nat) : List (Nat × Nat) :=
  t.level_maps.getD i []

/-- Replace the hash map at level `i`. -/
def setLvl (t : Xfast) (i : Nat) (m : List (Nat × Nat)) : Xfast :=
  { t with level_maps := t.level_maps.set i m }

/-- Dereference an arena pointer. -/
def readN (t : Xfast) (i : Nat) : TrieNode :=
  t.arena.getD i defaultNode

/-- Mutate the node behind an arena pointer. -/
def writeN (t : Xfast) (i : Nat) (f : TrieNode → TrieNode) : Xfast :=
  { t with arena := t.arena.set i (f (readN t i)) }

/-- `Box::leak`: allocate a fresh node; its index is the old arena length. -/
def allocN (t : Xfast) (n : TrieNode) : Xfast :=
  { t with arena := t.arena ++ [n] }

/-- Fueled form of the `while range > 0 { range >>= 1; levels += 1 }` loop
of `Xfast::get_levels_count`; `fuel = range` is always enough, see
`glcGo_stable`. -/
def glcGo : Nat → Nat → Nat
  | 0, _ => 0
  | fuel + 1, r => if r = 0 then 0 else glcGo fuel (r / 2) + 1

/-- Translation of `Xfast::get_levels_count` (lines 154-161): the bit length
of `range`. -/
def get_levels_count (range : Nat) : Nat :=
  glcGo range range

/-- Translation of `Xfast::new` (lines 139-151): `nr_levels + 1` empty level
maps, with the root node allocated and inserted at level 0 under prefix 0. -/
def Xfast.new (range : Nat) : Xfast :=
  let nr := get_levels_count range
  { nr_levels := nr
    level_maps := (List.replicate (nr + 1) []).set 0 (mapInsert [] 0 0)
    arena := [TrieNode.new_internal 0] }

/-- Translation of `Xfast::len` (lines 178-180). -/
def Xfast.len (t : Xfast) : Nat :=
  (lvl t t.nr_levels).length

/-- The binary-search loop of `find_lowest_common_ancestor` (lines 182-206).
`fuel` dominates the iteration count `high + 1 - low`, which never exceeds
`nr_levels + 1`. -/
def lcaGo (t : Xfast) (key : Nat) : Nat → Nat → Nat → Option Nat → Option Nat
  | 0, _, _, anc => anc
  | fuel + 1, low, high, anc =>
    if low ≤ high then
      let mid := (low + high) / 2
      match mapGet (lvl t mid) (key >>> (t.nr_levels - mid)) with
      | some v => lcaGo t key fuel (mid + 1) high (some v)
      | none => if mid = 0 then anc else lcaGo t key fuel low (mid - 1) anc
    else anc

/-- Translation of `Xfast::find_lowest_common_ancestor` (lines 182-206). -/
def find_lowest_common_ancestor (t : Xfast) (key : Nat) : Option Nat :=
  lcaGo t key (t.nr_levels + 2) 0 t.nr_levels none

/-- Translation of `Xfast::find_successor` (lines 227-267). -/
def find_successor (t : Xfast) (key : Nat) : Option Nat :=
  match find_lowest_common_ancestor t key with
  | none => none
  | some nid =>
    let nd := readN t nid
    if nd.level = t.nr_levels then some nid
    else
      let updated := if (key >>> (t.nr_levels - nd.level - 1)) &&& 1 ≠ 0 then nd.right else nd.left
      match updated with
      | none => none
      | some uid =>
        if (readN t uid).key < key then (readN t uid).right else some uid

/-- Translation of `Xfast::find_predecessor` (lines 289-325). -/
def find_predecessor (t : Xfast) (key : Nat) : Option Nat :=
  match find_lowest_common_ancestor t key with
  | none => none
  | some nid =>
    let nd := readN t nid
    if nd.level = t.nr_levels then some nid
    else
      let updated := if (key >>> (t.nr_levels - nd.level - 1)) &&& 1 ≠ 0 then nd.right else nd.left
      match updated with
      | none => none
      | some uid =>
        if (readN t uid).key > key then (readN t uid).left else some uid

/-- The loop body of `TrieNode::get_rightmost_node` (lines 59-75), with fuel.
When the node has neither child the Rust loop spins forever; here the fuel
runs out instead (this situation is unreachable from the public API). -/
def descRight (t : Xfast) (max_level : Nat) : Nat → Nat → Option Nat
  | 0, cur => if (readN t cur).level = max_level then some cur else none
  | fuel + 1, cur =>
    if (readN t cur).level = max_level then some cur
    else
      match (readN t cur).right with
      | some r => descRight t max_level fuel r
      | none =>
        match (readN t cur).left with
        | some l => descRight t max_level fuel l
        | none => descRight t max_level fuel cur

/-- Translation of `TrieNode::get_rightmost_node` (lines 59-75). -/
def get_rightmost_node (t : Xfast) (max_level cur : Nat) : Option Nat :=
  descRight t max_level (max_level + 1) cur

/-- The loop body of `TrieNode::get_leftmost_node` (lines 79-95), with fuel. -/
def descLeft (t : Xfast) (max_level : Nat) : Nat → Nat → Option Nat
  | 0, cur => if (readN t cur).level = max_level then some cur else none
  | fuel + 1, cur =>
    if (readN t cur).level = max_level then some cur
    else
      match (readN t cur).left with
      | some l => descLeft t max_level fuel l
      | none =>
        match (readN t cur).right with
        | some r => descLeft t max_level fuel r
        | none => descLeft t max_level fuel cur

/-- Translation of `TrieNode::get_leftmost_node` (lines 79-95). -/
def get_leftmost_node (t : Xfast) (max_level cur : Nat) : Option Nat :=
  descLeft t max_level (max_level + 1) cur

/-- One iteration of `populate_internal_nodes` (lines 327-354) at `level`. -/
def populateStep (key L : Nat) (t : Xfast) (level : Nat) : Xfast :=
  let pfx := key >>> (L - level)
  match mapGet (lvl t level) pfx with
  | some _ => t
  | none =>
    let nid := t.arena.length
    let t1 := allocN t (TrieNode.new_internal level)
    let t2 := setLvl t1 level (mapInsert (lvl t1 level) pfx nid)
    match mapGet (lvl t2 (level - 1)) (pfx >>> 1) with
    | none => t2
    | some pid =>
      if pfx &&& 1 ≠ 0 then
        writeN t2 pid (fun n => { n with right := some nid, is_desc_right := false })
      else
        writeN t2 pid (fun n => { n with left := some nid, is_desc_left := false })

/-- Translation of `Xfast::populate_internal_nodes` (lines 327-354): the
`while level < max_levels` loop, levels `1 .. nr_levels - 1`. -/
def populate_internal_nodes (t : Xfast) (key : Nat) : Xfast :=
  (List.range' 1 (t.nr_levels - 1)).foldl (populateStep key t.nr_levels) t

/-- One iteration of `update_descendant_ptr`'s main loop (lines 360-400). -/
def updStep (key L : Nat) (t : Xfast) (level : Nat) : Xfast :=
  let pfx := key >>> (L - level)
  match mapGet (lvl t level) pfx with
  | none => t
  | some nid =>
    let nd := readN t nid
    match nd.left with
    | none =>
      match nd.right with
      | some r =>
        writeN t nid (fun n => { n with left := get_leftmost_node t L r, is_desc_left := true })
      | none => t
    | some lp =>
      match nd.right with
      | none =>
        writeN t nid (fun n => { n with right := get_rightmost_node t L lp, is_desc_right := true })
      | some rp =>
        if nd.is_desc_right then
          writeN t nid (fun n => { n with right := get_rightmost_node t L lp })
        else if nd.is_desc_left then
          writeN t nid (fun n => { n with left := get_leftmost_node t L rp })
        else t

/-- First half of the root special-case of `update_descendant_ptr`
(lines 406-410). -/
def rootStepLeft (t : Xfast) (rid L : Nat) : Xfast :=
  if (readN t rid).is_desc_left then
    match (readN t rid).right with
    | some r => writeN t rid (fun n => { n with left := get_leftmost_node t L r })
    | none => t
  else t

/-- Second half of the root special-case (lines 411-415); the flag `dr` was
read before the first half ran, but the `left` pointer is read afresh. -/
def rootStepRight (t : Xfast) (rid L : Nat) (dr : Bool) : Xfast :=
  if dr then
    match (readN t rid).left with
    | some l => writeN t rid (fun n => { n with right := get_rightmost_node t L l })
    | none => t
  else t

/-- The root special-case of `update_descendant_ptr` (lines 402-416): both
descendant flags are read up front; the second branch sees the pointer the
first branch may just have written. -/
def rootStep (t : Xfast) (L : Nat) : Xfast :=
  match mapGet (lvl t 0) 0 with
  | none => t
  | some rid => rootStepRight (rootStepLeft t rid L) rid L (readN t rid).is_desc_right

/-- Translation of `Xfast::update_descendant_ptr` (lines 356-417): the main
loop walks levels `nr_levels - 1` down to `1`, then the root is finalised. -/
def update_descendant_ptr (t : Xfast) (key : Nat) : Xfast :=
  let L := t.nr_levels
  rootStep (((List.range' 1 (L - 1)).reverse).foldl (updStep key L) t) L

/-- The Leaf-Chain splice of `insert_key` (lines 437-454): hook the fresh
leaf `nid` between the predecessor and successor found for its key. -/
def chainSplice (t : Xfast) (nid : Nat) (pr su : Option Nat) : Xfast :=
  let t1 :=
    match pr with
    | none => t
    | some pid =>
      let t' := writeN t nid (fun n => { n with right := (readN t pid).right, left := some pid })
      writeN t' pid (fun n => { n with right := some nid })
  match su with
  | none => t1
  | some sid =>
    let t' := writeN t1 nid (fun n => { n with left := (readN t1 sid).left, right := some sid })
    writeN t' sid (fun n => { n with left := some nid })

/-- The parent hookup of the fresh leaf in `insert_key` (lines 461-471). -/
def leafLink (t : Xfast) (key nid L : Nat) : Xfast :=
  match mapGet (lvl t (L - 1)) (key >>> 1) with
  | none => t
  | some pid =>
    if key &&& 1 ≠ 0 then
      writeN t pid (fun n => { n with right := some nid, is_desc_right := false })
    else
      writeN t pid (fun n => { n with left := some nid, is_desc_left := false })

/-- Translation of `Xfast::insert_key` (lines 427-475). -/
def insert_key (t0 : Xfast) (key v : Nat) : Xfast :=
  let L := t0.nr_levels
  let nid := t0.arena.length
  let t := allocN t0 (TrieNode.mk_leaf key v L)
  let t := chainSplice t nid (find_predecessor t key) (find_successor t key)
  let t := populate_internal_nodes t key
  let t := setLvl t L (mapInsert (lvl t L) key nid)
  let t := leafLink t key nid L
  update_descendant_ptr t key

/-- The early-exit test of `delete_internal_node` (lines 484-497): stop
pruning as soon as the ancestor keeps a real child on the other side. -/
def delBrk (t : Xfast) (level pfx cpfx : Nat) : Bool :=
  match mapGet (lvl t level) pfx with
  | some nid =>
    if cpfx &&& 1 = 1 then !(readN t nid).is_desc_left else !(readN t nid).is_desc_right
  | none => false

/-- The `while level > 0` loop of `delete_internal_node` (lines 477-515),
by structural recursion on the loop counter: the pattern `level + 1` is the
Rust variable `level`, so the parent lives at level `level`. -/
def delGo : Xfast → Nat → Nat → Nat → Xfast
  | t, _, _, 0 => t
  | t, pfx0, cpfx, level + 1 =>
    let pfx := pfx0 >>> 1
    if delBrk t (level + 1) pfx cpfx then t
    else
      let t1 :=
        match mapGet (lvl t level) (pfx >>> 1) with
        | none => t
        | some pid =>
          if pfx &&& 1 ≠ 0 then
            writeN t pid (fun n => { n with right := none, is_desc_right := true })
          else
            writeN t pid (fun n => { n with left := none, is_desc_left := true })
      let t2 := setLvl t1 (level + 1) (mapRemove (lvl t1 (level + 1)) pfx)
      delGo t2 pfx (cpfx >>> 1) level

/-- Translation of `Xfast::delete_internal_node` (lines 477-515). -/
def delete_internal_node (t : Xfast) (key : Nat) : Xfast :=
  delGo t key key (t.nr_levels - 1)

/-- Translation of `Xfast::find_key_as_non_null` (lines 571-575). -/
def find_key_as_non_null (t : Xfast) (key : Nat) : Option Nat :=
  mapGet (lvl t t.nr_levels) key

/-- The leaf-parent clearing step of `delete_key` (lines 542-551). -/
def delParentClear (t : Xfast) (key L : Nat) : Xfast :=
  match mapGet (lvl t (L - 1)) (key >>> 1) with
  | none => t
  | some iid =>
    if key &&& 1 = 1 then
      writeN t iid (fun n => { n with right := none, is_desc_right := true })
    else
      writeN t iid (fun n => { n with left := none, is_desc_left := true })

/-- The Leaf-Chain unsplice of `delete_key` (lines 554-565). -/
def delSplice (t : Xfast) (did : Nat) : Xfast :=
  let pn := (readN t did).left
  let sn := (readN t did).right
  let t1 :=
    match pn with
    | none => t
    | some pid => writeN t pid (fun n => { n with right := sn })
  match sn with
  | none => t1
  | some sid => writeN t1 sid (fun n => { n with left := pn })

/-- Translation of `Xfast::delete_key` (lines 533-569); returns the removed
pointer together with the new state. -/
def delete_key (t0 : Xfast) (key : Nat) : Option Nat × Xfast :=
  match find_key_as_non_null t0 key with
  | none => (none, t0)
  | some did =>
    let L := t0.nr_levels
    let t := delParentClear t0 key L
    let t := delete_internal_node t key
    let t := delSplice t did
    let t := setLvl t L (mapRemove (lvl t L) key)
    (some did, update_descendant_ptr t key)

/-- Translation of `Xfast::find_key` (lines 591-595). -/
def find_key (t : Xfast) (key : Nat) : Option Nat :=
  mapGet (lvl t t.nr_levels) key

/-! ## Basic facts about the embedding -/

theorem glcGo_stable : ∀ f1 f2 r, r ≤ f1 → r ≤ f2 → glcGo f1 r = glcGo f2 r := by
  intro f1
  induction f1 with
  | zero =>
    intro f2 r h1 _
    interval_cases r
    cases f2 <;> simp [glcGo]
  | succ f ih =>
    intro f2 r h1 h2
    match r, f2 with
    | 0, 0 => simp [glcGo]
    | 0, g + 1 => simp [glcGo]
    | s + 1, g + 1 =>
      have hd : (s + 1) / 2 ≤ f := by omega
      have hd2 : (s + 1) / 2 ≤ g := by omega
      simp only [glcGo]
      rw [if_neg (by omega), if_neg (by omega), ih g ((s + 1) / 2) hd hd2]

theorem get_levels_count_rec (r : Nat) :
    get_levels_count r = if r = 0 then 0 else get_levels_count (r / 2) + 1 := by
  unfold get_levels_count
  match r with
  | 0 => simp [glcGo]
  | s + 1 =>
    simp only [glcGo, if_neg (Nat.succ_ne_zero s)]
    rw [glcGo_stable s ((s + 1) / 2) ((s + 1) / 2) (by omega) (le_refl _)]

theorem lt_two_pow_get_levels_count (r : Nat) : r < 2 ^ get_levels_count r := by
  induction r using Nat.strong_induction_on with
  | _ r ih =>
    rw [get_levels_count_rec]
    match r with
    | 0 => simp
    | s + 1 =>
      rw [if_neg (Nat.succ_ne_zero s)]
      have h := ih ((s + 1) / 2) (by omega)
      rw [pow_succ]
      omega

theorem one_le_get_levels_count {r : Nat} (h : 1 ≤ r) : 1 ≤ get_levels_count r := by
  rw [get_levels_count_rec, if_neg (by omega)]
  omega

@[simp] theorem mapGet_nil (k : Nat) : mapGet [] k = none := rfl

theorem mapGet_mapInsert_self (m : List (Nat × Nat)) (k v : Nat) :
    mapGet (mapInsert m k v) k = some v := by
  simp [mapGet, mapInsert, List.find?]

theorem find?_filter_ne_key (m : List (Nat × Nat)) (k k' : Nat) (h : k' ≠ k) :
    (m.filter (fun q => q.1 != k)).find? (fun q => q.1 == k')
      = m.find? (fun q => q.1 == k') := by
  induction m with
  | nil => rfl
  | cons a as ih =>
    rw [List.filter_cons]
    by_cases ha : a.1 = k
    · have e2 : List.find? (fun q => q.1 == k') (a :: as)
          = List.find? (fun q => q.1 == k') as :=
        List.find?_cons_of_neg _ (by simp [ha]; omega)
      rw [if_neg (by simp [ha]), e2]
      exact ih
    · rw [if_pos (by simp [ha])]
      by_cases hk : a.1 = k'
      · have e2 : List.find? (fun q => q.1 == k') (a :: List.filter (fun q => q.1 != k) as)
            = some a := List.find?_cons_of_pos _ (by simpa using hk)
        have e3 : List.find? (fun q => q.1 == k') (a :: as) = some a :=
          List.find?_cons_of_pos _ (by simpa using hk)
        rw [e2, e3]
      · have e2 : List.find? (fun q => q.1 == k') (a :: List.filter (fun q => q.1 != k) as)
            = List.find? (fun q => q.1 == k') (List.filter (fun q => q.1 != k) as) :=
          List.find?_cons_of_neg _ (by simpa using hk)
        have e3 : List.find? (fun q => q.1 == k') (a :: as)
            = List.find? (fun q => q.1 == k') as :=
          List.find?_cons_of_neg _ (by simpa using hk)
        rw [e2, e3]
        exact ih

theorem mapGet_mapInsert_ne (m : List (Nat × Nat)) (k v k' : Nat) (h : k' ≠ k) :
    mapGet (mapInsert m k v) k' = mapGet m k' := by
  simp only [mapGet, mapInsert]
  rw [List.find?_cons_of_neg _ (by simp; omega), find?_filter_ne_key m k k' h]

theorem mapGet_mapRemove_self (m : List (Nat × Nat)) (k : Nat) :
    mapGet (mapRemove m k) k = none := by
  simp only [mapGet, mapRemove, Option.map_eq_none']
  rw [List.find?_eq_none]
  intro p hp
  have := List.of_mem_filter hp
  simp at this ⊢
  omega

theorem mapGet_mapRemove_ne (m : List (Nat × Nat)) (k k' : Nat) (h : k' ≠ k) :
    mapGet (mapRemove m k) k' = mapGet m k' := by
  simp only [mapGet, mapRemove]
  rw [find?_filter_ne_key m k k' h]

theorem lvl_setLvl_self (t : Xfast) (i : Nat) (m : List (Nat × Nat))
    (h : i < t.level_maps.length) : lvl (setLvl t i m) i = m := by
  simp only [lvl, setLvl, List.getD_eq_getElem?_getD]
  rw [List.getElem?_set_eq_of_lt _ h]
  rfl

theorem lvl_setLvl_ne (t : Xfast) (i j : Nat) (m : List (Nat × Nat)) (h : i ≠ j) :
    lvl (setLvl t i m) j = lvl t j := by
  simp only [lvl, setLvl, List.getD_eq_getElem?_getD]
  rw [List.getElem?_set_ne h]

@[simp] theorem setLvl_nr_levels (t : Xfast) (i : Nat) (m : List (Nat × Nat)) :
    (setLvl t i m).nr_levels = t.nr_levels := rfl

@[simp] theorem setLvl_arena (t : Xfast) (i : Nat) (m : List (Nat × Nat)) :
    (setLvl t i m).arena = t.arena := rfl

@[simp] theorem writeN_nr_levels (t : Xfast) (i : Nat) (f : TrieNode → TrieNode) :
    (writeN t i f).nr_levels = t.nr_levels := rfl

@[simp] theorem writeN_level_maps (t : Xfast) (i : Nat) (f : TrieNode → TrieNode) :
    (writeN t i f).level_maps = t.level_maps := rfl

@[simp] theorem lvl_writeN (t : Xfast) (i : Nat) (f : TrieNode → TrieNode) (j : Nat) :
    lvl (writeN t i f) j = lvl t j := rfl

@[simp] theorem allocN_nr_levels (t : Xfast) (n : TrieNode) :
    (allocN t n).nr_levels = t.nr_levels := rfl

@[simp] theorem lvl_allocN (t : Xfast) (n : TrieNode) (j : Nat) :
    lvl (allocN t n) j = lvl t j := rfl

@[simp] theorem writeN_arena_length (t : Xfast) (i : Nat) (f : TrieNode → TrieNode) :
    (writeN t i f).arena.length = t.arena.length := by
  simp [writeN]

@[simp] theorem allocN_arena_length (t : Xfast) (n : TrieNode) :
    (allocN t n).arena.length = t.arena.length + 1 := by
  simp [allocN]

theorem readN_writeN_self (t : Xfast) (i : Nat) (f : TrieNode → TrieNode)
    (h : i < t.arena.length) : readN (writeN t i f) i = f (readN t i) := by
  simp only [readN, writeN, List.getD_eq_getElem?_getD]
  rw [List.getElem?_set_eq_of_lt _ h]
  rfl

theorem readN_writeN_ne (t : Xfast) (i j : Nat) (f : TrieNode → TrieNode) (h : i ≠ j) :
    readN (writeN t i f) j = readN t j := by
  simp only [readN, writeN, List.getD_eq_getElem?_getD]
  rw [List.getElem?_set_ne h]

theorem readN_allocN_lt (t : Xfast) (n : TrieNode) (i : Nat) (h : i < t.arena.length) :
    readN (allocN t n) i = readN t i := by
  simp only [readN, allocN, List.getD_eq_getElem?_getD]
  rw [List.getElem?_append_left h]

theorem readN_allocN_self (t : Xfast) (n : TrieNode) :
    readN (allocN t n) t.arena.length = n := by
  simp only [readN, allocN, List.getD_eq_getElem?_getD]
  rw [List.getElem?_append_right (le_refl _)]
  simp

/-! ## Structure of a freshly built trie -/

theorem new_nr_levels (r : Nat) : (Xfast.new r).nr_levels = get_levels_count r := rfl

theorem new_level_maps_length (r : Nat) :
    (Xfast.new r).level_maps.length = get_levels_count r + 1 := by
  simp [Xfast.new]

theorem lvl_new_zero (r : Nat) : lvl (Xfast.new r) 0 = [(0, 0)] := by
  simp only [Xfast.new, lvl, List.getD_eq_getElem?_getD]
  rw [List.getElem?_set_eq_of_lt _ (by simp)]
  rfl

theorem lvl_new_pos (r : Nat) (i : Nat) (h : 1 ≤ i) : lvl (Xfast.new r) i = [] := by
  simp only [Xfast.new, lvl, List.getD_eq_getElem?_getD]
  rw [List.getElem?_set_ne (by omega)]
  rw [List.getElem?_replicate]
  rcases Nat.lt_or_ge i (get_levels_count r + 1) with h' | h'
  · rw [if_pos h']; rfl
  · rw [if_neg (by omega)]; rfl

theorem readN_new_zero (r : Nat) : readN (Xfast.new r) 0 = TrieNode.new_internal 0 := rfl

/-! ## Claim C3: what `new` actually builds -/

/-- C3 counterexample: the claim says `new(bit_width)` builds `bit_width + 1`
level maps, so `new 31` would have 32 of them; in the code the argument is a
maximal value, not a bit width, and `new 31` builds `6` maps. -/
theorem c3_new_31_does_not_build_32_levels :
    ¬ ((Xfast.new 31).level_maps.length = 31 + 1) := by decide

/-- C3 (amended): `new range` computes `nr_levels` as the bit length of
`range` and builds `nr_levels + 1` empty level maps with the root node
inserted at level 0; every key up to `range` (that is, below
`2 ^ nr_levels`) lies in the universe.  In particular `new 31` builds 6
maps and supports keys below 32. -/
theorem c3_new_structure (range : Nat) :
    (Xfast.new range).nr_levels = get_levels_count range ∧
    (Xfast.new range).level_maps.length = get_levels_count range + 1 ∧
    mapGet (lvl (Xfast.new range) 0) 0 = some 0 ∧
    readN (Xfast.new range) 0 = TrieNode.new_internal 0 ∧
    (∀ i, 1 ≤ i → lvl (Xfast.new range) i = []) ∧
    range < 2 ^ get_levels_count range ∧
    (Xfast.new 31).level_maps.length = 6 := by
  refine ⟨rfl, new_level_maps_length range, ?_, rfl, lvl_new_pos range,
    lt_two_pow_get_levels_count range, by decide⟩
  rw [lvl_new_zero]
  rfl

/-- C3 witness. -/
theorem c3_new_structure_witness :
    (Xfast.new 31).nr_levels = get_levels_count 31 ∧
    (Xfast.new 31).level_maps.length = get_levels_count 31 + 1 ∧
    mapGet (lvl (Xfast.new 31) 0) 0 = some 0 ∧
    readN (Xfast.new 31) 0 = TrieNode.new_internal 0 ∧
    (∀ i, 1 ≤ i → lvl (Xfast.new 31) i = []) ∧
    31 < 2 ^ get_levels_count 31 ∧
    (Xfast.new 31).level_maps.length = 6 :=
  c3_new_structure 31

/-! ## Claim C9: deleting an absent key is a pure no-op -/

/-- C9: if `key` is not stored, `delete_key` returns `none` before touching
any state, so `len`, `find_key`, `find_predecessor` and `find_successor`
answer every query exactly as before. -/
theorem c9_delete_absent_is_noop (t : Xfast) (k : Nat)
    (h : find_key t k = none) :
    delete_key t k = (none, t) ∧
    Xfast.len (delete_key t k).2 = Xfast.len t ∧
    (∀ q, find_key (delete_key t k).2 q = find_key t q) ∧
    (∀ q, find_predecessor (delete_key t k).2 q = find_predecessor t q) ∧
    (∀ q, find_successor (delete_key t k).2 q = find_successor t q) := by
  have e : delete_key t k = (none, t) := by
    unfold delete_key find_key_as_non_null
    rw [show mapGet (lvl t t.nr_levels) k = none from h]
  exact ⟨e, by rw [e], fun q => by rw [e], fun q => by rw [e], fun q => by rw [e]⟩

/-- C9 witness: the fresh trie over range 1 does not store key 0. -/
theorem c9_delete_absent_is_noop_witness :
    delete_key (Xfast.new 1) 0 = (none, Xfast.new 1) ∧
    Xfast.len (delete_key (Xfast.new 1) 0).2 = Xfast.len (Xfast.new 1) ∧
    (∀ q, find_key (delete_key (Xfast.new 1) 0).2 q = find_key (Xfast.new 1) q) ∧
    (∀ q, find_predecessor (delete_key (Xfast.new 1) 0).2 q
      = find_predecessor (Xfast.new 1) q) ∧
    (∀ q, find_successor (delete_key (Xfast.new 1) 0).2 q
      = find_successor (Xfast.new 1) q) :=
  c9_delete_absent_is_noop (Xfast.new 1) 0 (by decide)

/-! ## The stale-pointer bug after deleting the last stored key

Deleting the only stored key prunes the whole path, but the root finalisation
of `update_descendant_ptr` then rebuilds the root's `left`/`right` from the
root's surviving stale pointer, so both root slots keep pointing at the
*removed* leaf.  The traces below exhibit this with `new 1` and key `1`. -/

/-- The trie over range 1 holding exactly key 1 (its leaf is arena index 1). -/
def bugT1 : Xfast := insert_key (Xfast.new 1) 1 0

/-- `bugT1` after `delete_key 1`: no key is stored any more. -/
def bugT2 : Xfast := (delete_key bugT1 1).2

/-- `bugT2` after re-inserting key 0 (its leaf is arena index 2). -/
def bugT3 : Xfast := insert_key bugT2 0 0

/-- C1 (code bug): after `insert 1; delete 1` nothing is stored, yet
`find_successor 0` returns the removed leaf (key 1) instead of `none`. -/
theorem c1_successor_nonempty_answer_on_empty_trie :
    Xfast.len bugT2 = 0 ∧ find_key bugT2 0 = none ∧ find_key bugT2 1 = none ∧
    (find_successor bugT2 0).map (fun i => (readN bugT2 i).key) = some 1 := by
  decide

/-- C2 (code bug): in the same emptied trie, `find_predecessor 1` returns the
removed leaf (key 1) instead of `none`. -/
theorem c2_predecessor_nonempty_answer_on_empty_trie :
    Xfast.len bugT2 = 0 ∧
    (find_predecessor bugT2 1).map (fun i => (readN bugT2 i).key) = some 1 := by
  decide

/-- C5 (code bug): deleting the only stored key returns the removed entry and
fixes `find_key`/`len`, but the key had no Leaf-Chain neighbours, and
afterwards `find_successor`/`find_predecessor` of the key return the removed
leaf itself instead of `none`. -/
theorem c5_delete_breaks_neighbour_queries :
    Xfast.len bugT1 = 1 ∧ (delete_key bugT1 1).1 = some 1 ∧
    (readN bugT1 1).key = 1 ∧ (readN bugT1 1).left = none ∧
    (readN bugT1 1).right = none ∧
    find_key bugT2 1 = none ∧ Xfast.len bugT2 = 0 ∧
    (find_successor bugT2 1).map (fun i => (readN bugT2 i).key) = some 1 ∧
    (find_predecessor bugT2 1).map (fun i => (readN bugT2 i).key) = some 1 := by
  decide

/-- C6 (code bug): after `insert 1; delete 1; insert 0` the only stored leaf
is key 0 (arena index 2), yet its `right` chain link still points at the
removed leaf of key 1, so the chain of the maximum stored leaf is not
absent. -/
theorem c6_chain_right_link_of_maximum_not_absent :
    Xfast.len bugT3 = 1 ∧ find_key bugT3 0 = some 2 ∧ find_key bugT3 1 = none ∧
    (readN bugT3 2).key = 0 ∧ (readN bugT3 2).right = some 1 ∧
    (readN bugT3 1).key = 1 := by
  decide

/-! ## Claim C10: a freshly built trie answers every query with nothing -/

theorem lcaGo_none_of_low_pos (t : Xfast) (q : Nat)
    (he : ∀ m, 1 ≤ m → lvl t m = []) :
    ∀ fuel low high anc, 1 ≤ low → lcaGo t q fuel low high anc = anc := by
  intro fuel
  induction fuel with
  | zero => intro low high anc _; rfl
  | succ f ih =>
    intro low high anc hlow
    by_cases hg : low ≤ high
    · have hm : 1 ≤ (low + high) / 2 := by omega
      simp only [lcaGo, if_pos hg, he _ hm, mapGet_nil]
      rw [if_neg (by omega)]
      exact ih low _ anc hlow
    · simp only [lcaGo, if_neg hg]

theorem lcaGo_fresh_root (t : Xfast) (q : Nat)
    (he : ∀ m, 1 ≤ m → lvl t m = [])
    (h0 : mapGet (lvl t 0) (q >>> t.nr_levels) = some 0) :
    ∀ fuel high anc, high + 2 ≤ fuel → lcaGo t q fuel 0 high anc = some 0 := by
  intro fuel
  induction fuel with
  | zero => intro high anc h; omega
  | succ f ih =>
    intro high anc hf
    have hg : 0 ≤ high := Nat.zero_le high
    by_cases hm : (0 + high) / 2 = 0
    · simp only [lcaGo, if_pos hg, hm, Nat.sub_zero, h0]
      exact lcaGo_none_of_low_pos t q he f 1 high (some 0) (le_refl 1)
    · have h1 : 1 ≤ (0 + high) / 2 := by omega
      simp only [lcaGo, if_pos hg, he _ h1, mapGet_nil]
      rw [if_neg hm]
      exact ih _ anc (by omega)

/-- C10: for `r ≥ 1` the freshly built trie has the root stored internally
at level 0, yet `len` is `0` and `find_key`, `find_predecessor` and
`find_successor` return `none` on every in-range query. -/
theorem c10_fresh_trie_is_empty (r q : Nat) (hr : 1 ≤ r)
    (hq : q < 2 ^ (Xfast.new r).nr_levels) :
    mapGet (lvl (Xfast.new r) 0) 0 = some 0 ∧
    Xfast.len (Xfast.new r) = 0 ∧
    find_key (Xfast.new r) q = none ∧
    find_predecessor (Xfast.new r) q = none ∧
    find_successor (Xfast.new r) q = none := by
  set t := Xfast.new r with ht
  have hL : 1 ≤ t.nr_levels := one_le_get_levels_count hr
  have he : ∀ m, 1 ≤ m → lvl t m = [] := fun m hm => lvl_new_pos r m hm
  have hshift : q >>> t.nr_levels = 0 := by
    rw [Nat.shiftRight_eq_div_pow]
    exact Nat.div_eq_of_lt hq
  have h0 : mapGet (lvl t 0) (q >>> t.nr_levels) = some 0 := by
    rw [hshift, lvl_new_zero]
    rfl
  have hlca : find_lowest_common_ancestor t q = some 0 := by
    unfold find_lowest_common_ancestor
    exact lcaGo_fresh_root t q he h0 (t.nr_levels + 2) t.nr_levels none (by omega)
  have hroot : readN t 0 = TrieNode.new_internal 0 := rfl
  refine ⟨by rw [lvl_new_zero]; rfl, ?_, ?_, ?_, ?_⟩
  · unfold Xfast.len
    rw [he t.nr_levels hL]
    rfl
  · unfold find_key
    rw [he t.nr_levels hL]
    rfl
  · unfold find_predecessor
    rw [hlca]
    simp only [hroot, TrieNode.new_internal]
    rw [if_neg (by omega)]
    simp
  · unfold find_successor
    rw [hlca]
    simp only [hroot, TrieNode.new_internal]
    rw [if_neg (by omega)]
    simp

/-- C10 witness. -/
theorem c10_fresh_trie_is_empty_witness :
    mapGet (lvl (Xfast.new 1) 0) 0 = some 0 ∧
    Xfast.len (Xfast.new 1) = 0 ∧
    find_key (Xfast.new 1) 1 = none ∧
    find_predecessor (Xfast.new 1) 1 = none ∧
    find_successor (Xfast.new 1) 1 = none :=
  c10_fresh_trie_is_empty 1 1 (by decide) (by decide)


/-! ## Frame lemmas: no write in the source ever touches `key` or `value`,
the level counts are never changed, and the arena only grows -/

def Frame (t t' : Xfast) : Prop :=
  t'.nr_levels = t.nr_levels ∧
  t'.level_maps.length = t.level_maps.length ∧
  t.arena.length ≤ t'.arena.length ∧
  ∀ i, i < t.arena.length →
    (readN t' i).key = (readN t i).key ∧ (readN t' i).value = (readN t i).value

theorem frame_refl (t : Xfast) : Frame t t :=
  ⟨rfl, rfl, le_refl _, fun _ _ => ⟨rfl, rfl⟩⟩

theorem frame_trans {t1 t2 t3 : Xfast} (h1 : Frame t1 t2) (h2 : Frame t2 t3) :
    Frame t1 t3 := by
  obtain ⟨a1, b1, c1, d1⟩ := h1
  obtain ⟨a2, b2, c2, d2⟩ := h2
  refine ⟨a2.trans a1, b2.trans b1, c1.trans c2, fun i hi => ?_⟩
  obtain ⟨e1, f1⟩ := d1 i hi
  obtain ⟨e2, f2⟩ := d2 i (lt_of_lt_of_le hi c1)
  exact ⟨e2.trans e1, f2.trans f1⟩

theorem frame_writeN (t : Xfast) (j : Nat) (f : TrieNode → TrieNode)
    (hf : ∀ n, (f n).key = n.key ∧ (f n).value = n.value) :
    Frame t (writeN t j f) := by
  refine ⟨rfl, rfl, by simp, fun i hi => ?_⟩
  by_cases hij : j = i
  · subst hij
    rw [readN_writeN_self t j f hi]
    exact hf _
  · rw [readN_writeN_ne t j i f hij]
    exact ⟨rfl, rfl⟩

theorem frame_writeN_after {t u : Xfast} (h : Frame t u) (j : Nat) (f : TrieNode → TrieNode)
    (hf : ∀ n, (f n).key = n.key ∧ (f n).value = n.value) :
    Frame t (writeN u j f) :=
  frame_trans h (frame_writeN u j f hf)

theorem frame_setLvl (t : Xfast) (i : Nat) (m : List (Nat × Nat)) :
    Frame t (setLvl t i m) :=
  ⟨rfl, by simp [setLvl], le_refl _, fun _ _ => ⟨rfl, rfl⟩⟩

theorem frame_setLvl_after {t u : Xfast} (h : Frame t u) (i : Nat) (m : List (Nat × Nat)) :
    Frame t (setLvl u i m) :=
  frame_trans h (frame_setLvl u i m)

theorem frame_allocN (t : Xfast) (n : TrieNode) : Frame t (allocN t n) := by
  refine ⟨rfl, rfl, by simp, fun i hi => ?_⟩
  rw [readN_allocN_lt t n i hi]
  exact ⟨rfl, rfl⟩

theorem frame_chainSplice (t : Xfast) (nid : Nat) (pr su : Option Nat) :
    Frame t (chainSplice t nid pr su) := by
  unfold chainSplice
  cases pr <;> cases su <;> dsimp only
  · exact frame_refl t
  · refine frame_writeN_after (frame_writeN_after (frame_refl t) _ _ ?_) _ _ ?_ <;>
      exact fun n => ⟨rfl, rfl⟩
  · refine frame_writeN_after (frame_writeN_after (frame_refl t) _ _ ?_) _ _ ?_ <;>
      exact fun n => ⟨rfl, rfl⟩
  · refine frame_writeN_after (frame_writeN_after (frame_writeN_after
      (frame_writeN_after (frame_refl t) _ _ ?_) _ _ ?_) _ _ ?_) _ _ ?_ <;>
      exact fun n => ⟨rfl, rfl⟩

theorem frame_leafLink (t : Xfast) (key nid L : Nat) :
    Frame t (leafLink t key nid L) := by
  unfold leafLink
  split
  · exact frame_refl t
  · split <;> (refine frame_writeN _ _ _ ?_; exact fun n => ⟨rfl, rfl⟩)

theorem frame_populateStep (key L : Nat) (t : Xfast) (level : Nat) :
    Frame t (populateStep key L t level) := by
  unfold populateStep
  dsimp only
  split
  · exact frame_refl t
  · split
    · exact frame_trans (frame_allocN t _) (frame_setLvl _ _ _)
    · split <;>
        (refine frame_writeN_after (frame_trans (frame_allocN t _) (frame_setLvl _ _ _)) _ _ ?_;
          exact fun n => ⟨rfl, rfl⟩)

theorem frame_foldl {step : Xfast → Nat → Xfast}
    (hs : ∀ t m, Frame t (step t m)) :
    ∀ (l : List Nat) (t : Xfast), Frame t (l.foldl step t) := by
  intro l
  induction l with
  | nil => intro t; exact frame_refl t
  | cons m ms ih => intro t; exact frame_trans (hs t m) (ih (step t m))

theorem frame_populate (t : Xfast) (key : Nat) :
    Frame t (populate_internal_nodes t key) :=
  frame_foldl (frame_populateStep key t.nr_levels) _ t

theorem frame_updStep (key L : Nat) (t : Xfast) (level : Nat) :
    Frame t (updStep key L t level) := by
  unfold updStep
  dsimp only
  split
  · exact frame_refl t
  · split
    · split
      · refine frame_writeN _ _ _ ?_; exact fun n => ⟨rfl, rfl⟩
      · exact frame_refl t
    · split
      · refine frame_writeN _ _ _ ?_; exact fun n => ⟨rfl, rfl⟩
      · split
        · refine frame_writeN _ _ _ ?_; exact fun n => ⟨rfl, rfl⟩
        · split
          · refine frame_writeN _ _ _ ?_; exact fun n => ⟨rfl, rfl⟩
          · exact frame_refl t

theorem frame_rootStepLeft (t : Xfast) (rid L : Nat) :
    Frame t (rootStepLeft t rid L) := by
  unfold rootStepLeft
  split
  · split
    · refine frame_writeN _ _ _ ?_; exact fun n => ⟨rfl, rfl⟩
    · exact frame_refl t
  · exact frame_refl t

theorem frame_rootStepRight (t : Xfast) (rid L : Nat) (dr : Bool) :
    Frame t (rootStepRight t rid L dr) := by
  unfold rootStepRight
  split
  · split
    · refine frame_writeN _ _ _ ?_; exact fun n => ⟨rfl, rfl⟩
    · exact frame_refl t
  · exact frame_refl t

theorem frame_rootStep (t : Xfast) (L : Nat) : Frame t (rootStep t L) := by
  unfold rootStep
  split
  · exact frame_refl t
  · exact frame_trans (frame_rootStepLeft t _ L) (frame_rootStepRight _ _ L _)

theorem frame_update (t : Xfast) (key : Nat) :
    Frame t (update_descendant_ptr t key) :=
  frame_trans (frame_foldl (frame_updStep key t.nr_levels) _ t) (frame_rootStep _ _)

theorem frame_delGo : ∀ (counter : Nat) (t : Xfast) (p c : Nat),
    Frame t (delGo t p c counter) := by
  intro counter
  induction counter with
  | zero => intro t p c; exact frame_refl t
  | succ n ih =>
    intro t p c
    unfold delGo
    dsimp only
    split
    · exact frame_refl t
    · refine frame_trans (frame_setLvl_after ?_ _ _) (ih _ _ _)
      split
      · exact frame_refl t
      · split <;> (refine frame_writeN _ _ _ ?_; exact fun n => ⟨rfl, rfl⟩)

theorem frame_delParentClear (t : Xfast) (key L : Nat) :
    Frame t (delParentClear t key L) := by
  unfold delParentClear
  split
  · exact frame_refl t
  · split <;> (refine frame_writeN _ _ _ ?_; exact fun n => ⟨rfl, rfl⟩)

theorem frame_delSplice (t : Xfast) (did : Nat) : Frame t (delSplice t did) := by
  unfold delSplice
  dsimp only
  split
  · split
    · exact frame_refl t
    · refine frame_writeN _ _ _ ?_; exact fun n => ⟨rfl, rfl⟩
  · split
    · refine frame_writeN _ _ _ ?_; exact fun n => ⟨rfl, rfl⟩
    · refine frame_writeN_after (frame_writeN_after (frame_refl t) _ _ ?_) _ _ ?_ <;>
        exact fun n => ⟨rfl, rfl⟩

theorem frame_insert (t : Xfast) (k v : Nat) : Frame t (insert_key t k v) := by
  unfold insert_key
  dsimp only
  refine frame_trans ?_ (frame_update _ _)
  refine frame_trans ?_ (frame_leafLink _ _ _ _)
  refine frame_trans ?_ (frame_setLvl _ _ _)
  refine frame_trans ?_ (frame_populate _ _)
  refine frame_trans ?_ (frame_chainSplice _ _ _ _)
  exact frame_allocN t _

theorem frame_delete (t : Xfast) (k : Nat) : Frame t (delete_key t k).2 := by
  unfold delete_key
  split
  · exact frame_refl t
  · dsimp only
    refine frame_trans ?_ (frame_update _ _)
    refine frame_trans ?_ (frame_setLvl _ _ _)
    refine frame_trans ?_ (frame_delSplice _ _)
    refine frame_trans ?_ (frame_delGo _ _ _ _)
    exact frame_delParentClear t _ _

/-! ## Which level maps each operation touches -/

theorem lvl_congr {t t' : Xfast} (h : t'.level_maps = t.level_maps) (j : Nat) :
    lvl t' j = lvl t j := by
  simp [lvl, h]

theorem level_maps_chainSplice (t : Xfast) (nid : Nat) (pr su : Option Nat) :
    (chainSplice t nid pr su).level_maps = t.level_maps := by
  unfold chainSplice
  cases pr <;> cases su <;> rfl

theorem level_maps_leafLink (t : Xfast) (key nid L : Nat) :
    (leafLink t key nid L).level_maps = t.level_maps := by
  unfold leafLink
  split
  · rfl
  · split <;> rfl

theorem level_maps_updStep (key L : Nat) (t : Xfast) (level : Nat) :
    (updStep key L t level).level_maps = t.level_maps := by
  unfold updStep
  dsimp only
  split
  · rfl
  · split
    · split <;> rfl
    · split
      · rfl
      · split
        · rfl
        · split
          · rfl
          · rfl

theorem level_maps_rootStepLeft (t : Xfast) (rid L : Nat) :
    (rootStepLeft t rid L).level_maps = t.level_maps := by
  unfold rootStepLeft
  split
  · split <;> rfl
  · rfl

theorem level_maps_rootStepRight (t : Xfast) (rid L : Nat) (dr : Bool) :
    (rootStepRight t rid L dr).level_maps = t.level_maps := by
  unfold rootStepRight
  split
  · split <;> rfl
  · rfl

theorem level_maps_rootStep (t : Xfast) (L : Nat) :
    (rootStep t L).level_maps = t.level_maps := by
  unfold rootStep
  split
  · rfl
  · rw [level_maps_rootStepRight, level_maps_rootStepLeft]

theorem level_maps_foldl {step : Xfast → Nat → Xfast}
    (hs : ∀ t m, (step t m).level_maps = t.level_maps) :
    ∀ (l : List Nat) (t : Xfast), (l.foldl step t).level_maps = t.level_maps := by
  intro l
  induction l with
  | nil => intro t; rfl
  | cons m ms ih =>
    intro t
    simp only [List.foldl_cons]
    rw [ih, hs]

theorem level_maps_update (t : Xfast) (key : Nat) :
    (update_descendant_ptr t key).level_maps = t.level_maps := by
  unfold update_descendant_ptr
  rw [level_maps_rootStep, level_maps_foldl (level_maps_updStep key t.nr_levels)]

theorem level_maps_delParentClear (t : Xfast) (key L : Nat) :
    (delParentClear t key L).level_maps = t.level_maps := by
  unfold delParentClear
  split
  · rfl
  · split <;> rfl

theorem level_maps_delSplice (t : Xfast) (did : Nat) :
    (delSplice t did).level_maps = t.level_maps := by
  unfold delSplice
  dsimp only
  split
  · split <;> rfl
  · split <;> rfl

theorem lvl_populateStep_ne (key L : Nat) (t : Xfast) (level j : Nat) (hj : j ≠ level) :
    lvl (populateStep key L t level) j = lvl t j := by
  unfold populateStep
  dsimp only
  split
  · rfl
  · split
    · rw [lvl_setLvl_ne _ _ _ _ (Ne.symm hj), lvl_allocN]
    · split <;> rw [lvl_writeN, lvl_setLvl_ne _ _ _ _ (Ne.symm hj), lvl_allocN]

theorem lvl_populate_foldl_ne (key L : Nat) :
    ∀ (l : List Nat) (t : Xfast) (j : Nat), (∀ m ∈ l, m ≠ j) →
      lvl (l.foldl (populateStep key L) t) j = lvl t j := by
  intro l
  induction l with
  | nil => intro t j _; rfl
  | cons m ms ih =>
    intro t j hm
    simp only [List.foldl_cons]
    rw [ih _ j (fun a ha => hm a (List.mem_cons_of_mem m ha)),
      lvl_populateStep_ne key L t m j (Ne.symm (hm m (List.mem_cons_self m ms)))]

theorem lvl_populate_out (t : Xfast) (key j : Nat)
    (hj : j = 0 ∨ t.nr_levels ≤ j) :
    lvl (populate_internal_nodes t key) j = lvl t j := by
  unfold populate_internal_nodes
  refine lvl_populate_foldl_ne key t.nr_levels _ t j ?_
  intro m hm
  rw [List.mem_range'] at hm
  omega

theorem lvl_delGo_out : ∀ (counter : Nat) (t : Xfast) (p c j : Nat),
    (j = 0 ∨ counter < j) → lvl (delGo t p c counter) j = lvl t j := by
  intro counter
  induction counter with
  | zero => intro t p c j _; rfl
  | succ n ih =>
    intro t p c j hj
    unfold delGo
    dsimp only
    split
    · rfl
    · rw [ih _ _ _ j (by omega), lvl_setLvl_ne _ _ _ _ (by omega)]
      split
      · rfl
      · split <;> rfl

theorem insert_key_nr_levels (t : Xfast) (k v : Nat) :
    (insert_key t k v).nr_levels = t.nr_levels :=
  (frame_insert t k v).1

theorem delete_key_nr_levels (t : Xfast) (k : Nat) :
    (delete_key t k).2.nr_levels = t.nr_levels :=
  (frame_delete t k).1

theorem lvl_insert_top (t : Xfast) (k v : Nat)
    (hlen : t.nr_levels < t.level_maps.length) :
    lvl (insert_key t k v) t.nr_levels
      = mapInsert (lvl t t.nr_levels) k t.arena.length := by
  unfold insert_key
  dsimp only
  rw [lvl_congr (level_maps_update _ _), lvl_congr (level_maps_leafLink _ _ _ _)]
  have hlen2 : t.nr_levels <
      (populate_internal_nodes
        (chainSplice (allocN t (TrieNode.mk_leaf k v t.nr_levels)) t.arena.length
          (find_predecessor (allocN t (TrieNode.mk_leaf k v t.nr_levels)) k)
          (find_successor (allocN t (TrieNode.mk_leaf k v t.nr_levels)) k))
        k).level_maps.length := by
    rw [(frame_populate _ _).2.1, level_maps_chainSplice]
    exact hlen
  rw [lvl_setLvl_self _ _ _ hlen2]
  have e1 : lvl (chainSplice (allocN t (TrieNode.mk_leaf k v t.nr_levels)) t.arena.length
      (find_predecessor (allocN t (TrieNode.mk_leaf k v t.nr_levels)) k)
      (find_successor (allocN t (TrieNode.mk_leaf k v t.nr_levels)) k)) t.nr_levels
      = lvl t t.nr_levels := lvl_congr (level_maps_chainSplice _ _ _ _) _
  have e2 := lvl_populate_out
    (chainSplice (allocN t (TrieNode.mk_leaf k v t.nr_levels)) t.arena.length
      (find_predecessor (allocN t (TrieNode.mk_leaf k v t.nr_levels)) k)
      (find_successor (allocN t (TrieNode.mk_leaf k v t.nr_levels)) k)) k t.nr_levels
  rw [(frame_chainSplice _ _ _ _).1] at e2
  rw [e2 (Or.inr (le_refl _)), e1]

theorem delete_key_absent (t : Xfast) (k : Nat)
    (h : mapGet (lvl t t.nr_levels) k = none) :
    delete_key t k = (none, t) := by
  unfold delete_key find_key_as_non_null
  rw [h]

theorem delete_key_present (t : Xfast) (k did : Nat)
    (h : mapGet (lvl t t.nr_levels) k = some did)
    (hlen : t.nr_levels < t.level_maps.length) :
    (delete_key t k).1 = some did ∧
    lvl (delete_key t k).2 t.nr_levels = mapRemove (lvl t t.nr_levels) k := by
  unfold delete_key find_key_as_non_null
  rw [h]
  dsimp only
  refine ⟨rfl, ?_⟩
  rw [lvl_congr (level_maps_update _ _)]
  have hlen2 : t.nr_levels <
      (delSplice (delete_internal_node (delParentClear t k t.nr_levels) k)
        did).level_maps.length := by
    rw [level_maps_delSplice]
    unfold delete_internal_node
    rw [(frame_delGo _ _ _ _).2.1, level_maps_delParentClear]
    exact hlen
  rw [lvl_setLvl_self _ _ _ hlen2]
  have e1 : lvl (delSplice (delete_internal_node (delParentClear t k t.nr_levels) k) did)
      t.nr_levels = lvl t t.nr_levels := by
    rw [lvl_congr (level_maps_delSplice _ _)]
    unfold delete_internal_node
    rw [(frame_delParentClear t k t.nr_levels).1]
    rw [lvl_delGo_out _ _ _ _ _ (by omega), lvl_congr (level_maps_delParentClear _ _ _)]
  rw [e1]

/-! ## Counting: the leaf-level map under inserts and deletes -/

theorem filter_id_of_mapGet_none (m : List (Nat × Nat)) (k : Nat)
    (h : mapGet m k = none) : m.filter (fun q => q.1 != k) = m := by
  apply List.filter_eq_self.mpr
  intro p hp
  have hf : m.find? (fun q => q.1 == k) = none := by
    simpa [mapGet] using h
  have h2 := List.find?_eq_none.mp hf p hp
  simpa using h2

theorem length_mapInsert_absent (m : List (Nat × Nat)) (k v : Nat)
    (h : mapGet m k = none) : (mapInsert m k v).length = m.length + 1 := by
  unfold mapInsert
  rw [filter_id_of_mapGet_none m k h]
  simp

def KeysNodup (m : List (Nat × Nat)) : Prop := (m.map Prod.fst).Nodup

theorem keysNodup_mapInsert (m : List (Nat × Nat)) (k v : Nat) (h : KeysNodup m) :
    KeysNodup (mapInsert m k v) := by
  unfold KeysNodup mapInsert
  simp only [List.map_cons]
  refine List.nodup_cons.mpr ⟨?_, ?_⟩
  · intro hk
    obtain ⟨p, hp, he⟩ := List.mem_map.mp hk
    have h2 := List.of_mem_filter hp
    simp at h2
    omega
  · exact List.Nodup.sublist (List.Sublist.map Prod.fst (List.filter_sublist m)) h

theorem keysNodup_mapRemove (m : List (Nat × Nat)) (k : Nat) (h : KeysNodup m) :
    KeysNodup (mapRemove m k) :=
  List.Nodup.sublist (List.Sublist.map Prod.fst (List.filter_sublist m)) h

theorem mapGet_none_of_not_mem_keys (m : List (Nat × Nat)) (k : Nat)
    (h : k ∉ m.map Prod.fst) : mapGet m k = none := by
  unfold mapGet
  rw [List.find?_eq_none.mpr]
  · rfl
  · intro p hp
    simp only [beq_iff_eq]
    intro he
    exact h (List.mem_map.mpr ⟨p, hp, he⟩)

theorem length_mapRemove_present (m : List (Nat × Nat)) (k v : Nat)
    (hnd : KeysNodup m) (h : mapGet m k = some v) :
    (mapRemove m k).length + 1 = m.length := by
  induction m with
  | nil => simp [mapGet] at h
  | cons a as ih =>
    have hnd' := hnd
    rw [KeysNodup, List.map_cons, List.nodup_cons] at hnd'
    by_cases ha : a.1 = k
    · unfold mapRemove
      rw [List.filter_cons, if_neg (by simp [ha])]
      have hnone : mapGet as k = none := by
        refine mapGet_none_of_not_mem_keys as k ?_
        rw [← ha]
        exact hnd'.1
      have e : List.filter (fun q => q.1 != k) as = as :=
        filter_id_of_mapGet_none as k hnone
      rw [e]
      simp
    · have h' : mapGet as k = some v := by
        unfold mapGet at h ⊢
        rwa [List.find?_cons_of_neg _ (by simpa using ha)] at h
      have e := ih hnd'.2 h'
      unfold mapRemove at e ⊢
      rw [List.filter_cons, if_pos (by simpa using ha)]
      simp only [List.length_cons]
      omega

/-! ## Operation traces -/

/-- A public mutating call. -/
inductive Op where
  | ins (k v : Nat)
  | del (k : Nat)
  deriving DecidableEq, Repr

def applyOp (t : Xfast) : Op → Xfast
  | Op.ins k v => insert_key t k v
  | Op.del k => (delete_key t k).2

def runOps : Xfast → List Op → Xfast
  | t, [] => t
  | t, o :: os => runOps (applyOp t o) os

/-- Trace validity as the claims use it: every inserted key is in range and
not currently stored; deletions are unconstrained. -/
def goodOpsB : Xfast → List Op → Bool
  | _, [] => true
  | t, Op.ins k v :: os =>
    decide (k < 2 ^ t.nr_levels) && (find_key t k).isNone && goodOpsB (insert_key t k v) os
  | t, Op.del k :: os => goodOpsB ((delete_key t k).2) os

/-- Number of (successful) inserts in a trace. -/
def insCount : List Op → Nat
  | [] => 0
  | Op.ins _ _ :: os => insCount os + 1
  | Op.del _ :: os => insCount os

/-- Number of successful deletes in a trace (those that return a node). -/
def delOkCount : Xfast → List Op → Nat
  | _, [] => 0
  | t, Op.ins k v :: os => delOkCount (insert_key t k v) os
  | t, Op.del k :: os =>
    (if (find_key t k).isSome then 1 else 0) + delOkCount ((delete_key t k).2) os

/-- The shape facts every reachable state keeps: at least one proper level,
level maps long enough, and no duplicate key in the leaf-level map. -/
def GoodShape (t : Xfast) : Prop :=
  1 ≤ t.nr_levels ∧ t.nr_levels < t.level_maps.length ∧ KeysNodup (lvl t t.nr_levels)

theorem goodShape_insert (t : Xfast) (k v : Nat) (h : GoodShape t) :
    GoodShape (insert_key t k v) := by
  obtain ⟨h1, h2, h3⟩ := h
  refine ⟨?_, ?_, ?_⟩
  · rw [insert_key_nr_levels]; exact h1
  · rw [insert_key_nr_levels, (frame_insert t k v).2.1]; exact h2
  · rw [insert_key_nr_levels, lvl_insert_top t k v h2]
    exact keysNodup_mapInsert _ _ _ h3

theorem goodShape_delete (t : Xfast) (k : Nat) (h : GoodShape t) :
    GoodShape (delete_key t k).2 := by
  cases hk : mapGet (lvl t t.nr_levels) k with
  | none => rw [delete_key_absent t k hk]; exact h
  | some did =>
    obtain ⟨-, e⟩ := delete_key_present t k did hk h.2.1
    refine ⟨?_, ?_, ?_⟩
    · rw [delete_key_nr_levels]; exact h.1
    · rw [delete_key_nr_levels, (frame_delete t k).2.1]; exact h.2.1
    · rw [delete_key_nr_levels, e]
      exact keysNodup_mapRemove _ _ h.2.2

theorem goodShape_new (r : Nat) (hr : 1 ≤ r) : GoodShape (Xfast.new r) := by
  refine ⟨one_le_get_levels_count hr, ?_, ?_⟩
  · rw [new_nr_levels, new_level_maps_length]
    omega
  · rw [new_nr_levels, lvl_new_pos r _ (one_le_get_levels_count hr)]
    exact List.nodup_nil

theorem len_insert_absent (t : Xfast) (k v : Nat)
    (h2 : t.nr_levels < t.level_maps.length)
    (habs : mapGet (lvl t t.nr_levels) k = none) :
    Xfast.len (insert_key t k v) = Xfast.len t + 1 := by
  unfold Xfast.len
  rw [insert_key_nr_levels, lvl_insert_top t k v h2, length_mapInsert_absent _ _ _ habs]

theorem len_delete_present (t : Xfast) (k did : Nat) (hQ : GoodShape t)
    (h : mapGet (lvl t t.nr_levels) k = some did) :
    Xfast.len (delete_key t k).2 + 1 = Xfast.len t := by
  obtain ⟨-, e⟩ := delete_key_present t k did h hQ.2.1
  unfold Xfast.len
  rw [delete_key_nr_levels, e]
  exact length_mapRemove_present _ _ _ hQ.2.2 h

theorem c8_core : ∀ (ops : List Op) (t : Xfast), GoodShape t → goodOpsB t ops = true →
    Xfast.len (runOps t ops) + delOkCount t ops = Xfast.len t + insCount ops := by
  intro ops
  induction ops with
  | nil => intro t _ _; simp [runOps, delOkCount, insCount]
  | cons o os ih =>
    intro t hQ hg
    cases o with
    | ins k v =>
      rw [show goodOpsB t (Op.ins k v :: os)
          = (decide (k < 2 ^ t.nr_levels) && (find_key t k).isNone
            && goodOpsB (insert_key t k v) os) from rfl] at hg
      simp only [Bool.and_eq_true, decide_eq_true_eq, Option.isNone_iff_eq_none] at hg
      obtain ⟨⟨-, habs⟩, hrest⟩ := hg
      have e := ih (insert_key t k v) (goodShape_insert t k v hQ) hrest
      show Xfast.len (runOps (insert_key t k v) os) + delOkCount (insert_key t k v) os
        = Xfast.len t + insCount (Op.ins k v :: os)
      rw [e, len_insert_absent t k v hQ.2.1 habs,
        show insCount (Op.ins k v :: os) = insCount os + 1 from rfl]
      omega
    | del k =>
      rw [show goodOpsB t (Op.del k :: os) = goodOpsB ((delete_key t k).2) os from rfl] at hg
      have e := ih ((delete_key t k).2) (goodShape_delete t k hQ) hg
      show Xfast.len (runOps ((delete_key t k).2) os) + delOkCount t (Op.del k :: os)
        = Xfast.len t + insCount (Op.del k :: os)
      rw [show delOkCount t (Op.del k :: os)
        = (if (find_key t k).isSome then 1 else 0) + delOkCount ((delete_key t k).2) os from rfl,
        show insCount (Op.del k :: os) = insCount os from rfl]
      cases hk : mapGet (lvl t t.nr_levels) k with
      | none =>
        have e0 : delete_key t k = (none, t) := delete_key_absent t k hk
        rw [show (find_key t k) = mapGet (lvl t t.nr_levels) k from rfl, hk]
        simp only [Option.isSome_none, Bool.false_eq_true, if_false]
        rw [e0] at e ⊢
        dsimp only at e ⊢
        omega
      | some did =>
        rw [show (find_key t k) = mapGet (lvl t t.nr_levels) k from rfl, hk]
        simp only [Option.isSome_some, if_true]
        have e1 := len_delete_present t k did hQ hk
        omega

/-- C8: along every valid trace from a freshly built trie, `len` equals the
number of successful inserts of distinct keys minus the number of successful
deletes, and the leaf-level map holds each stored key exactly once (so `len`
is also the number of currently stored distinct keys). -/
theorem c8_len_counts_inserts_minus_deletes (r : Nat) (ops : List Op) (hr : 1 ≤ r)
    (hg : goodOpsB (Xfast.new r) ops = true) :
    Xfast.len (runOps (Xfast.new r) ops) + delOkCount (Xfast.new r) ops = insCount ops ∧
    KeysNodup (lvl (runOps (Xfast.new r) ops) (runOps (Xfast.new r) ops).nr_levels) := by
  have hQ0 : GoodShape (Xfast.new r) := goodShape_new r hr
  have hQ : ∀ (os : List Op) (t : Xfast), GoodShape t → GoodShape (runOps t os) := by
    intro os
    induction os with
    | nil => intro t h; exact h
    | cons o os ih =>
      intro t h
      cases o with
      | ins k v => exact ih _ (goodShape_insert t k v h)
      | del k => exact ih _ (goodShape_delete t k h)
  constructor
  · have e := c8_core ops (Xfast.new r) hQ0 hg
    have e0 : Xfast.len (Xfast.new r) = 0 := by
      unfold Xfast.len
      rw [new_nr_levels, lvl_new_pos r _ (one_le_get_levels_count hr)]
      rfl
    omega
  · exact (hQ ops (Xfast.new r) hQ0).2.2

/-- C8 witness: insert 0 and 1, delete 0, over range 1. -/
theorem c8_len_counts_inserts_minus_deletes_witness :
    Xfast.len (runOps (Xfast.new 1) [Op.ins 0 5, Op.ins 1 7, Op.del 0])
        + delOkCount (Xfast.new 1) [Op.ins 0 5, Op.ins 1 7, Op.del 0]
      = insCount [Op.ins 0 5, Op.ins 1 7, Op.del 0] ∧
    KeysNodup (lvl (runOps (Xfast.new 1) [Op.ins 0 5, Op.ins 1 7, Op.del 0])
      (runOps (Xfast.new 1) [Op.ins 0 5, Op.ins 1 7, Op.del 0]).nr_levels) :=
  c8_len_counts_inserts_minus_deletes 1 [Op.ins 0 5, Op.ins 1 7, Op.del 0]
    (by decide) (by decide)

/-! ## Claim C4: find after a sequence of inserts with distinct keys -/

/-- Run a sequence of `insert_key` calls. -/
def insRun : Xfast → List (Nat × Nat) → Xfast
  | t, [] => t
  | t, p :: ps => insRun (insert_key t p.1 p.2) ps

theorem frame_insRun : ∀ (ps : List (Nat × Nat)) (t : Xfast), Frame t (insRun t ps) := by
  intro ps
  induction ps with
  | nil => intro t; exact frame_refl t
  | cons p ps ih => intro t; exact frame_trans (frame_insert t p.1 p.2) (ih _)

theorem find_key_insert_ne (t : Xfast) (k v k' : Nat)
    (h2 : t.nr_levels < t.level_maps.length) (hne : k' ≠ k) :
    find_key (insert_key t k v) k' = find_key t k' := by
  unfold find_key
  rw [insert_key_nr_levels, lvl_insert_top t k v h2, mapGet_mapInsert_ne _ _ _ _ hne]

theorem insRun_find_not_mem : ∀ (ps : List (Nat × Nat)) (t : Xfast) (k : Nat),
    t.nr_levels < t.level_maps.length → k ∉ ps.map Prod.fst →
    find_key (insRun t ps) k = find_key t k := by
  intro ps
  induction ps with
  | nil => intro t k _ _; rfl
  | cons p ps ih =>
    intro t k h2 hk
    simp only [List.map_cons, List.mem_cons, not_or] at hk
    show find_key (insRun (insert_key t p.1 p.2) ps) k = find_key t k
    rw [ih (insert_key t p.1 p.2) k
        (by rw [insert_key_nr_levels, (frame_insert t p.1 p.2).2.1]; exact h2) hk.2]
    exact find_key_insert_ne t p.1 p.2 k h2 hk.1

theorem frame_insert_from_alloc (t : Xfast) (k v : Nat) :
    Frame (allocN t (TrieNode.mk_leaf k v t.nr_levels)) (insert_key t k v) := by
  unfold insert_key
  dsimp only
  refine frame_trans ?_ (frame_update _ _)
  refine frame_trans ?_ (frame_leafLink _ _ _ _)
  refine frame_trans ?_ (frame_setLvl _ _ _)
  refine frame_trans ?_ (frame_populate _ _)
  exact frame_chainSplice _ _ _ _

theorem insert_key_new_leaf (t : Xfast) (k v : Nat)
    (h2 : t.nr_levels < t.level_maps.length) :
    find_key (insert_key t k v) k = some t.arena.length ∧
    (readN (insert_key t k v) t.arena.length).key = k ∧
    (readN (insert_key t k v) t.arena.length).value = some v ∧
    t.arena.length < (insert_key t k v).arena.length := by
  have hf := frame_insert_from_alloc t k v
  have hlt : t.arena.length < (allocN t (TrieNode.mk_leaf k v t.nr_levels)).arena.length := by
    simp
  obtain ⟨hk, hv⟩ := hf.2.2.2 t.arena.length hlt
  rw [readN_allocN_self] at hk hv
  refine ⟨?_, hk, hv, lt_of_lt_of_le hlt hf.2.2.1⟩
  unfold find_key
  rw [insert_key_nr_levels, lvl_insert_top t k v h2, mapGet_mapInsert_self]

theorem insRun_find_mem : ∀ (ps : List (Nat × Nat)) (t : Xfast) (p : Nat × Nat),
    t.nr_levels < t.level_maps.length → (ps.map Prod.fst).Nodup → p ∈ ps →
    ∃ i, find_key (insRun t ps) p.1 = some i ∧
      (readN (insRun t ps) i).key = p.1 ∧ (readN (insRun t ps) i).value = some p.2 := by
  intro ps
  induction ps with
  | nil => intro t p _ _ hp; exact absurd hp (List.not_mem_nil p)
  | cons q qs ih =>
    intro t p h2 hnd hp
    have h2' : (insert_key t q.1 q.2).nr_levels < (insert_key t q.1 q.2).level_maps.length := by
      rw [insert_key_nr_levels, (frame_insert t q.1 q.2).2.1]; exact h2
    rw [List.map_cons, List.nodup_cons] at hnd
    rcases List.mem_cons.mp hp with hpq | hp'
    · subst hpq
      obtain ⟨e1, e2, e3, e4⟩ := insert_key_new_leaf t p.1 p.2 h2
      obtain ⟨e5, e6⟩ := (frame_insRun qs (insert_key t p.1 p.2)).2.2.2 t.arena.length e4
      refine ⟨t.arena.length, ?_, ?_, ?_⟩
      · show find_key (insRun (insert_key t p.1 p.2) qs) p.1 = some t.arena.length
        rw [insRun_find_not_mem qs (insert_key t p.1 p.2) p.1 h2' hnd.1]
        exact e1
      · show (readN (insRun (insert_key t p.1 p.2) qs) t.arena.length).key = p.1
        rw [e5]
        exact e2
      · show (readN (insRun (insert_key t p.1 p.2) qs) t.arena.length).value = some p.2
        rw [e6]
        exact e3
    · exact ih (insert_key t q.1 q.2) p h2' hnd.2 hp'

/-- C4: after any sequence of inserts with distinct in-range keys from a
fresh trie, `find_key k` returns the leaf holding the value inserted for
every inserted key `k`, and `none` for every key never inserted. -/
theorem c4_find_after_inserts (r : Nat) (ps : List (Nat × Nat)) (hr : 1 ≤ r)
    (hnd : (ps.map Prod.fst).Nodup)
    (hrange : ∀ p ∈ ps, p.1 < 2 ^ (Xfast.new r).nr_levels) :
    (∀ p ∈ ps, ∃ i, find_key (insRun (Xfast.new r) ps) p.1 = some i ∧
      (readN (insRun (Xfast.new r) ps) i).key = p.1 ∧
      (readN (insRun (Xfast.new r) ps) i).value = some p.2) ∧
    (∀ k, k ∉ ps.map Prod.fst → find_key (insRun (Xfast.new r) ps) k = none) := by
  have h2 : (Xfast.new r).nr_levels < (Xfast.new r).level_maps.length := by
    rw [new_nr_levels, new_level_maps_length]
    omega
  constructor
  · intro p hp
    exact insRun_find_mem ps (Xfast.new r) p h2 hnd hp
  · intro k hk
    rw [insRun_find_not_mem ps (Xfast.new r) k h2 hk]
    unfold find_key
    rw [new_nr_levels, lvl_new_pos r _ (one_le_get_levels_count hr)]
    rfl

/-- C4 witness: inserting (1, 7) then (0, 9) over range 1. -/
theorem c4_find_after_inserts_witness :
    (∀ p ∈ [(1, 7), (0, 9)], ∃ i,
      find_key (insRun (Xfast.new 1) [(1, 7), (0, 9)]) p.1 = some i ∧
      (readN (insRun (Xfast.new 1) [(1, 7), (0, 9)]) i).key = p.1 ∧
      (readN (insRun (Xfast.new 1) [(1, 7), (0, 9)]) i).value = some p.2) ∧
    (∀ k, k ∉ [(1, 7), (0, 9)].map Prod.fst →
      find_key (insRun (Xfast.new 1) [(1, 7), (0, 9)]) k = none) :=
  c4_find_after_inserts 1 [(1, 7), (0, 9)] (by decide) (by decide) (by decide)

/-! ## Keys, prefixes and extrema, toward the descendant-pointer invariant -/

/-- Key `k` is currently stored. -/
def stored (t : Xfast) (k : Nat) : Prop :=
  (mapGet (lvl t t.nr_levels) k).isSome

/-- The stored keys, as a list. -/
def storedKeys (t : Xfast) : List Nat :=
  (lvl t t.nr_levels).map Prod.fst

/-- The stored keys whose prefix of length `ℓ` is `p`. -/
def subKeys (t : Xfast) (ℓ p : Nat) : List Nat :=
  (storedKeys t).filter (fun k => k >>> (t.nr_levels - ℓ) == p)

def listMinO : List Nat → Option Nat
  | [] => none
  | a :: as =>
    match listMinO as with
    | none => some a
    | some b => some (min a b)

def listMaxO : List Nat → Option Nat
  | [] => none
  | a :: as =>
    match listMaxO as with
    | none => some a
    | some b => some (max a b)

theorem listMinO_eq_none (l : List Nat) : listMinO l = none ↔ l = [] := by
  cases l with
  | nil => simp [listMinO]
  | cons a as =>
    simp only [listMinO]
    cases listMinO as <;> simp

theorem listMaxO_eq_none (l : List Nat) : listMaxO l = none ↔ l = [] := by
  cases l with
  | nil => simp [listMaxO]
  | cons a as =>
    simp only [listMaxO]
    cases listMaxO as <;> simp

theorem listMinO_spec (l : List Nat) (m : Nat) :
    listMinO l = some m ↔ m ∈ l ∧ ∀ a ∈ l, m ≤ a := by
  induction l generalizing m with
  | nil => simp [listMinO]
  | cons a as ih =>
    simp only [listMinO]
    cases has : listMinO as with
    | none =>
      have he : as = [] := (listMinO_eq_none as).mp has
      subst he
      constructor
      · intro h
        have hm : a = m := by simpa using h
        subst hm
        refine ⟨List.mem_cons_self a [], ?_⟩
        intro x hx
        rcases List.mem_cons.mp hx with rfl | hx'
        · exact le_refl _
        · cases hx'
      · rintro ⟨hm, -⟩
        rcases List.mem_cons.mp hm with rfl | hm'
        · rfl
        · cases hm'
    | some b =>
      have hb := (ih b).mp has
      constructor
      · intro h
        have hm : min a b = m := by simpa using h
        subst hm
        constructor
        · rcases le_total a b with hab | hab
          · rw [min_eq_left hab]
            exact List.mem_cons_self a as
          · rw [min_eq_right hab]
            exact List.mem_cons_of_mem a hb.1
        · intro x hx
          rcases List.mem_cons.mp hx with rfl | hx'
          · exact min_le_left _ _
          · exact le_trans (min_le_right a b) (hb.2 x hx')
      · rintro ⟨hm, hall⟩
        have h1 : m ≤ a := hall a (List.mem_cons_self a as)
        have h2 : m ≤ b := hall b (List.mem_cons_of_mem a hb.1)
        have h3 : min a b ≤ m := by
          rcases List.mem_cons.mp hm with rfl | hm'
          · exact min_le_left _ _
          · exact le_trans (min_le_right a b) (hb.2 m hm')
        have he : min a b = m := le_antisymm h3 (le_min h1 h2)
        show some (min a b) = some m
        rw [he]

theorem listMaxO_spec (l : List Nat) (m : Nat) :
    listMaxO l = some m ↔ m ∈ l ∧ ∀ a ∈ l, a ≤ m := by
  induction l generalizing m with
  | nil => simp [listMaxO]
  | cons a as ih =>
    simp only [listMaxO]
    cases has : listMaxO as with
    | none =>
      have he : as = [] := (listMaxO_eq_none as).mp has
      subst he
      constructor
      · intro h
        have hm : a = m := by simpa using h
        subst hm
        refine ⟨List.mem_cons_self a [], ?_⟩
        intro x hx
        rcases List.mem_cons.mp hx with rfl | hx'
        · exact le_refl _
        · cases hx'
      · rintro ⟨hm, -⟩
        rcases List.mem_cons.mp hm with rfl | hm'
        · rfl
        · cases hm'
    | some b =>
      have hb := (ih b).mp has
      constructor
      · intro h
        have hm : max a b = m := by simpa using h
        subst hm
        constructor
        · rcases le_total a b with hab | hab
          · rw [max_eq_right hab]
            exact List.mem_cons_of_mem a hb.1
          · rw [max_eq_left hab]
            exact List.mem_cons_self a as
        · intro x hx
          rcases List.mem_cons.mp hx with rfl | hx'
          · exact le_max_left _ _
          · exact le_trans (hb.2 x hx') (le_max_right a b)
      · rintro ⟨hm, hall⟩
        have h1 : a ≤ m := hall a (List.mem_cons_self a as)
        have h2 : b ≤ m := hall b (List.mem_cons_of_mem a hb.1)
        have h3 : m ≤ max a b := by
          rcases List.mem_cons.mp hm with rfl | hm'
          · exact le_max_left _ _
          · exact le_trans (hb.2 m hm') (le_max_right a b)
        have he : max a b = m := le_antisymm (max_le h1 h2) h3
        show some (max a b) = some m
        rw [he]

theorem mem_storedKeys_iff (t : Xfast) (k : Nat) :
    k ∈ storedKeys t ↔ stored t k := by
  unfold storedKeys stored mapGet
  rw [Option.isSome_map']
  constructor
  · intro h
    obtain ⟨p, hp, he⟩ := List.mem_map.mp h
    rw [List.find?_isSome]
    exact ⟨p, hp, by simpa using he⟩
  · intro h
    obtain ⟨p, hp, he⟩ := List.find?_isSome.mp h
    exact List.mem_map.mpr ⟨p, hp, by simpa using he⟩

theorem mem_subKeys_iff (t : Xfast) (ℓ p k : Nat) :
    k ∈ subKeys t ℓ p ↔ stored t k ∧ k >>> (t.nr_levels - ℓ) = p := by
  unfold subKeys
  rw [List.mem_filter, mem_storedKeys_iff]
  simp

/-- `stored` determines `subKeys` membership, so states with equal leaf maps
and equal `nr_levels` have equal `subKeys`. -/
theorem subKeys_congr {t t' : Xfast} (h1 : t'.nr_levels = t.nr_levels)
    (h2 : lvl t' t'.nr_levels = lvl t t.nr_levels) (ℓ p : Nat) :
    subKeys t' ℓ p = subKeys t ℓ p := by
  unfold subKeys storedKeys
  rw [h1] at h2 ⊢
  rw [h2]

/-! ### Prefix arithmetic -/

theorem pfx_succ (k a : Nat) : k >>> (a + 1) = (k >>> a) >>> 1 := by
  rw [Nat.shiftRight_add]

theorem pfx_child (k a : Nat) :
    k >>> a = 2 * (k >>> (a + 1)) + (k >>> a) % 2 := by
  rw [pfx_succ, Nat.shiftRight_one]
  omega

theorem pfx_lt_of_lt (k k' s : Nat) (h : k >>> s < k' >>> s) : k < k' := by
  by_contra hc
  push_neg at hc
  have h2 : k' >>> s <= k >>> s := by
    simp only [Nat.shiftRight_eq_div_pow]
    exact Nat.div_le_div_right hc
  omega

theorem pfx_up (k q a d : Nat) (h : k >>> a = q >>> a) :
    k >>> (a + d) = q >>> (a + d) := by
  rw [Nat.shiftRight_add, Nat.shiftRight_add, h]

theorem pfx_mod_two (k a : Nat) : (k >>> a) % 2 = 0 \/ (k >>> a) % 2 = 1 := by
  omega

/-! ## The structural invariant behind the descendant pointers -/

/-- `o` is nothing or a pointer to some node at leaf level. -/
def leafTyped (t : Xfast) (o : Option Nat) : Prop :=
  ∀ i, o = some i → i < t.arena.length ∧ (readN t i).level = t.nr_levels

/-- Canonical left slot of the internal node `i` sitting at position
`(ℓ, p)`: the real left child when the left subtree is inhabited, otherwise
a descendant shortcut to the leaf of the smallest key in the right subtree
(and, for the root of an emptied trie, merely a leaf-typed pointer). -/
def nodeLeftOk (t : Xfast) (ℓ p i : Nat) : Prop :=
  ((mapGet (lvl t (ℓ + 1)) (2 * p)).isSome ∧
    (readN t i).left = mapGet (lvl t (ℓ + 1)) (2 * p) ∧
    (readN t i).is_desc_left = false) ∨
  (¬ (mapGet (lvl t (ℓ + 1)) (2 * p)).isSome ∧
    (readN t i).is_desc_left = true ∧
    ((∃ m, listMinO (subKeys t (ℓ + 1) (2 * p + 1)) = some m ∧
        (readN t i).left = mapGet (lvl t t.nr_levels) m) ∨
     (subKeys t (ℓ + 1) (2 * p + 1) = [] ∧ leafTyped t (readN t i).left)))

/-- Canonical right slot: real right child, or shortcut to the leaf of the
largest key in the left subtree. -/
def nodeRightOk (t : Xfast) (ℓ p i : Nat) : Prop :=
  ((mapGet (lvl t (ℓ + 1)) (2 * p + 1)).isSome ∧
    (readN t i).right = mapGet (lvl t (ℓ + 1)) (2 * p + 1) ∧
    (readN t i).is_desc_right = false) ∨
  (¬ (mapGet (lvl t (ℓ + 1)) (2 * p + 1)).isSome ∧
    (readN t i).is_desc_right = true ∧
    ((∃ m, listMaxO (subKeys t (ℓ + 1) (2 * p)) = some m ∧
        (readN t i).right = mapGet (lvl t t.nr_levels) m) ∨
     (subKeys t (ℓ + 1) (2 * p) = [] ∧ leafTyped t (readN t i).right)))

/-- Weakened left slot, as found between the structural phase of an
operation and the descendant-pointer restoration pass: the real-child part
is exact, but a missing side only promises a leaf-typed pointer. -/
def nodeLeftWeak (t : Xfast) (ℓ p i : Nat) : Prop :=
  ((mapGet (lvl t (ℓ + 1)) (2 * p)).isSome ∧
    (readN t i).left = mapGet (lvl t (ℓ + 1)) (2 * p) ∧
    (readN t i).is_desc_left = false) ∨
  (¬ (mapGet (lvl t (ℓ + 1)) (2 * p)).isSome ∧
    (readN t i).is_desc_left = true ∧ leafTyped t (readN t i).left)

def nodeRightWeak (t : Xfast) (ℓ p i : Nat) : Prop :=
  ((mapGet (lvl t (ℓ + 1)) (2 * p + 1)).isSome ∧
    (readN t i).right = mapGet (lvl t (ℓ + 1)) (2 * p + 1) ∧
    (readN t i).is_desc_right = false) ∨
  (¬ (mapGet (lvl t (ℓ + 1)) (2 * p + 1)).isSome ∧
    (readN t i).is_desc_right = true ∧ leafTyped t (readN t i).right)

def OkAt (t : Xfast) (ℓ p i : Nat) : Prop :=
  nodeLeftOk t ℓ p i ∧ nodeRightOk t ℓ p i

def WeakAt (t : Xfast) (ℓ p i : Nat) : Prop :=
  nodeLeftWeak t ℓ p i ∧ nodeRightWeak t ℓ p i

/-- The bookkeeping facts that hold at every point of every operation. -/
structure BaseInv (t : Xfast) : Prop where
  hL : 1 ≤ t.nr_levels
  hlen : t.level_maps.length = t.nr_levels + 1
  h0 : lvl t 0 = [(0, 0)]
  keys_lt : ∀ k, stored t k → k < 2 ^ t.nr_levels
  dom : ∀ ℓ p, 1 ≤ ℓ → ℓ ≤ t.nr_levels →
    ((mapGet (lvl t ℓ) p).isSome ↔ ∃ k, stored t k ∧ k >>> (t.nr_levels - ℓ) = p)
  ids_lt : ∀ ℓ p i, ℓ ≤ t.nr_levels → mapGet (lvl t ℓ) p = some i → i < t.arena.length
  level_eq : ∀ ℓ p i, ℓ ≤ t.nr_levels → mapGet (lvl t ℓ) p = some i →
    (readN t i).level = ℓ
  inj : ∀ ℓ p q i, ℓ ≤ t.nr_levels → p ≠ q →
    mapGet (lvl t ℓ) p = some i → mapGet (lvl t ℓ) q = some i → False
  leaf_key : ∀ k i, mapGet (lvl t t.nr_levels) k = some i → (readN t i).key = k
  leaf_links : ∀ i, i < t.arena.length → (readN t i).level = t.nr_levels →
    leafTyped t (readN t i).left ∧ leafTyped t (readN t i).right

/-- The full invariant of reachable states: bookkeeping plus canonical
internal nodes at every level below the leaves (including the root). -/
def XfInv (t : Xfast) : Prop :=
  BaseInv t ∧ ∀ ℓ p i, ℓ < t.nr_levels → mapGet (lvl t ℓ) p = some i → OkAt t ℓ p i

/-- The state in the middle of the restoration pass: positions on the key's
path at levels `≤ ℓcur` (the root included) are only weakly canonical,
everything else is canonical. -/
def MidState (t : Xfast) (key ℓcur : Nat) : Prop :=
  ∀ ℓ p i, ℓ < t.nr_levels → mapGet (lvl t ℓ) p = some i →
    if ℓ ≤ ℓcur ∧ p = key >>> (t.nr_levels - ℓ) then WeakAt t ℓ p i
    else OkAt t ℓ p i

/-! ### Stability of the invariant pieces under single-node writes -/

theorem leafTyped_stable (t t' : Xfast) (hn : t'.nr_levels = t.nr_levels)
    (ha : t.arena.length ≤ t'.arena.length)
    (hlev : ∀ j, j < t.arena.length → (readN t' j).level = (readN t j).level)
    (o : Option Nat) (h : leafTyped t o) : leafTyped t' o := by
  intro i hi
  obtain ⟨h1, h2⟩ := h i hi
  exact ⟨lt_of_lt_of_le h1 ha, by rw [hlev i h1, hn, h2]⟩

theorem writeN_level_pres (t : Xfast) (j : Nat) (f : TrieNode → TrieNode)
    (hlevel : ∀ n, (f n).level = n.level) :
    ∀ i, (readN (writeN t j f) i).level = (readN t i).level := by
  intro i
  by_cases hij : j = i
  · subst hij
    by_cases hj : j < t.arena.length
    · rw [readN_writeN_self t j f hj, hlevel]
    · unfold writeN readN
      rw [show (t.arena.set j (f (t.arena.getD j defaultNode)))
          = t.arena from List.set_eq_of_length_le (by omega)]
  · rw [readN_writeN_ne t j i f hij]

theorem leafTyped_writeN (t : Xfast) (j : Nat) (f : TrieNode → TrieNode)
    (hlevel : ∀ n, (f n).level = n.level) (o : Option Nat) (h : leafTyped t o) :
    leafTyped (writeN t j f) o :=
  leafTyped_stable t (writeN t j f) rfl (by simp)
    (fun i _ => writeN_level_pres t j f hlevel i) o h

theorem leafTyped_allocN (t : Xfast) (n : TrieNode) (o : Option Nat)
    (h : leafTyped t o) : leafTyped (allocN t n) o :=
  leafTyped_stable t (allocN t n) rfl (by simp)
    (fun i hi => by rw [readN_allocN_lt t n i hi]) o h

theorem leafTyped_setLvl (t : Xfast) (j : Nat) (m : List (Nat × Nat))
    (o : Option Nat) (h : leafTyped t o) : leafTyped (setLvl t j m) o := h

@[simp] theorem subKeys_writeN (t : Xfast) (j : Nat) (f : TrieNode → TrieNode)
    (ℓ p : Nat) : subKeys (writeN t j f) ℓ p = subKeys t ℓ p := rfl

@[simp] theorem subKeys_allocN (t : Xfast) (n : TrieNode) (ℓ p : Nat) :
    subKeys (allocN t n) ℓ p = subKeys t ℓ p := rfl

theorem nodeLeftOk_writeN_ne (t : Xfast) (j : Nat) (f : TrieNode → TrieNode)
    (hlevel : ∀ n, (f n).level = n.level) (ℓ p i : Nat) (hij : i ≠ j)
    (h : nodeLeftOk t ℓ p i) : nodeLeftOk (writeN t j f) ℓ p i := by
  have hr : readN (writeN t j f) i = readN t i :=
    readN_writeN_ne t j i f (fun he => hij he.symm)
  unfold nodeLeftOk at h ⊢
  simp only [lvl_writeN, writeN_nr_levels, subKeys_writeN, hr]
  rcases h with h | ⟨h1, h2, h3 | h3⟩
  · exact Or.inl h
  · exact Or.inr ⟨h1, h2, Or.inl h3⟩
  · exact Or.inr ⟨h1, h2, Or.inr ⟨h3.1, leafTyped_writeN t j f hlevel _ h3.2⟩⟩

theorem nodeRightOk_writeN_ne (t : Xfast) (j : Nat) (f : TrieNode → TrieNode)
    (hlevel : ∀ n, (f n).level = n.level) (ℓ p i : Nat) (hij : i ≠ j)
    (h : nodeRightOk t ℓ p i) : nodeRightOk (writeN t j f) ℓ p i := by
  have hr : readN (writeN t j f) i = readN t i :=
    readN_writeN_ne t j i f (fun he => hij he.symm)
  unfold nodeRightOk at h ⊢
  simp only [lvl_writeN, writeN_nr_levels, subKeys_writeN, hr]
  rcases h with h | ⟨h1, h2, h3 | h3⟩
  · exact Or.inl h
  · exact Or.inr ⟨h1, h2, Or.inl h3⟩
  · exact Or.inr ⟨h1, h2, Or.inr ⟨h3.1, leafTyped_writeN t j f hlevel _ h3.2⟩⟩

theorem nodeLeftWeak_writeN_ne (t : Xfast) (j : Nat) (f : TrieNode → TrieNode)
    (hlevel : ∀ n, (f n).level = n.level) (ℓ p i : Nat) (hij : i ≠ j)
    (h : nodeLeftWeak t ℓ p i) : nodeLeftWeak (writeN t j f) ℓ p i := by
  have hr : readN (writeN t j f) i = readN t i :=
    readN_writeN_ne t j i f (fun he => hij he.symm)
  unfold nodeLeftWeak at h ⊢
  simp only [lvl_writeN, writeN_nr_levels, hr]
  rcases h with h | ⟨h1, h2, h3⟩
  · exact Or.inl h
  · exact Or.inr ⟨h1, h2, leafTyped_writeN t j f hlevel _ h3⟩

theorem nodeRightWeak_writeN_ne (t : Xfast) (j : Nat) (f : TrieNode → TrieNode)
    (hlevel : ∀ n, (f n).level = n.level) (ℓ p i : Nat) (hij : i ≠ j)
    (h : nodeRightWeak t ℓ p i) : nodeRightWeak (writeN t j f) ℓ p i := by
  have hr : readN (writeN t j f) i = readN t i :=
    readN_writeN_ne t j i f (fun he => hij he.symm)
  unfold nodeRightWeak at h ⊢
  simp only [lvl_writeN, writeN_nr_levels, hr]
  rcases h with h | ⟨h1, h2, h3⟩
  · exact Or.inl h
  · exact Or.inr ⟨h1, h2, leafTyped_writeN t j f hlevel _ h3⟩

/-! ## Characterising the LCA binary search and typing the ordered queries -/

theorem pfx_zero_of_lt (q : Nat) (L : Nat) (h : q < 2 ^ L) : q >>> L = 0 := by
  rw [Nat.shiftRight_eq_div_pow]
  exact Nat.div_eq_of_lt h

theorem present_down (t : Xfast) (hb : BaseInv t) (q : Nat) :
    ∀ ℓ ℓ' : Nat, 1 ≤ ℓ' → ℓ' ≤ ℓ → ℓ ≤ t.nr_levels →
    (mapGet (lvl t ℓ) (q >>> (t.nr_levels - ℓ))).isSome →
    (mapGet (lvl t ℓ') (q >>> (t.nr_levels - ℓ'))).isSome := by
  intro ℓ ℓ' h1 h2 h3 hp
  obtain ⟨k, hk, he⟩ := (hb.dom ℓ _ (le_trans h1 h2) h3).mp hp
  refine (hb.dom ℓ' _ h1 (le_trans h2 h3)).mpr ⟨k, hk, ?_⟩
  have hd : t.nr_levels - ℓ' = (t.nr_levels - ℓ) + (ℓ - ℓ') := by omega
  rw [hd]
  exact pfx_up k q _ _ he

theorem present_zero (t : Xfast) (hb : BaseInv t) (q : Nat)
    (hq : q < 2 ^ t.nr_levels) :
    mapGet (lvl t 0) (q >>> (t.nr_levels - 0)) = some 0 := by
  rw [Nat.sub_zero, pfx_zero_of_lt q _ hq, hb.h0]
  rfl

theorem lcaGo_char (t : Xfast) (q : Nat) (m : Nat)
    (hmL : m ≤ t.nr_levels)
    (hall : ∀ ℓ, ℓ ≤ m → (mapGet (lvl t ℓ) (q >>> (t.nr_levels - ℓ))).isSome)
    (hNP : ∀ ℓ, m < ℓ → ℓ ≤ t.nr_levels →
      ¬ (mapGet (lvl t ℓ) (q >>> (t.nr_levels - ℓ))).isSome) :
    ∀ fuel low high anc,
      high + 1 - low ≤ fuel → m ≤ high → high ≤ t.nr_levels →
      (1 ≤ low → (low - 1 ≤ m ∧
        anc = mapGet (lvl t (low - 1)) (q >>> (t.nr_levels - (low - 1))))) →
      lcaGo t q fuel low high anc = mapGet (lvl t m) (q >>> (t.nr_levels - m)) := by
  intro fuel
  induction fuel with
  | zero =>
    intro low high anc hfuel hmh hhL hanc
    have hlow : 1 ≤ low := by omega
    obtain ⟨h1, h2⟩ := hanc hlow
    have : low - 1 = m := by omega
    rw [show lcaGo t q 0 low high anc = anc from rfl, h2, this]
  | succ fuel ih =>
    intro low high anc hfuel hmh hhL hanc
    by_cases hg : low ≤ high
    · have hmid1 : low ≤ (low + high) / 2 := by omega
      have hmid2 : (low + high) / 2 ≤ high := by omega
      simp only [lcaGo, if_pos hg]
      cases hpres : mapGet (lvl t ((low + high) / 2))
          (q >>> (t.nr_levels - (low + high) / 2)) with
      | some v =>
        have hmidm : (low + high) / 2 ≤ m := by
          by_contra hc
          push_neg at hc
          exact hNP _ hc (by omega) (by rw [hpres]; rfl)
        refine ih ((low + high) / 2 + 1) high (some v) (by omega) hmh hhL ?_
        intro _
        refine ⟨by omega, ?_⟩
        rw [Nat.add_sub_cancel, hpres]
      | none =>
        have hmidm : m < (low + high) / 2 := by
          by_contra hc
          push_neg at hc
          have := hall _ hc
          rw [hpres] at this
          simp at this
        have hmid0 : (low + high) / 2 ≠ 0 := by
          intro h0
          have := hall 0 (Nat.zero_le m)
          rw [h0] at hpres
          rw [hpres] at this
          simp at this
        rw [if_neg hmid0]
        exact ih low ((low + high) / 2 - 1) anc (by omega) (by omega) (by omega) hanc
    · have hlow : 1 ≤ low := by omega
      obtain ⟨h1, h2⟩ := hanc hlow
      have he : low - 1 = m := by omega
      simp only [lcaGo, if_neg hg]
      rw [h2, he]

/-- Under the invariant, the LCA search returns the node of the deepest
level whose prefix of the query is indexed; below that level the query's
prefix is absent. -/
theorem lca_char (t : Xfast) (q : Nat) (hb : BaseInv t)
    (hq : q < 2 ^ t.nr_levels) :
    ∃ m, m ≤ t.nr_levels ∧
      find_lowest_common_ancestor t q = mapGet (lvl t m) (q >>> (t.nr_levels - m)) ∧
      (mapGet (lvl t m) (q >>> (t.nr_levels - m))).isSome ∧
      (∀ ℓ, m < ℓ → ℓ ≤ t.nr_levels →
        ¬ (mapGet (lvl t ℓ) (q >>> (t.nr_levels - ℓ))).isSome) := by
  set P : Nat → Prop :=
    fun ℓ => (mapGet (lvl t ℓ) (q >>> (t.nr_levels - ℓ))).isSome = true with hP
  have hP0 : P 0 := by
    show (mapGet (lvl t 0) (q >>> (t.nr_levels - 0))).isSome = true
    rw [present_zero t hb q hq]
    rfl
  set m := Nat.findGreatest P t.nr_levels with hm
  have hPm : P m := Nat.findGreatest_spec (Nat.zero_le _) hP0
  have hmL : m ≤ t.nr_levels := Nat.findGreatest_le _
  have hNP : ∀ ℓ, m < ℓ → ℓ ≤ t.nr_levels →
      ¬ (mapGet (lvl t ℓ) (q >>> (t.nr_levels - ℓ))).isSome := by
    intro ℓ hℓ hℓL hc
    exact Nat.findGreatest_is_greatest hℓ hℓL hc
  have hall : ∀ ℓ, ℓ ≤ m → (mapGet (lvl t ℓ) (q >>> (t.nr_levels - ℓ))).isSome := by
    intro ℓ hℓ
    rcases Nat.eq_zero_or_pos ℓ with rfl | hpos
    · rw [present_zero t hb q hq]
      rfl
    · exact present_down t hb q m ℓ hpos hℓ hmL hPm
  refine ⟨m, hmL, ?_, hPm, hNP⟩
  unfold find_lowest_common_ancestor
  refine lcaGo_char t q m hmL hall hNP _ 0 t.nr_levels none (by omega) hmL (le_refl _) ?_
  intro h
  omega

theorem leafTyped_of_leafMap (t : Xfast) (hb : BaseInv t) (k : Nat) :
    leafTyped t (mapGet (lvl t t.nr_levels) k) := by
  intro i hi
  exact ⟨hb.ids_lt _ k i (le_refl _) hi, hb.level_eq _ k i (le_refl _) hi⟩

/-- At the LCA of an unstored query, the pointer the query's next bit picks
is never a real child, and it is leaf-typed. -/
theorem lca_side_leafTyped (t : Xfast) (q : Nat) (hb : BaseInv t)
    (hok : ∀ ℓ p i, ℓ < t.nr_levels → mapGet (lvl t ℓ) p = some i → OkAt t ℓ p i)
    (m nid : Nat) (hmlt : m < t.nr_levels)
    (hnid : mapGet (lvl t m) (q >>> (t.nr_levels - m)) = some nid)
    (habs : ¬ (mapGet (lvl t (m + 1)) (q >>> (t.nr_levels - (m + 1)))).isSome) :
    leafTyped t (if (q >>> (t.nr_levels - m - 1)) &&& 1 ≠ 0
      then (readN t nid).right else (readN t nid).left) := by
  have hsplit : q >>> (t.nr_levels - m - 1)
      = 2 * (q >>> (t.nr_levels - m)) + (q >>> (t.nr_levels - m - 1)) % 2 := by
    have h := pfx_child q (t.nr_levels - m - 1)
    rw [show t.nr_levels - m - 1 + 1 = t.nr_levels - m from by omega] at h
    exact h
  have hml1 : t.nr_levels - (m + 1) = t.nr_levels - m - 1 := by omega
  rw [hml1] at habs
  obtain ⟨hokl, hokr⟩ := hok m _ nid hmlt hnid
  by_cases hbit : (q >>> (t.nr_levels - m - 1)) &&& 1 ≠ 0
  · rw [if_pos hbit]
    rw [Nat.and_one_is_mod] at hbit
    have hb1 : (q >>> (t.nr_levels - m - 1)) % 2 = 1 := by omega
    have habs' : ¬ (mapGet (lvl t (m + 1)) (2 * (q >>> (t.nr_levels - m)) + 1)).isSome := by
      have he : 2 * (q >>> (t.nr_levels - m)) + 1 = q >>> (t.nr_levels - m - 1) := by omega
      rw [he]
      exact habs
    unfold nodeRightOk at hokr
    rcases hokr with ⟨hc, -⟩ | ⟨-, -, ⟨M, hM, hright⟩ | ⟨-, htyped⟩⟩
    · exact absurd hc habs'
    · rw [hright]
      exact leafTyped_of_leafMap t hb M
    · exact htyped
  · rw [if_neg hbit]
    rw [Nat.and_one_is_mod] at hbit
    have hb0 : (q >>> (t.nr_levels - m - 1)) % 2 = 0 := by omega
    have habs' : ¬ (mapGet (lvl t (m + 1)) (2 * (q >>> (t.nr_levels - m)))).isSome := by
      have he : 2 * (q >>> (t.nr_levels - m)) = q >>> (t.nr_levels - m - 1) := by omega
      rw [he]
      exact habs
    unfold nodeLeftOk at hokl
    rcases hokl with ⟨hc, -⟩ | ⟨-, -, ⟨M, hM, hleft⟩ | ⟨-, htyped⟩⟩
    · exact absurd hc habs'
    · rw [hleft]
      exact leafTyped_of_leafMap t hb M
    · exact htyped

/-- Under the invariant, `find_successor` only ever returns a pointer to a
node at leaf level. -/
theorem find_successor_leafTyped (t : Xfast) (q : Nat) (hinv : XfInv t)
    (hq : q < 2 ^ t.nr_levels) : leafTyped t (find_successor t q) := by
  obtain ⟨hb, hok⟩ := hinv
  obtain ⟨m, hmL, hlca, hsome, hNP⟩ := lca_char t q hb hq
  obtain ⟨nid, hnid⟩ := Option.isSome_iff_exists.mp hsome
  rw [hnid] at hlca
  unfold find_successor
  rw [hlca]
  show leafTyped t
    (if (readN t nid).level = t.nr_levels then some nid
     else match (if (q >>> (t.nr_levels - (readN t nid).level - 1)) &&& 1 ≠ 0
        then (readN t nid).right else (readN t nid).left) with
      | none => none
      | some uid =>
        if (readN t uid).key < q then (readN t uid).right else some uid)
  have hlev : (readN t nid).level = m := hb.level_eq m _ nid hmL hnid
  by_cases hm : m = t.nr_levels
  · rw [if_pos (by rw [hlev, hm])]
    intro i hi
    cases hi
    exact ⟨hb.ids_lt m _ nid hmL hnid, by rw [hlev, hm]⟩
  · have hmlt : m < t.nr_levels := lt_of_le_of_ne hmL hm
    rw [if_neg (by rw [hlev]; exact hm), hlev]
    have hside := lca_side_leafTyped t q hb hok m nid hmlt hnid
      (hNP (m + 1) (by omega) (by omega))
    split
    · intro i hi; cases hi
    · next uid heq =>
      obtain ⟨h1, h2⟩ := hside uid heq
      by_cases hc : (readN t uid).key < q
      · rw [if_pos hc]
        exact (hb.leaf_links uid h1 h2).2
      · rw [if_neg hc]
        intro i hi
        cases hi
        exact ⟨h1, h2⟩

/-- Under the invariant, `find_predecessor` only ever returns a pointer to a
node at leaf level. -/
theorem find_predecessor_leafTyped (t : Xfast) (q : Nat) (hinv : XfInv t)
    (hq : q < 2 ^ t.nr_levels) : leafTyped t (find_predecessor t q) := by
  obtain ⟨hb, hok⟩ := hinv
  obtain ⟨m, hmL, hlca, hsome, hNP⟩ := lca_char t q hb hq
  obtain ⟨nid, hnid⟩ := Option.isSome_iff_exists.mp hsome
  rw [hnid] at hlca
  unfold find_predecessor
  rw [hlca]
  show leafTyped t
    (if (readN t nid).level = t.nr_levels then some nid
     else match (if (q >>> (t.nr_levels - (readN t nid).level - 1)) &&& 1 ≠ 0
        then (readN t nid).right else (readN t nid).left) with
      | none => none
      | some uid =>
        if (readN t uid).key > q then (readN t uid).left else some uid)
  have hlev : (readN t nid).level = m := hb.level_eq m _ nid hmL hnid
  by_cases hm : m = t.nr_levels
  · rw [if_pos (by rw [hlev, hm])]
    intro i hi
    cases hi
    exact ⟨hb.ids_lt m _ nid hmL hnid, by rw [hlev, hm]⟩
  · have hmlt : m < t.nr_levels := lt_of_le_of_ne hmL hm
    rw [if_neg (by rw [hlev]; exact hm), hlev]
    have hside := lca_side_leafTyped t q hb hok m nid hmlt hnid
      (hNP (m + 1) (by omega) (by omega))
    split
    · intro i hi; cases hi
    · next uid heq =>
      obtain ⟨h1, h2⟩ := hside uid heq
      by_cases hc : (readN t uid).key > q
      · rw [if_pos hc]
        exact (hb.leaf_links uid h1 h2).1
      · rw [if_neg hc]
        intro i hi
        cases hi
        exact ⟨h1, h2⟩

theorem leafTyped_none (t : Xfast) : leafTyped t none := by
  intro i hi
  cases hi

theorem nodeLeftOk_allocN (t : Xfast) (n : TrieNode) (ℓ p i : Nat)
    (hi : i < t.arena.length) (h : nodeLeftOk t ℓ p i) :
    nodeLeftOk (allocN t n) ℓ p i := by
  have hr : readN (allocN t n) i = readN t i := readN_allocN_lt t n i hi
  unfold nodeLeftOk at h ⊢
  simp only [lvl_allocN, allocN_nr_levels, subKeys_allocN, hr]
  rcases h with h | ⟨h1, h2, h3 | h3⟩
  · exact Or.inl h
  · exact Or.inr ⟨h1, h2, Or.inl h3⟩
  · exact Or.inr ⟨h1, h2, Or.inr ⟨h3.1, leafTyped_allocN t n _ h3.2⟩⟩

theorem nodeRightOk_allocN (t : Xfast) (n : TrieNode) (ℓ p i : Nat)
    (hi : i < t.arena.length) (h : nodeRightOk t ℓ p i) :
    nodeRightOk (allocN t n) ℓ p i := by
  have hr : readN (allocN t n) i = readN t i := readN_allocN_lt t n i hi
  unfold nodeRightOk at h ⊢
  simp only [lvl_allocN, allocN_nr_levels, subKeys_allocN, hr]
  rcases h with h | ⟨h1, h2, h3 | h3⟩
  · exact Or.inl h
  · exact Or.inr ⟨h1, h2, Or.inl h3⟩
  · exact Or.inr ⟨h1, h2, Or.inr ⟨h3.1, leafTyped_allocN t n _ h3.2⟩⟩

theorem nodeLeftOk_writeN_self (t : Xfast) (f : TrieNode → TrieNode)
    (hlevel : ∀ n, (f n).level = n.level)
    (hleft : ∀ n, (f n).left = n.left)
    (hdl : ∀ n, (f n).is_desc_left = n.is_desc_left)
    (ℓ p i : Nat) (hi : i < t.arena.length)
    (h : nodeLeftOk t ℓ p i) : nodeLeftOk (writeN t i f) ℓ p i := by
  have hr : readN (writeN t i f) i = f (readN t i) := readN_writeN_self t i f hi
  unfold nodeLeftOk at h ⊢
  simp only [lvl_writeN, writeN_nr_levels, subKeys_writeN, hr, hleft, hdl]
  rcases h with h | ⟨h1, h2, h3 | h3⟩
  · exact Or.inl h
  · exact Or.inr ⟨h1, h2, Or.inl h3⟩
  · exact Or.inr ⟨h1, h2, Or.inr ⟨h3.1, leafTyped_writeN t i f hlevel _ h3.2⟩⟩

theorem nodeRightOk_writeN_self (t : Xfast) (f : TrieNode → TrieNode)
    (hlevel : ∀ n, (f n).level = n.level)
    (hright : ∀ n, (f n).right = n.right)
    (hdr : ∀ n, (f n).is_desc_right = n.is_desc_right)
    (ℓ p i : Nat) (hi : i < t.arena.length)
    (h : nodeRightOk t ℓ p i) : nodeRightOk (writeN t i f) ℓ p i := by
  have hr : readN (writeN t i f) i = f (readN t i) := readN_writeN_self t i f hi
  unfold nodeRightOk at h ⊢
  simp only [lvl_writeN, writeN_nr_levels, subKeys_writeN, hr, hright, hdr]
  rcases h with h | ⟨h1, h2, h3 | h3⟩
  · exact Or.inl h
  · exact Or.inr ⟨h1, h2, Or.inl h3⟩
  · exact Or.inr ⟨h1, h2, Or.inr ⟨h3.1, leafTyped_writeN t i f hlevel _ h3.2⟩⟩

theorem nodeLeftWeak_writeN_self (t : Xfast) (f : TrieNode → TrieNode)
    (hlevel : ∀ n, (f n).level = n.level)
    (hleft : ∀ n, (f n).left = n.left)
    (hdl : ∀ n, (f n).is_desc_left = n.is_desc_left)
    (ℓ p i : Nat) (hi : i < t.arena.length)
    (h : nodeLeftWeak t ℓ p i) : nodeLeftWeak (writeN t i f) ℓ p i := by
  have hr : readN (writeN t i f) i = f (readN t i) := readN_writeN_self t i f hi
  unfold nodeLeftWeak at h ⊢
  simp only [lvl_writeN, writeN_nr_levels, hr, hleft, hdl]
  rcases h with h | ⟨h1, h2, h3⟩
  · exact Or.inl h
  · exact Or.inr ⟨h1, h2, leafTyped_writeN t i f hlevel _ h3⟩

theorem nodeRightWeak_writeN_self (t : Xfast) (f : TrieNode → TrieNode)
    (hlevel : ∀ n, (f n).level = n.level)
    (hright : ∀ n, (f n).right = n.right)
    (hdr : ∀ n, (f n).is_desc_right = n.is_desc_right)
    (ℓ p i : Nat) (hi : i < t.arena.length)
    (h : nodeRightWeak t ℓ p i) : nodeRightWeak (writeN t i f) ℓ p i := by
  have hr : readN (writeN t i f) i = f (readN t i) := readN_writeN_self t i f hi
  unfold nodeRightWeak at h ⊢
  simp only [lvl_writeN, writeN_nr_levels, hr, hright, hdr]
  rcases h with h | ⟨h1, h2, h3⟩
  · exact Or.inl h
  · exact Or.inr ⟨h1, h2, leafTyped_writeN t i f hlevel _ h3⟩

theorem nodeLeftWeak_of_ok (t : Xfast) (hb : BaseInv t) (ℓ p i : Nat)
    (h : nodeLeftOk t ℓ p i) : nodeLeftWeak t ℓ p i := by
  unfold nodeLeftOk at h
  unfold nodeLeftWeak
  rcases h with h | ⟨h1, h2, ⟨m, _, hm⟩ | h3⟩
  · exact Or.inl h
  · refine Or.inr ⟨h1, h2, ?_⟩
    rw [hm]
    exact leafTyped_of_leafMap t hb m
  · exact Or.inr ⟨h1, h2, h3.2⟩

theorem nodeRightWeak_of_ok (t : Xfast) (hb : BaseInv t) (ℓ p i : Nat)
    (h : nodeRightOk t ℓ p i) : nodeRightWeak t ℓ p i := by
  unfold nodeRightOk at h
  unfold nodeRightWeak
  rcases h with h | ⟨h1, h2, ⟨m, _, hm⟩ | h3⟩
  · exact Or.inl h
  · refine Or.inr ⟨h1, h2, ?_⟩
    rw [hm]
    exact leafTyped_of_leafMap t hb m
  · exact Or.inr ⟨h1, h2, h3.2⟩

theorem weakAt_of_okAt (t : Xfast) (hb : BaseInv t) (ℓ p i : Nat)
    (h : OkAt t ℓ p i) : WeakAt t ℓ p i :=
  ⟨nodeLeftWeak_of_ok t hb ℓ p i h.1, nodeRightWeak_of_ok t hb ℓ p i h.2⟩

/-! ### How the stored-key list changes when the leaf map changes -/

theorem map_fst_filter_ne (m : List (Nat × Nat)) (k : Nat) :
    (m.filter (fun q => q.1 != k)).map Prod.fst
      = (m.map Prod.fst).filter (fun x => x != k) := by
  induction m with
  | nil => rfl
  | cons a as ih =>
    by_cases ha : a.1 = k
    · rw [List.filter_cons, if_neg (by simp [ha]), List.map_cons, List.filter_cons,
        if_neg (by simp [ha]), ih]
    · rw [List.filter_cons, if_pos (by simp [ha]), List.map_cons, List.map_cons,
        List.filter_cons, if_pos (by simp [ha]), ih]

theorem storedKeys_insert (t : Xfast) (key nid : Nat)
    (hlen : t.nr_levels < t.level_maps.length)
    (habs : mapGet (lvl t t.nr_levels) key = none) :
    storedKeys (setLvl t t.nr_levels (mapInsert (lvl t t.nr_levels) key nid))
      = key :: storedKeys t := by
  unfold storedKeys
  rw [setLvl_nr_levels, lvl_setLvl_self _ _ _ hlen]
  unfold mapInsert
  rw [filter_id_of_mapGet_none _ _ habs, List.map_cons]

theorem storedKeys_remove (t : Xfast) (key : Nat)
    (hlen : t.nr_levels < t.level_maps.length) :
    storedKeys (setLvl t t.nr_levels (mapRemove (lvl t t.nr_levels) key))
      = (storedKeys t).filter (fun x => x != key) := by
  unfold storedKeys
  rw [setLvl_nr_levels, lvl_setLvl_self _ _ _ hlen]
  exact map_fst_filter_ne _ key

theorem subKeys_insert (t : Xfast) (key nid : Nat)
    (hlen : t.nr_levels < t.level_maps.length)
    (habs : mapGet (lvl t t.nr_levels) key = none) (ℓ p : Nat) :
    subKeys (setLvl t t.nr_levels (mapInsert (lvl t t.nr_levels) key nid)) ℓ p
      = if key >>> (t.nr_levels - ℓ) = p then key :: subKeys t ℓ p
        else subKeys t ℓ p := by
  unfold subKeys
  rw [storedKeys_insert t key nid hlen habs, setLvl_nr_levels, List.filter_cons]
  by_cases hk : key >>> (t.nr_levels - ℓ) = p
  · rw [if_pos (by simpa using hk), if_pos hk]
  · rw [if_neg (by simpa using hk), if_neg hk]

theorem filter_ne_of_not_mem (l : List Nat) (k : Nat) (h : k ∉ l) :
    l.filter (fun x => x != k) = l := by
  apply List.filter_eq_self.mpr
  intro a ha
  simp only [bne_iff_ne, ne_eq, decide_eq_true_eq]
  intro he
  exact h (he ▸ ha)

theorem subKeys_remove (t : Xfast) (key : Nat)
    (hlen : t.nr_levels < t.level_maps.length) (ℓ p : Nat) :
    subKeys (setLvl t t.nr_levels (mapRemove (lvl t t.nr_levels) key)) ℓ p
      = (subKeys t ℓ p).filter (fun x => x != key) := by
  unfold subKeys
  rw [storedKeys_remove t key hlen, setLvl_nr_levels]
  rw [List.filter_filter, List.filter_filter]
  congr 1
  funext x
  rw [Bool.and_comm]

theorem subKeys_remove_off (t : Xfast) (key : Nat)
    (hlen : t.nr_levels < t.level_maps.length) (ℓ p : Nat)
    (hoff : key >>> (t.nr_levels - ℓ) ≠ p) :
    subKeys (setLvl t t.nr_levels (mapRemove (lvl t t.nr_levels) key)) ℓ p
      = subKeys t ℓ p := by
  rw [subKeys_remove t key hlen ℓ p]
  refine filter_ne_of_not_mem _ _ ?_
  intro hmem
  exact hoff ((mem_subKeys_iff t ℓ p key).mp hmem).2

/-! ### Splitting a subtree's key set at its two children -/

theorem mem_subKeys_split (t : Xfast) (ℓ p k : Nat) (hℓ : ℓ < t.nr_levels) :
    k ∈ subKeys t ℓ p
      ↔ k ∈ subKeys t (ℓ + 1) (2 * p) ∨ k ∈ subKeys t (ℓ + 1) (2 * p + 1) := by
  rw [mem_subKeys_iff, mem_subKeys_iff, mem_subKeys_iff]
  have harith : t.nr_levels - ℓ = (t.nr_levels - (ℓ + 1)) + 1 := by omega
  have hc := pfx_child k (t.nr_levels - (ℓ + 1))
  rw [← harith] at hc
  have hb := pfx_mod_two k (t.nr_levels - (ℓ + 1))
  constructor
  · rintro ⟨hs, he⟩
    rcases hb with hb | hb
    · exact Or.inl ⟨hs, by omega⟩
    · exact Or.inr ⟨hs, by omega⟩
  · rintro (⟨hs, he⟩ | ⟨hs, he⟩) <;> exact ⟨hs, by omega⟩

theorem subKeys_sides_lt (t : Xfast) (ℓ p a b : Nat) (hℓ : ℓ < t.nr_levels)
    (ha : a ∈ subKeys t (ℓ + 1) (2 * p)) (hb : b ∈ subKeys t (ℓ + 1) (2 * p + 1)) :
    a < b := by
  have h1 := ((mem_subKeys_iff t _ _ a).mp ha).2
  have h2 := ((mem_subKeys_iff t _ _ b).mp hb).2
  exact pfx_lt_of_lt a b (t.nr_levels - (ℓ + 1)) (by omega)

theorem listMaxO_split_right (t : Xfast) (ℓ p M : Nat) (hℓ : ℓ < t.nr_levels)
    (h : listMaxO (subKeys t (ℓ + 1) (2 * p + 1)) = some M) :
    listMaxO (subKeys t ℓ p) = some M := by
  obtain ⟨hmem, hbd⟩ := (listMaxO_spec _ M).mp h
  refine (listMaxO_spec _ M).mpr ⟨?_, ?_⟩
  · exact (mem_subKeys_split t ℓ p M hℓ).mpr (Or.inr hmem)
  · intro a ha
    rcases (mem_subKeys_split t ℓ p a hℓ).mp ha with h' | h'
    · exact le_of_lt (subKeys_sides_lt t ℓ p a M hℓ h' hmem)
    · exact hbd a h'

theorem listMaxO_split_left (t : Xfast) (ℓ p M : Nat) (hℓ : ℓ < t.nr_levels)
    (hr : subKeys t (ℓ + 1) (2 * p + 1) = [])
    (h : listMaxO (subKeys t (ℓ + 1) (2 * p)) = some M) :
    listMaxO (subKeys t ℓ p) = some M := by
  obtain ⟨hmem, hbd⟩ := (listMaxO_spec _ M).mp h
  refine (listMaxO_spec _ M).mpr ⟨?_, ?_⟩
  · exact (mem_subKeys_split t ℓ p M hℓ).mpr (Or.inl hmem)
  · intro a ha
    rcases (mem_subKeys_split t ℓ p a hℓ).mp ha with h' | h'
    · exact hbd a h'
    · rw [hr] at h'
      cases h'

theorem listMinO_split_left (t : Xfast) (ℓ p M : Nat) (hℓ : ℓ < t.nr_levels)
    (h : listMinO (subKeys t (ℓ + 1) (2 * p)) = some M) :
    listMinO (subKeys t ℓ p) = some M := by
  obtain ⟨hmem, hbd⟩ := (listMinO_spec _ M).mp h
  refine (listMinO_spec _ M).mpr ⟨?_, ?_⟩
  · exact (mem_subKeys_split t ℓ p M hℓ).mpr (Or.inl hmem)
  · intro a ha
    rcases (mem_subKeys_split t ℓ p a hℓ).mp ha with h' | h'
    · exact hbd a h'
    · exact le_of_lt (subKeys_sides_lt t ℓ p M a hℓ hmem h')

theorem listMinO_split_right (t : Xfast) (ℓ p M : Nat) (hℓ : ℓ < t.nr_levels)
    (hl : subKeys t (ℓ + 1) (2 * p) = [])
    (h : listMinO (subKeys t (ℓ + 1) (2 * p + 1)) = some M) :
    listMinO (subKeys t ℓ p) = some M := by
  obtain ⟨hmem, hbd⟩ := (listMinO_spec _ M).mp h
  refine (listMinO_spec _ M).mpr ⟨?_, ?_⟩
  · exact (mem_subKeys_split t ℓ p M hℓ).mpr (Or.inr hmem)
  · intro a ha
    rcases (mem_subKeys_split t ℓ p a hℓ).mp ha with h' | h'
    · rw [hl] at h'
      cases h'
    · exact hbd a h'

/-! ### Map presence versus key sets -/

theorem present_iff_subKeys (t : Xfast) (hb : BaseInv t) (ℓ p : Nat)
    (h1 : 1 ≤ ℓ) (h2 : ℓ ≤ t.nr_levels) :
    (mapGet (lvl t ℓ) p).isSome ↔ subKeys t ℓ p ≠ [] := by
  rw [hb.dom ℓ p h1 h2]
  constructor
  · rintro ⟨k, hk, he⟩
    intro hnil
    have : k ∈ subKeys t ℓ p := (mem_subKeys_iff t ℓ p k).mpr ⟨hk, he⟩
    rw [hnil] at this
    cases this
  · intro hne
    obtain ⟨k, hk⟩ := List.exists_mem_of_ne_nil _ hne
    obtain ⟨hs, he⟩ := (mem_subKeys_iff t ℓ p k).mp hk
    exact ⟨k, hs, he⟩

theorem absent_subKeys_nil (t : Xfast) (hb : BaseInv t) (ℓ p : Nat)
    (h1 : 1 ≤ ℓ) (h2 : ℓ ≤ t.nr_levels)
    (habs : ¬ (mapGet (lvl t ℓ) p).isSome) : subKeys t ℓ p = [] := by
  by_contra hne
  exact habs ((present_iff_subKeys t hb ℓ p h1 h2).mpr hne)

theorem listMaxO_subKeys_leaf (t : Xfast) (p : Nat) (hs : stored t p) :
    listMaxO (subKeys t t.nr_levels p) = some p := by
  refine (listMaxO_spec _ p).mpr ⟨?_, ?_⟩
  · refine (mem_subKeys_iff t _ p p).mpr ⟨hs, by simp⟩
  · intro a ha
    have := ((mem_subKeys_iff t _ p a).mp ha).2
    simp only [Nat.sub_self, Nat.shiftRight_zero] at this
    omega

theorem listMinO_subKeys_leaf (t : Xfast) (p : Nat) (hs : stored t p) :
    listMinO (subKeys t t.nr_levels p) = some p := by
  refine (listMinO_spec _ p).mpr ⟨?_, ?_⟩
  · refine (mem_subKeys_iff t _ p p).mpr ⟨hs, by simp⟩
  · intro a ha
    have := ((mem_subKeys_iff t _ p a).mp ha).2
    simp only [Nat.sub_self, Nat.shiftRight_zero] at this
    omega

/-! ## What the descendant-pointer walks compute on canonical subtrees -/

theorem descRight_succ (t : Xfast) (L f cur : Nat) :
    descRight t L (f + 1) cur
      = if (readN t cur).level = L then some cur
        else match (readN t cur).right with
          | some r => descRight t L f r
          | none =>
            match (readN t cur).left with
            | some l => descRight t L f l
            | none => descRight t L f cur := rfl

theorem descLeft_succ (t : Xfast) (L f cur : Nat) :
    descLeft t L (f + 1) cur
      = if (readN t cur).level = L then some cur
        else match (readN t cur).left with
          | some l => descLeft t L f l
          | none =>
            match (readN t cur).right with
            | some r => descLeft t L f r
            | none => descLeft t L f cur := rfl

theorem descRight_at_leaf (t : Xfast) (L cur : Nat)
    (h : (readN t cur).level = L) : ∀ f, descRight t L f cur = some cur := by
  intro f
  cases f with
  | zero => exact if_pos h
  | succ f => rw [descRight_succ, if_pos h]

theorem descLeft_at_leaf (t : Xfast) (L cur : Nat)
    (h : (readN t cur).level = L) : ∀ f, descLeft t L f cur = some cur := by
  intro f
  cases f with
  | zero => exact if_pos h
  | succ f => rw [descLeft_succ, if_pos h]

/-- Walking right-first from the node indexed at a canonical position whose
levels below are all canonical reaches exactly the leaf of the largest key
under that position. -/
theorem descRight_char (t : Xfast) (hb : BaseInv t) :
    ∀ d ℓ p j fuel, ℓ + d = t.nr_levels → 1 ≤ ℓ → d ≤ fuel →
      (∀ ℓ' p' i', ℓ ≤ ℓ' → ℓ' < t.nr_levels →
        mapGet (lvl t ℓ') p' = some i' → OkAt t ℓ' p' i') →
      mapGet (lvl t ℓ) p = some j →
      ∃ M, listMaxO (subKeys t ℓ p) = some M ∧
        descRight t t.nr_levels fuel j = mapGet (lvl t t.nr_levels) M := by
  intro d
  induction d with
  | zero =>
    intro ℓ p j fuel he h1 _ _ hj
    have hℓL : ℓ = t.nr_levels := by omega
    subst hℓL
    have hst : stored t p := by
      unfold stored
      rw [hj]
      rfl
    refine ⟨p, listMaxO_subKeys_leaf t p hst, ?_⟩
    rw [descRight_at_leaf t t.nr_levels j (hb.level_eq _ p j (le_refl _) hj), hj]
  | succ d ih =>
    intro ℓ p j fuel he h1 hfuel hok hj
    have hℓL : ℓ < t.nr_levels := by omega
    obtain ⟨f, rfl⟩ : ∃ f, fuel = f + 1 := ⟨fuel - 1, by omega⟩
    have hlev : (readN t j).level = ℓ := hb.level_eq ℓ p j (by omega) hj
    rw [descRight_succ, if_neg (by omega)]
    obtain ⟨-, hokr⟩ := hok ℓ p j (le_refl _) hℓL hj
    unfold nodeRightOk at hokr
    rcases hokr with ⟨hpres, hright, -⟩ | ⟨habs, -, ⟨m, hm, hright⟩ | ⟨hemp, -⟩⟩
    · obtain ⟨r, hr⟩ := Option.isSome_iff_exists.mp hpres
      rw [hr] at hright
      rw [hright]
      obtain ⟨M, hM, hres⟩ := ih (ℓ + 1) (2 * p + 1) r f (by omega) (by omega)
        (by omega) (fun ℓ' p' i' hle => hok ℓ' p' i' (by omega)) hr
      exact ⟨M, listMaxO_split_right t ℓ p M hℓL hM, hres⟩
    · have hstm : stored t m := by
        have hmem := ((listMaxO_spec _ m).mp hm).1
        exact ((mem_subKeys_iff t _ _ m).mp hmem).1
      obtain ⟨u, hu⟩ := Option.isSome_iff_exists.mp hstm
      rw [hu] at hright
      rw [hright]
      have hemp' : subKeys t (ℓ + 1) (2 * p + 1) = [] :=
        absent_subKeys_nil t hb (ℓ + 1) _ (by omega) (by omega) habs
      refine ⟨m, listMaxO_split_left t ℓ p m hℓL hemp' hm, ?_⟩
      show descRight t t.nr_levels f u = mapGet (lvl t t.nr_levels) m
      rw [descRight_at_leaf t t.nr_levels u
        (hb.level_eq t.nr_levels m u (le_refl _) hu) f, hu]
    · exfalso
      have habs' : subKeys t (ℓ + 1) (2 * p + 1) = [] :=
        absent_subKeys_nil t hb (ℓ + 1) _ (by omega) (by omega) habs
      have hne : subKeys t ℓ p ≠ [] := by
        refine (present_iff_subKeys t hb ℓ p h1 (by omega)).mp ?_
        rw [hj]
        rfl
      obtain ⟨k, hk⟩ := List.exists_mem_of_ne_nil _ hne
      rcases (mem_subKeys_split t ℓ p k hℓL).mp hk with h' | h'
      · rw [hemp] at h'
        cases h'
      · rw [habs'] at h'
        cases h'

/-- Mirror image: the left-first walk reaches the leaf of the smallest key. -/
theorem descLeft_char (t : Xfast) (hb : BaseInv t) :
    ∀ d ℓ p j fuel, ℓ + d = t.nr_levels → 1 ≤ ℓ → d ≤ fuel →
      (∀ ℓ' p' i', ℓ ≤ ℓ' → ℓ' < t.nr_levels →
        mapGet (lvl t ℓ') p' = some i' → OkAt t ℓ' p' i') →
      mapGet (lvl t ℓ) p = some j →
      ∃ M, listMinO (subKeys t ℓ p) = some M ∧
        descLeft t t.nr_levels fuel j = mapGet (lvl t t.nr_levels) M := by
  intro d
  induction d with
  | zero =>
    intro ℓ p j fuel he h1 _ _ hj
    have hℓL : ℓ = t.nr_levels := by omega
    subst hℓL
    have hst : stored t p := by
      unfold stored
      rw [hj]
      rfl
    refine ⟨p, listMinO_subKeys_leaf t p hst, ?_⟩
    rw [descLeft_at_leaf t t.nr_levels j (hb.level_eq _ p j (le_refl _) hj), hj]
  | succ d ih =>
    intro ℓ p j fuel he h1 hfuel hok hj
    have hℓL : ℓ < t.nr_levels := by omega
    obtain ⟨f, rfl⟩ : ∃ f, fuel = f + 1 := ⟨fuel - 1, by omega⟩
    have hlev : (readN t j).level = ℓ := hb.level_eq ℓ p j (by omega) hj
    rw [descLeft_succ, if_neg (by omega)]
    obtain ⟨hokl, -⟩ := hok ℓ p j (le_refl _) hℓL hj
    unfold nodeLeftOk at hokl
    rcases hokl with ⟨hpres, hleft, -⟩ | ⟨habs, -, ⟨m, hm, hleft⟩ | ⟨hemp, -⟩⟩
    · obtain ⟨r, hr⟩ := Option.isSome_iff_exists.mp hpres
      rw [hr] at hleft
      rw [hleft]
      obtain ⟨M, hM, hres⟩ := ih (ℓ + 1) (2 * p) r f (by omega) (by omega)
        (by omega) (fun ℓ' p' i' hle => hok ℓ' p' i' (by omega)) hr
      exact ⟨M, listMinO_split_left t ℓ p M hℓL hM, hres⟩
    · have hstm : stored t m := by
        have hmem := ((listMinO_spec _ m).mp hm).1
        exact ((mem_subKeys_iff t _ _ m).mp hmem).1
      obtain ⟨u, hu⟩ := Option.isSome_iff_exists.mp hstm
      rw [hu] at hleft
      rw [hleft]
      have hemp' : subKeys t (ℓ + 1) (2 * p) = [] :=
        absent_subKeys_nil t hb (ℓ + 1) _ (by omega) (by omega) habs
      refine ⟨m, listMinO_split_right t ℓ p m hℓL hemp' hm, ?_⟩
      show descLeft t t.nr_levels f u = mapGet (lvl t t.nr_levels) m
      rw [descLeft_at_leaf t t.nr_levels u
        (hb.level_eq t.nr_levels m u (le_refl _) hu) f, hu]
    · exfalso
      have habs' : subKeys t (ℓ + 1) (2 * p) = [] :=
        absent_subKeys_nil t hb (ℓ + 1) _ (by omega) (by omega) habs
      have hne : subKeys t ℓ p ≠ [] := by
        refine (present_iff_subKeys t hb ℓ p h1 (by omega)).mp ?_
        rw [hj]
        rfl
      obtain ⟨k, hk⟩ := List.exists_mem_of_ne_nil _ hne
      rcases (mem_subKeys_split t ℓ p k hℓL).mp hk with h' | h'
      · rw [habs'] at h'
        cases h'
      · rw [hemp] at h'
        cases h'

/-! ## Equations for the update pass and invariant transfer along writes -/

theorem writeN_key_pres (t : Xfast) (j : Nat) (f : TrieNode → TrieNode)
    (hkey : ∀ n, (f n).key = n.key) :
    ∀ i, (readN (writeN t j f) i).key = (readN t i).key := by
  intro i
  by_cases hij : j = i
  · subst hij
    by_cases hj : j < t.arena.length
    · rw [readN_writeN_self t j f hj, hkey]
    · unfold writeN readN
      rw [show (t.arena.set j (f (t.arena.getD j defaultNode)))
          = t.arena from List.set_eq_of_length_le (by omega)]
  · rw [readN_writeN_ne t j i f hij]

theorem BaseInv_writeN (t : Xfast) (j : Nat) (f : TrieNode → TrieNode)
    (hb : BaseInv t)
    (hlevel : ∀ n, (f n).level = n.level)
    (hkey : ∀ n, (f n).key = n.key)
    (hlinks : (readN t j).level = t.nr_levels →
      leafTyped t (f (readN t j)).left ∧ leafTyped t (f (readN t j)).right) :
    BaseInv (writeN t j f) := by
  refine ⟨hb.hL, hb.hlen, hb.h0, hb.keys_lt, hb.dom, ?_, ?_, hb.inj, ?_, ?_⟩
  · intro ℓ p i hℓ hi
    rw [writeN_arena_length]
    exact hb.ids_lt ℓ p i hℓ hi
  · intro ℓ p i hℓ hi
    rw [writeN_level_pres t j f hlevel i]
    exact hb.level_eq ℓ p i hℓ hi
  · intro k i hi
    rw [writeN_key_pres t j f hkey i]
    exact hb.leaf_key k i hi
  · intro i hlen hlev
    rw [writeN_arena_length] at hlen
    rw [writeN_level_pres t j f hlevel i] at hlev
    by_cases hij : i = j
    · subst hij
      rw [readN_writeN_self t i f hlen]
      obtain ⟨h1, h2⟩ := hlinks hlev
      exact ⟨leafTyped_writeN t i f hlevel _ h1, leafTyped_writeN t i f hlevel _ h2⟩
    · rw [readN_writeN_ne t j i f (fun he => hij he.symm)]
      obtain ⟨h1, h2⟩ := hb.leaf_links i hlen hlev
      exact ⟨leafTyped_writeN t j f hlevel _ h1, leafTyped_writeN t j f hlevel _ h2⟩

theorem BaseInv_allocN (t : Xfast) (n : TrieNode) (hb : BaseInv t)
    (hlinks : n.level = t.nr_levels → leafTyped t n.left ∧ leafTyped t n.right) :
    BaseInv (allocN t n) := by
  refine ⟨hb.hL, hb.hlen, hb.h0, hb.keys_lt, hb.dom, ?_, ?_, hb.inj, ?_, ?_⟩
  · intro ℓ p i hℓ hi
    rw [allocN_arena_length]
    exact lt_of_lt_of_le (hb.ids_lt ℓ p i hℓ hi) (by omega)
  · intro ℓ p i hℓ hi
    rw [readN_allocN_lt t n i (hb.ids_lt ℓ p i hℓ hi)]
    exact hb.level_eq ℓ p i hℓ hi
  · intro k i hi
    rw [readN_allocN_lt t n i (hb.ids_lt _ k i (le_refl _) hi)]
    exact hb.leaf_key k i hi
  · intro i hlen hlev
    rw [allocN_arena_length] at hlen
    by_cases hio : i < t.arena.length
    · rw [readN_allocN_lt t n i hio] at hlev ⊢
      obtain ⟨h1, h2⟩ := hb.leaf_links i hio hlev
      exact ⟨leafTyped_allocN t n _ h1, leafTyped_allocN t n _ h2⟩
    · have hie : i = t.arena.length := by omega
      subst hie
      rw [readN_allocN_self] at hlev ⊢
      obtain ⟨h1, h2⟩ := hlinks hlev
      exact ⟨leafTyped_allocN t n _ h1, leafTyped_allocN t n _ h2⟩

theorem nodeLeftWeak_allocN (t : Xfast) (n : TrieNode) (ℓ p i : Nat)
    (hi : i < t.arena.length) (h : nodeLeftWeak t ℓ p i) :
    nodeLeftWeak (allocN t n) ℓ p i := by
  have hr : readN (allocN t n) i = readN t i := readN_allocN_lt t n i hi
  unfold nodeLeftWeak at h ⊢
  simp only [lvl_allocN, allocN_nr_levels, hr]
  rcases h with h | ⟨h1, h2, h3⟩
  · exact Or.inl h
  · exact Or.inr ⟨h1, h2, leafTyped_allocN t n _ h3⟩

theorem nodeRightWeak_allocN (t : Xfast) (n : TrieNode) (ℓ p i : Nat)
    (hi : i < t.arena.length) (h : nodeRightWeak t ℓ p i) :
    nodeRightWeak (allocN t n) ℓ p i := by
  have hr : readN (allocN t n) i = readN t i := readN_allocN_lt t n i hi
  unfold nodeRightWeak at h ⊢
  simp only [lvl_allocN, allocN_nr_levels, hr]
  rcases h with h | ⟨h1, h2, h3⟩
  · exact Or.inl h
  · exact Or.inr ⟨h1, h2, leafTyped_allocN t n _ h3⟩

/-! ### Branch equations of `updStep` and the root step -/

theorem updStep_none (key L : Nat) (t : Xfast) (level : Nat)
    (hget : mapGet (lvl t level) (key >>> (L - level)) = none) :
    updStep key L t level = t := by
  unfold updStep
  dsimp only
  rw [hget]

theorem updStep_left_none (key L : Nat) (t : Xfast) (level nid r : Nat)
    (hget : mapGet (lvl t level) (key >>> (L - level)) = some nid)
    (hl : (readN t nid).left = none) (hr : (readN t nid).right = some r) :
    updStep key L t level
      = writeN t nid (fun n =>
          { n with left := get_leftmost_node t L r, is_desc_left := true }) := by
  unfold updStep
  dsimp only
  rw [hget]
  show (match (readN t nid).left with
    | none =>
      match (readN t nid).right with
      | some r =>
        writeN t nid (fun n =>
          { n with left := get_leftmost_node t L r, is_desc_left := true })
      | none => t
    | some lp =>
      match (readN t nid).right with
      | none =>
        writeN t nid (fun n =>
          { n with right := get_rightmost_node t L lp, is_desc_right := true })
      | some rp =>
        if (readN t nid).is_desc_right then
          writeN t nid (fun n => { n with right := get_rightmost_node t L lp })
        else if (readN t nid).is_desc_left then
          writeN t nid (fun n => { n with left := get_leftmost_node t L rp })
        else t) = _
  rw [hl, hr]

theorem updStep_right_none (key L : Nat) (t : Xfast) (level nid lp : Nat)
    (hget : mapGet (lvl t level) (key >>> (L - level)) = some nid)
    (hl : (readN t nid).left = some lp) (hr : (readN t nid).right = none) :
    updStep key L t level
      = writeN t nid (fun n =>
          { n with right := get_rightmost_node t L lp, is_desc_right := true }) := by
  unfold updStep
  dsimp only
  rw [hget]
  show (match (readN t nid).left with
    | none =>
      match (readN t nid).right with
      | some r =>
        writeN t nid (fun n =>
          { n with left := get_leftmost_node t L r, is_desc_left := true })
      | none => t
    | some lp =>
      match (readN t nid).right with
      | none =>
        writeN t nid (fun n =>
          { n with right := get_rightmost_node t L lp, is_desc_right := true })
      | some rp =>
        if (readN t nid).is_desc_right then
          writeN t nid (fun n => { n with right := get_rightmost_node t L lp })
        else if (readN t nid).is_desc_left then
          writeN t nid (fun n => { n with left := get_leftmost_node t L rp })
        else t) = _
  rw [hl, hr]

theorem updStep_both (key L : Nat) (t : Xfast) (level nid lp rp : Nat)
    (hget : mapGet (lvl t level) (key >>> (L - level)) = some nid)
    (hl : (readN t nid).left = some lp) (hr : (readN t nid).right = some rp) :
    updStep key L t level
      = if (readN t nid).is_desc_right then
          writeN t nid (fun n => { n with right := get_rightmost_node t L lp })
        else if (readN t nid).is_desc_left then
          writeN t nid (fun n => { n with left := get_leftmost_node t L rp })
        else t := by
  unfold updStep
  dsimp only
  rw [hget]
  show (match (readN t nid).left with
    | none =>
      match (readN t nid).right with
      | some r =>
        writeN t nid (fun n =>
          { n with left := get_leftmost_node t L r, is_desc_left := true })
      | none => t
    | some lp =>
      match (readN t nid).right with
      | none =>
        writeN t nid (fun n =>
          { n with right := get_rightmost_node t L lp, is_desc_right := true })
      | some rp =>
        if (readN t nid).is_desc_right then
          writeN t nid (fun n => { n with right := get_rightmost_node t L lp })
        else if (readN t nid).is_desc_left then
          writeN t nid (fun n => { n with left := get_leftmost_node t L rp })
        else t) = _
  rw [hl, hr]

theorem rootStepLeft_false (t : Xfast) (rid L : Nat)
    (h : (readN t rid).is_desc_left = false) : rootStepLeft t rid L = t := by
  unfold rootStepLeft
  rw [h]
  rfl

theorem rootStepLeft_true_none (t : Xfast) (rid L : Nat)
    (h : (readN t rid).is_desc_left = true) (hr : (readN t rid).right = none) :
    rootStepLeft t rid L = t := by
  unfold rootStepLeft
  rw [h, if_pos rfl, hr]

theorem rootStepLeft_true_some (t : Xfast) (rid L r : Nat)
    (h : (readN t rid).is_desc_left = true) (hr : (readN t rid).right = some r) :
    rootStepLeft t rid L
      = writeN t rid (fun n => { n with left := get_leftmost_node t L r }) := by
  unfold rootStepLeft
  rw [h, if_pos rfl, hr]

theorem rootStepRight_false (t : Xfast) (rid L : Nat) :
    rootStepRight t rid L false = t := rfl

theorem rootStepRight_true_none (t : Xfast) (rid L : Nat)
    (hl : (readN t rid).left = none) : rootStepRight t rid L true = t := by
  unfold rootStepRight
  rw [if_pos rfl, hl]

theorem rootStepRight_true_some (t : Xfast) (rid L l : Nat)
    (hl : (readN t rid).left = some l) :
    rootStepRight t rid L true
      = writeN t rid (fun n => { n with right := get_rightmost_node t L l }) := by
  unfold rootStepRight
  rw [if_pos rfl, hl]

theorem rootStep_eq (t : Xfast) (L rid : Nat)
    (h : mapGet (lvl t 0) 0 = some rid) :
    rootStep t L
      = rootStepRight (rootStepLeft t rid L) rid L (readN t rid).is_desc_right := by
  unfold rootStep
  rw [h]

/-! ## The update pass restores canonicity along the key's path -/

theorem okAt_writeN_other (t : Xfast) (j : Nat) (f : TrieNode → TrieNode)
    (hlevel : ∀ n, (f n).level = n.level) (ℓ p i : Nat) (hij : i ≠ j)
    (h : OkAt t ℓ p i) : OkAt (writeN t j f) ℓ p i :=
  ⟨nodeLeftOk_writeN_ne t j f hlevel ℓ p i hij h.1,
   nodeRightOk_writeN_ne t j f hlevel ℓ p i hij h.2⟩

theorem weakAt_writeN_other (t : Xfast) (j : Nat) (f : TrieNode → TrieNode)
    (hlevel : ∀ n, (f n).level = n.level) (ℓ p i : Nat) (hij : i ≠ j)
    (h : WeakAt t ℓ p i) : WeakAt (writeN t j f) ℓ p i :=
  ⟨nodeLeftWeak_writeN_ne t j f hlevel ℓ p i hij h.1,
   nodeRightWeak_writeN_ne t j f hlevel ℓ p i hij h.2⟩

/-- Two distinct indexed positions hold distinct node ids. -/
theorem distinct_pos_ne (t : Xfast) (hb : BaseInv t) (ℓ p i ℓ' p' i' : Nat)
    (h1 : ℓ ≤ t.nr_levels) (h2 : ℓ' ≤ t.nr_levels)
    (hm : mapGet (lvl t ℓ) p = some i) (hm' : mapGet (lvl t ℓ') p' = some i')
    (hne : ℓ ≠ ℓ' ∨ p ≠ p') : i ≠ i' := by
  intro he
  subst he
  by_cases hℓe : ℓ = ℓ'
  · subst hℓe
    have hpe : p ≠ p' := by
      rcases hne with h | h
      · exact absurd rfl h
      · exact h
    exact hb.inj ℓ p p' i h1 hpe hm hm'
  · have e1 := hb.level_eq ℓ p i h1 hm
    have e2 := hb.level_eq ℓ' p' i h2 hm'
    omega

theorem some_side_present (t : Xfast) (hb : BaseInv t) (ℓ p nid : Nat)
    (h1 : 1 ≤ ℓ) (hℓ : ℓ < t.nr_levels)
    (hget : mapGet (lvl t ℓ) p = some nid) :
    (mapGet (lvl t (ℓ + 1)) (2 * p)).isSome ∨
    (mapGet (lvl t (ℓ + 1)) (2 * p + 1)).isSome := by
  have hsub : subKeys t ℓ p ≠ [] :=
    (present_iff_subKeys t hb ℓ p h1 (by omega)).mp (by rw [hget]; rfl)
  obtain ⟨k, hk⟩ := List.exists_mem_of_ne_nil _ hsub
  rcases (mem_subKeys_split t ℓ p k hℓ).mp hk with h | h
  · exact Or.inl ((present_iff_subKeys t hb (ℓ + 1) _ (by omega) (by omega)).mpr
      (List.ne_nil_of_mem h))
  · exact Or.inr ((present_iff_subKeys t hb (ℓ + 1) _ (by omega) (by omega)).mpr
      (List.ne_nil_of_mem h))

/-- One step of the main loop of `update_descendant_ptr`, at a level `ℓ` of
the key's path: the path node at `ℓ` becomes canonical, everything deeper
stays canonical, the path above stays weakly canonical. -/
theorem updStep_mid (t : Xfast) (key ℓ : Nat) (hb : BaseInv t)
    (hmid : MidState t key ℓ) (h1 : 1 ≤ ℓ) (hℓ : ℓ < t.nr_levels) :
    BaseInv (updStep key t.nr_levels t ℓ) ∧
      MidState (updStep key t.nr_levels t ℓ) key (ℓ - 1) := by
  cases hget : mapGet (lvl t ℓ) (key >>> (t.nr_levels - ℓ)) with
  | none =>
    rw [updStep_none key t.nr_levels t ℓ hget]
    refine ⟨hb, ?_⟩
    intro ℓ' p' i' hℓ' hm'
    have hold := hmid ℓ' p' i' hℓ' hm'
    by_cases hc : ℓ' ≤ ℓ - 1 ∧ p' = key >>> (t.nr_levels - ℓ')
    · rw [if_pos hc]
      rw [if_pos ⟨by omega, hc.2⟩] at hold
      exact hold
    · rw [if_neg hc]
      by_cases hc2 : ℓ' ≤ ℓ ∧ p' = key >>> (t.nr_levels - ℓ')
      · exfalso
        have hle : ℓ' = ℓ := by omega
        subst hle
        rw [hc2.2] at hm'
        rw [hm'] at hget
        cases hget
      · rw [if_neg hc2] at hold
        exact hold
  | some nid =>
    have hnidlt : nid < t.arena.length := hb.ids_lt ℓ _ nid (by omega) hget
    have hlev : (readN t nid).level = ℓ := hb.level_eq ℓ _ nid (by omega) hget
    have hw : WeakAt t ℓ (key >>> (t.nr_levels - ℓ)) nid := by
      have h := hmid ℓ _ nid hℓ hget
      rw [if_pos ⟨le_refl _, rfl⟩] at h
      exact h
    have hok_deep : ∀ ℓ'' p'' i'', ℓ + 1 ≤ ℓ'' → ℓ'' < t.nr_levels →
        mapGet (lvl t ℓ'') p'' = some i'' → OkAt t ℓ'' p'' i'' := by
      intro ℓ'' p'' i'' ha hb' hm''
      have h := hmid ℓ'' p'' i'' hb' hm''
      rw [if_neg (by rintro ⟨hx, -⟩; omega)] at h
      exact h
    -- common status-transfer for positions other than the path node at ℓ
    have hrest : ∀ (f : TrieNode → TrieNode), (∀ n, (f n).level = n.level) →
        OkAt (writeN t nid f) ℓ (key >>> (t.nr_levels - ℓ)) nid →
        MidState (writeN t nid f) key (ℓ - 1) := by
      intro f hflev hoknew
      intro ℓ' p' i' hℓ'0 hm'
      have hℓ' : ℓ' < t.nr_levels := hℓ'0
      rw [show lvl (writeN t nid f) ℓ' = lvl t ℓ' from rfl] at hm'
      show if ℓ' ≤ ℓ - 1 ∧ p' = key >>> (t.nr_levels - ℓ') then
          WeakAt (writeN t nid f) ℓ' p' i'
        else OkAt (writeN t nid f) ℓ' p' i'
      by_cases hself : ℓ' = ℓ ∧ p' = key >>> (t.nr_levels - ℓ')
      · obtain ⟨he1, he2⟩ := hself
        subst he1
        subst he2
        have : i' = nid := by
          rw [hm'] at hget
          cases hget
          rfl
        subst this
        rw [if_neg (by rintro ⟨hx, -⟩; omega)]
        exact hoknew
      · have hne : i' ≠ nid := by
          refine distinct_pos_ne t hb ℓ' p' i' ℓ _ nid (by omega) (by omega) hm' hget ?_
          by_cases he : ℓ' = ℓ
          · subst he
            refine Or.inr ?_
            intro hp
            exact hself ⟨rfl, hp⟩
          · exact Or.inl he
        have hold := hmid ℓ' p' i' hℓ' hm'
        by_cases hc : ℓ' ≤ ℓ - 1 ∧ p' = key >>> (t.nr_levels - ℓ')
        · rw [if_pos hc]
          rw [if_pos ⟨by omega, hc.2⟩] at hold
          exact weakAt_writeN_other t nid f hflev ℓ' p' i' hne hold
        · rw [if_neg hc]
          have hc2 : ¬ (ℓ' ≤ ℓ ∧ p' = key >>> (t.nr_levels - ℓ')) := by
            rintro ⟨hx, hy⟩
            have : ℓ' = ℓ := by
              rcases Nat.lt_or_ge ℓ' ℓ with h' | h'
              · exact absurd ⟨by omega, hy⟩ hc
              · omega
            exact hself ⟨this, hy⟩
          rw [if_neg hc2] at hold
          exact okAt_writeN_other t nid f hflev ℓ' p' i' hne hold
    cases hl : (readN t nid).left with
    | none =>
      obtain ⟨habsL, hdl, -⟩ : ¬ (mapGet (lvl t (ℓ + 1)) (2 * (key >>> (t.nr_levels - ℓ)))).isSome ∧
          (readN t nid).is_desc_left = true ∧ leafTyped t (readN t nid).left := by
        rcases hw.1 with ⟨hp, he, -⟩ | h
        · rw [hl] at he
          rw [← he] at hp
          cases hp
        · exact h
      have hRP : (mapGet (lvl t (ℓ + 1)) (2 * (key >>> (t.nr_levels - ℓ)) + 1)).isSome := by
        rcases some_side_present t hb ℓ _ nid h1 hℓ hget with h | h
        · exact absurd h habsL
        · exact h
      obtain ⟨hpR, heR, hfR⟩ : (mapGet (lvl t (ℓ + 1)) (2 * (key >>> (t.nr_levels - ℓ)) + 1)).isSome ∧
          (readN t nid).right = mapGet (lvl t (ℓ + 1)) (2 * (key >>> (t.nr_levels - ℓ)) + 1) ∧
          (readN t nid).is_desc_right = false := by
        rcases hw.2 with h | ⟨hab, -, -⟩
        · exact h
        · exact absurd hRP hab
      obtain ⟨rp, hrp⟩ := Option.isSome_iff_exists.mp hpR
      have hrsome : (readN t nid).right = some rp := by rw [heR, hrp]
      rw [updStep_left_none key t.nr_levels t ℓ nid rp hget hl hrsome]
      obtain ⟨M, hMin, hwalk⟩ := descLeft_char t hb (t.nr_levels - (ℓ + 1)) (ℓ + 1)
        (2 * (key >>> (t.nr_levels - ℓ)) + 1) rp (t.nr_levels + 1) (by omega) (by omega) (by omega)
        (fun ℓ'' p'' i'' ha hb' hm'' => hok_deep ℓ'' p'' i'' ha hb' hm'') hrp
      have hwalk' : get_leftmost_node t t.nr_levels rp = mapGet (lvl t t.nr_levels) M := hwalk
      have hflev : ∀ n : TrieNode,
          ((fun n : TrieNode =>
            { n with left := get_leftmost_node t t.nr_levels rp, is_desc_left := true })
              n).level = n.level := fun n => rfl
      have hoknew : OkAt (writeN t nid (fun n =>
          { n with left := get_leftmost_node t t.nr_levels rp, is_desc_left := true }))
          ℓ (key >>> (t.nr_levels - ℓ)) nid := by
        constructor
        · unfold nodeLeftOk
          simp only [lvl_writeN, writeN_nr_levels, subKeys_writeN]
          refine Or.inr ⟨habsL, ?_, Or.inl ⟨M, hMin, ?_⟩⟩
          · rw [readN_writeN_self t nid _ hnidlt]
          · rw [readN_writeN_self t nid _ hnidlt]
            exact hwalk'
        · unfold nodeRightOk
          simp only [lvl_writeN, writeN_nr_levels, subKeys_writeN]
          refine Or.inl ⟨hpR, ?_, ?_⟩
          · rw [readN_writeN_self t nid _ hnidlt]
            exact heR
          · rw [readN_writeN_self t nid _ hnidlt]
            exact hfR
      refine ⟨BaseInv_writeN t nid _ hb hflev (fun n => rfl) ?_, hrest _ hflev hoknew⟩
      intro hc
      rw [hlev] at hc
      omega
    | some lp =>
      cases hr : (readN t nid).right with
      | none =>
        obtain ⟨habsR, hdr, -⟩ : ¬ (mapGet (lvl t (ℓ + 1)) (2 * (key >>> (t.nr_levels - ℓ)) + 1)).isSome ∧
            (readN t nid).is_desc_right = true ∧ leafTyped t (readN t nid).right := by
          rcases hw.2 with ⟨hp, he, -⟩ | h
          · rw [hr] at he
            rw [← he] at hp
            cases hp
          · exact h
        have hLP : (mapGet (lvl t (ℓ + 1)) (2 * (key >>> (t.nr_levels - ℓ)))).isSome := by
          rcases some_side_present t hb ℓ _ nid h1 hℓ hget with h | h
          · exact h
          · exact absurd h habsR
        obtain ⟨hpL, heL, hfL⟩ : (mapGet (lvl t (ℓ + 1)) (2 * (key >>> (t.nr_levels - ℓ)))).isSome ∧
            (readN t nid).left = mapGet (lvl t (ℓ + 1)) (2 * (key >>> (t.nr_levels - ℓ))) ∧
            (readN t nid).is_desc_left = false := by
          rcases hw.1 with h | ⟨hab, -, -⟩
          · exact h
          · exact absurd hLP hab
        have hlmap : mapGet (lvl t (ℓ + 1)) (2 * (key >>> (t.nr_levels - ℓ))) = some lp := by
          rw [← heL, hl]
        rw [updStep_right_none key t.nr_levels t ℓ nid lp hget hl hr]
        obtain ⟨M, hMax, hwalk⟩ := descRight_char t hb (t.nr_levels - (ℓ + 1)) (ℓ + 1)
          (2 * (key >>> (t.nr_levels - ℓ))) lp (t.nr_levels + 1) (by omega) (by omega) (by omega)
          (fun ℓ'' p'' i'' ha hb' hm'' => hok_deep ℓ'' p'' i'' ha hb' hm'') hlmap
        have hwalk' : get_rightmost_node t t.nr_levels lp = mapGet (lvl t t.nr_levels) M := hwalk
        have hflev : ∀ n : TrieNode,
            ((fun n : TrieNode =>
              { n with right := get_rightmost_node t t.nr_levels lp, is_desc_right := true })
                n).level = n.level := fun n => rfl
        have hoknew : OkAt (writeN t nid (fun n =>
            { n with right := get_rightmost_node t t.nr_levels lp, is_desc_right := true }))
            ℓ (key >>> (t.nr_levels - ℓ)) nid := by
          constructor
          · unfold nodeLeftOk
            simp only [lvl_writeN, writeN_nr_levels, subKeys_writeN]
            refine Or.inl ⟨hpL, ?_, ?_⟩
            · rw [readN_writeN_self t nid _ hnidlt]
              exact heL
            · rw [readN_writeN_self t nid _ hnidlt]
              exact hfL
          · unfold nodeRightOk
            simp only [lvl_writeN, writeN_nr_levels, subKeys_writeN]
            refine Or.inr ⟨habsR, ?_, Or.inl ⟨M, hMax, ?_⟩⟩
            · rw [readN_writeN_self t nid _ hnidlt]
            · rw [readN_writeN_self t nid _ hnidlt]
              exact hwalk'
        refine ⟨BaseInv_writeN t nid _ hb hflev (fun n => rfl) ?_, hrest _ hflev hoknew⟩
        intro hc
        rw [hlev] at hc
        omega
      | some rp =>
        rw [updStep_both key t.nr_levels t ℓ nid lp rp hget hl hr]
        by_cases hdr : (readN t nid).is_desc_right = true
        · rw [if_pos hdr]
          obtain ⟨habsR, -, -⟩ : ¬ (mapGet (lvl t (ℓ + 1)) (2 * (key >>> (t.nr_levels - ℓ)) + 1)).isSome ∧
              (readN t nid).is_desc_right = true ∧ leafTyped t (readN t nid).right := by
            rcases hw.2 with ⟨-, -, hf⟩ | h
            · rw [hdr] at hf
              cases hf
            · exact h
          have hLP : (mapGet (lvl t (ℓ + 1)) (2 * (key >>> (t.nr_levels - ℓ)))).isSome := by
            rcases some_side_present t hb ℓ _ nid h1 hℓ hget with h | h
            · exact h
            · exact absurd h habsR
          obtain ⟨hpL, heL, hfL⟩ : (mapGet (lvl t (ℓ + 1)) (2 * (key >>> (t.nr_levels - ℓ)))).isSome ∧
              (readN t nid).left = mapGet (lvl t (ℓ + 1)) (2 * (key >>> (t.nr_levels - ℓ))) ∧
              (readN t nid).is_desc_left = false := by
            rcases hw.1 with h | ⟨hab, -, -⟩
            · exact h
            · exact absurd hLP hab
          have hlmap : mapGet (lvl t (ℓ + 1)) (2 * (key >>> (t.nr_levels - ℓ))) = some lp := by
            rw [← heL, hl]
          obtain ⟨M, hMax, hwalk⟩ := descRight_char t hb (t.nr_levels - (ℓ + 1)) (ℓ + 1)
            (2 * (key >>> (t.nr_levels - ℓ))) lp (t.nr_levels + 1) (by omega) (by omega) (by omega)
            (fun ℓ'' p'' i'' ha hb' hm'' => hok_deep ℓ'' p'' i'' ha hb' hm'') hlmap
          have hwalk' : get_rightmost_node t t.nr_levels lp = mapGet (lvl t t.nr_levels) M := hwalk
          have hflev : ∀ n : TrieNode,
              ((fun n : TrieNode => { n with right := get_rightmost_node t t.nr_levels lp }) n).level
                = n.level := fun n => rfl
          have hoknew : OkAt (writeN t nid (fun n =>
              { n with right := get_rightmost_node t t.nr_levels lp }))
              ℓ (key >>> (t.nr_levels - ℓ)) nid := by
            constructor
            · unfold nodeLeftOk
              simp only [lvl_writeN, writeN_nr_levels, subKeys_writeN]
              refine Or.inl ⟨hpL, ?_, ?_⟩
              · rw [readN_writeN_self t nid _ hnidlt]
                exact heL
              · rw [readN_writeN_self t nid _ hnidlt]
                exact hfL
            · unfold nodeRightOk
              simp only [lvl_writeN, writeN_nr_levels, subKeys_writeN]
              refine Or.inr ⟨habsR, ?_, Or.inl ⟨M, hMax, ?_⟩⟩
              · rw [readN_writeN_self t nid _ hnidlt]
                exact hdr
              · rw [readN_writeN_self t nid _ hnidlt]
                exact hwalk'
          refine ⟨BaseInv_writeN t nid _ hb hflev (fun n => rfl) ?_, hrest _ hflev hoknew⟩
          intro hc
          rw [hlev] at hc
          omega
        · rw [if_neg hdr]
          have hdrf : (readN t nid).is_desc_right = false := by
            revert hdr
            cases (readN t nid).is_desc_right <;> simp
          obtain ⟨hpR, heR, hfR⟩ : (mapGet (lvl t (ℓ + 1)) (2 * (key >>> (t.nr_levels - ℓ)) + 1)).isSome ∧
              (readN t nid).right = mapGet (lvl t (ℓ + 1)) (2 * (key >>> (t.nr_levels - ℓ)) + 1) ∧
              (readN t nid).is_desc_right = false := by
            rcases hw.2 with h | ⟨-, hf, -⟩
            · exact h
            · rw [hdrf] at hf
              cases hf
          by_cases hdl : (readN t nid).is_desc_left = true
          · rw [if_pos hdl]
            obtain ⟨habsL, -, -⟩ : ¬ (mapGet (lvl t (ℓ + 1)) (2 * (key >>> (t.nr_levels - ℓ)))).isSome ∧
                (readN t nid).is_desc_left = true ∧ leafTyped t (readN t nid).left := by
              rcases hw.1 with ⟨-, -, hf⟩ | h
              · rw [hdl] at hf
                cases hf
              · exact h
            have hrmap : mapGet (lvl t (ℓ + 1)) (2 * (key >>> (t.nr_levels - ℓ)) + 1) = some rp := by
              rw [← heR, hr]
            obtain ⟨M, hMin, hwalk⟩ := descLeft_char t hb (t.nr_levels - (ℓ + 1)) (ℓ + 1)
              (2 * (key >>> (t.nr_levels - ℓ)) + 1) rp (t.nr_levels + 1) (by omega) (by omega) (by omega)
              (fun ℓ'' p'' i'' ha hb' hm'' => hok_deep ℓ'' p'' i'' ha hb' hm'') hrmap
            have hwalk' : get_leftmost_node t t.nr_levels rp = mapGet (lvl t t.nr_levels) M := hwalk
            have hflev : ∀ n : TrieNode,
                ((fun n : TrieNode => { n with left := get_leftmost_node t t.nr_levels rp }) n).level
                  = n.level := fun n => rfl
            have hoknew : OkAt (writeN t nid (fun n =>
                { n with left := get_leftmost_node t t.nr_levels rp }))
                ℓ (key >>> (t.nr_levels - ℓ)) nid := by
              constructor
              · unfold nodeLeftOk
                simp only [lvl_writeN, writeN_nr_levels, subKeys_writeN]
                refine Or.inr ⟨habsL, ?_, Or.inl ⟨M, hMin, ?_⟩⟩
                · rw [readN_writeN_self t nid _ hnidlt]
                  exact hdl
                · rw [readN_writeN_self t nid _ hnidlt]
                  exact hwalk'
              · unfold nodeRightOk
                simp only [lvl_writeN, writeN_nr_levels, subKeys_writeN]
                refine Or.inl ⟨hpR, ?_, ?_⟩
                · rw [readN_writeN_self t nid _ hnidlt]
                  exact heR
                · rw [readN_writeN_self t nid _ hnidlt]
                  exact hfR
            refine ⟨BaseInv_writeN t nid _ hb hflev (fun n => rfl) ?_, hrest _ hflev hoknew⟩
            intro hc
            rw [hlev] at hc
            omega
          · rw [if_neg hdl]
            have hdlf : (readN t nid).is_desc_left = false := by
              revert hdl
              cases (readN t nid).is_desc_left <;> simp
            obtain ⟨hpL, heL, hfL⟩ : (mapGet (lvl t (ℓ + 1)) (2 * (key >>> (t.nr_levels - ℓ)))).isSome ∧
                (readN t nid).left = mapGet (lvl t (ℓ + 1)) (2 * (key >>> (t.nr_levels - ℓ))) ∧
                (readN t nid).is_desc_left = false := by
              rcases hw.1 with h | ⟨-, hf, -⟩
              · exact h
              · rw [hdlf] at hf
                cases hf
            have hoknew : OkAt t ℓ (key >>> (t.nr_levels - ℓ)) nid :=
              ⟨Or.inl ⟨hpL, heL, hfL⟩, Or.inl ⟨hpR, heR, hfR⟩⟩
            refine ⟨hb, ?_⟩
            intro ℓ' p' i' hℓ' hm'
            by_cases hself : ℓ' = ℓ ∧ p' = key >>> (t.nr_levels - ℓ')
            · obtain ⟨he1, he2⟩ := hself
              subst he1
              subst he2
              have : i' = nid := by
                rw [hm'] at hget
                cases hget
                rfl
              subst this
              rw [if_neg (by rintro ⟨hx, -⟩; omega)]
              exact hoknew
            · have hold := hmid ℓ' p' i' hℓ' hm'
              by_cases hc : ℓ' ≤ ℓ - 1 ∧ p' = key >>> (t.nr_levels - ℓ')
              · rw [if_pos hc]
                rw [if_pos ⟨by omega, hc.2⟩] at hold
                exact hold
              · rw [if_neg hc]
                have hc2 : ¬ (ℓ' ≤ ℓ ∧ p' = key >>> (t.nr_levels - ℓ')) := by
                  rintro ⟨hx, hy⟩
                  have : ℓ' = ℓ := by
                    rcases Nat.lt_or_ge ℓ' ℓ with h' | h'
                    · exact absurd ⟨by omega, hy⟩ hc
                    · omega
                  exact hself ⟨this, hy⟩
                rw [if_neg hc2] at hold
                exact hold

/-! ## The whole update pass -/

theorem upd_fold (key : Nat) (L : Nat) : ∀ n (t : Xfast), t.nr_levels = L → n ≤ L - 1 →
    BaseInv t → MidState t key n →
    BaseInv (((List.range' 1 n).reverse).foldl (updStep key L) t) ∧
    MidState (((List.range' 1 n).reverse).foldl (updStep key L) t) key 0 ∧
    (((List.range' 1 n).reverse).foldl (updStep key L) t).nr_levels = L := by
  intro n
  induction n with
  | zero =>
    intro t hnr _ hb hmid
    exact ⟨hb, hmid, hnr⟩
  | succ n ih =>
    intro t hnr hle hb hmid
    rw [List.range'_1_concat 1 n]
    simp only [List.reverse_append, List.reverse_cons, List.reverse_nil,
      List.nil_append, List.singleton_append, List.foldl_cons]
    have hstep : BaseInv (updStep key L t (1 + n)) ∧
        MidState (updStep key L t (1 + n)) key n := by
      rw [show 1 + n = n + 1 from Nat.add_comm 1 n, ← hnr]
      have h := updStep_mid t key (n + 1) hb hmid (by omega) (by omega)
      refine ⟨h.1, ?_⟩
      have h2 := h.2
      rw [Nat.add_sub_cancel] at h2
      exact h2
    have h1nr : (updStep key L t (1 + n)).nr_levels = L := by
      rw [(frame_updStep key L t (1 + n)).1, hnr]
    exact ih (updStep key L t (1 + n)) h1nr (by omega) hstep.1 hstep.2

theorem mapGet_root (p i : Nat) (h : mapGet [(0, 0)] p = some i) :
    p = 0 ∧ i = 0 := by
  by_cases hp : p = 0
  · subst hp
    have he : mapGet [(0, 0)] 0 = some 0 := rfl
    rw [he] at h
    cases h
    exact ⟨rfl, rfl⟩
  · exfalso
    unfold mapGet at h
    rw [List.find?_cons_of_neg _ (by simpa using fun he => hp he.symm)] at h
    simp at h

theorem root_others_id (t : Xfast) (hb : BaseInv t)
    (hok1 : ∀ ℓ p i, 1 ≤ ℓ → ℓ < t.nr_levels → mapGet (lvl t ℓ) p = some i → OkAt t ℓ p i)
    (hroot : OkAt t 0 0 0) :
    ∀ ℓ p i, ℓ < t.nr_levels → mapGet (lvl t ℓ) p = some i → OkAt t ℓ p i := by
  intro ℓ p i hℓ hm
  by_cases h0 : ℓ = 0
  · subst h0
    rw [hb.h0] at hm
    obtain ⟨hp, hi⟩ := mapGet_root p i hm
    subst hp
    subst hi
    exact hroot
  · exact hok1 ℓ p i (by omega) hℓ hm

theorem rootStep_others (t : Xfast) (hb : BaseInv t)
    (hok1 : ∀ ℓ p i, 1 ≤ ℓ → ℓ < t.nr_levels → mapGet (lvl t ℓ) p = some i → OkAt t ℓ p i)
    (f : TrieNode → TrieNode) (hflev : ∀ n, (f n).level = n.level)
    (hroot : OkAt (writeN t 0 f) 0 0 0) :
    ∀ ℓ p i, ℓ < (writeN t 0 f).nr_levels →
      mapGet (lvl (writeN t 0 f) ℓ) p = some i → OkAt (writeN t 0 f) ℓ p i := by
  intro ℓ p i hℓ0 hm
  have hℓ : ℓ < t.nr_levels := hℓ0
  rw [show lvl (writeN t 0 f) ℓ = lvl t ℓ from rfl] at hm
  by_cases h0 : ℓ = 0
  · subst h0
    rw [hb.h0] at hm
    obtain ⟨hp, hi⟩ := mapGet_root p i hm
    subst hp
    subst hi
    exact hroot
  · have hi0 : i ≠ 0 := by
      intro he
      subst he
      have e1 := hb.level_eq ℓ p 0 (by omega) hm
      have e2 : (readN t 0).level = 0 :=
        hb.level_eq 0 0 0 (by omega) (by rw [hb.h0]; rfl)
      omega
    exact okAt_writeN_other t 0 f hflev ℓ p i hi0 (hok1 ℓ p i (by omega) hℓ hm)

/-- The root special-case turns a weakly canonical root into a canonical one
(in every child configuration, including the emptied trie). -/
theorem rootStep_ok (t : Xfast) (key L : Nat) (hnr : t.nr_levels = L)
    (hb : BaseInv t) (hmid : MidState t key 0) (hkey : key < 2 ^ t.nr_levels) :
    XfInv (rootStep t L) := by
  subst hnr
  have hroot0 : mapGet (lvl t 0) 0 = some 0 := by
    rw [hb.h0]
    rfl
  rw [rootStep_eq t t.nr_levels 0 hroot0]
  have hrlt : (0 : Nat) < t.arena.length := hb.ids_lt 0 0 0 (by omega) hroot0
  have hrlev : (readN t 0).level = 0 := hb.level_eq 0 0 0 (by omega) hroot0
  have hL1 := hb.hL
  have hw : WeakAt t 0 0 0 := by
    have h := hmid 0 0 0 (by omega) hroot0
    rw [if_pos ⟨le_refl 0,
      by rw [Nat.sub_zero, pfx_zero_of_lt key t.nr_levels hkey]⟩] at h
    exact h
  have hok1 : ∀ ℓ p i, 1 ≤ ℓ → ℓ < t.nr_levels →
      mapGet (lvl t ℓ) p = some i → OkAt t ℓ p i := by
    intro ℓ p i h1 h2 hm
    have h := hmid ℓ p i h2 hm
    rw [if_neg (by rintro ⟨hx, -⟩; omega)] at h
    exact h
  obtain ⟨hw1, hw2⟩ := hw
  unfold nodeLeftWeak at hw1
  unfold nodeRightWeak at hw2
  have e1 : (0 : Nat) + 1 = 1 := rfl
  have e2 : 2 * (0 : Nat) = 0 := rfl
  simp only [e2, e1] at hw1 hw2
  by_cases hLP : (mapGet (lvl t 1) 0).isSome = true
  · obtain ⟨hpL, heL, hfL⟩ : (mapGet (lvl t 1) 0).isSome = true ∧
        (readN t 0).left = mapGet (lvl t 1) 0 ∧ (readN t 0).is_desc_left = false := by
      rcases hw1 with h | ⟨hab, -, -⟩
      · exact h
      · exact absurd hLP hab
    by_cases hRP : (mapGet (lvl t 1) 1).isSome = true
    · -- both children real: nothing to do
      obtain ⟨hpR, heR, hfR⟩ : (mapGet (lvl t 1) 1).isSome = true ∧
          (readN t 0).right = mapGet (lvl t 1) 1 ∧ (readN t 0).is_desc_right = false := by
        rcases hw2 with h | ⟨hab, -, -⟩
        · exact h
        · exact absurd hRP hab
      rw [rootStepLeft_false t 0 t.nr_levels hfL, hfR, rootStepRight_false]
      refine ⟨hb, ?_⟩
      refine root_others_id t hb hok1 ⟨Or.inl ⟨hpL, heL, hfL⟩, Or.inl ⟨hpR, heR, hfR⟩⟩
    · -- left child real, right side to be recomputed from it
      obtain ⟨habsR, hdr, -⟩ : ¬ (mapGet (lvl t 1) 1).isSome = true ∧
          (readN t 0).is_desc_right = true ∧ leafTyped t (readN t 0).right := by
        rcases hw2 with ⟨hp, -, -⟩ | h
        · exact absurd hp hRP
        · exact h
      obtain ⟨l, hlm⟩ := Option.isSome_iff_exists.mp hLP
      have hleft : (readN t 0).left = some l := by rw [heL, hlm]
      rw [rootStepLeft_false t 0 t.nr_levels hfL, hdr,
        rootStepRight_true_some t 0 t.nr_levels l hleft]
      obtain ⟨M, hMax, hwalk⟩ := descRight_char t hb (t.nr_levels - 1) 1 0 l
        (t.nr_levels + 1) (by omega) (le_refl 1) (by omega)
        (fun ℓ'' p'' i'' ha hb' hm'' => hok1 ℓ'' p'' i'' ha hb' hm'') hlm
      have hwalk' : get_rightmost_node t t.nr_levels l
          = mapGet (lvl t t.nr_levels) M := hwalk
      have hflev : ∀ n : TrieNode,
          ((fun n : TrieNode =>
            { n with right := get_rightmost_node t t.nr_levels l }) n).level
            = n.level := fun n => rfl
      have hbase := BaseInv_writeN t 0 _ hb hflev (fun n => rfl)
        (by intro hc; rw [hrlev] at hc; omega)
      have hroot : OkAt (writeN t 0 (fun n : TrieNode =>
          { n with right := get_rightmost_node t t.nr_levels l })) 0 0 0 := by
        constructor
        · unfold nodeLeftOk
          simp only [lvl_writeN, writeN_nr_levels, subKeys_writeN]
          refine Or.inl ⟨hpL, ?_, ?_⟩
          · rw [readN_writeN_self t 0 _ hrlt]
            exact heL
          · rw [readN_writeN_self t 0 _ hrlt]
            exact hfL
        · unfold nodeRightOk
          simp only [lvl_writeN, writeN_nr_levels, subKeys_writeN]
          refine Or.inr ⟨habsR, ?_, Or.inl ⟨M, hMax, ?_⟩⟩
          · rw [readN_writeN_self t 0 _ hrlt]
            exact hdr
          · rw [readN_writeN_self t 0 _ hrlt]
            exact hwalk'
      exact ⟨hbase, rootStep_others t hb hok1 _ hflev hroot⟩
  · -- left side absent
    obtain ⟨habsL, hdl, htypL⟩ : ¬ (mapGet (lvl t 1) 0).isSome = true ∧
        (readN t 0).is_desc_left = true ∧ leafTyped t (readN t 0).left := by
      rcases hw1 with ⟨hp, -, -⟩ | h
      · exact absurd hp hLP
      · exact h
    by_cases hRP : (mapGet (lvl t 1) 1).isSome = true
    · -- right child real, left side recomputed from it
      obtain ⟨hpR, heR, hfR⟩ : (mapGet (lvl t 1) 1).isSome = true ∧
          (readN t 0).right = mapGet (lvl t 1) 1 ∧ (readN t 0).is_desc_right = false := by
        rcases hw2 with h | ⟨hab, -, -⟩
        · exact h
        · exact absurd hRP hab
      obtain ⟨r, hrm⟩ := Option.isSome_iff_exists.mp hRP
      have hright : (readN t 0).right = some r := by rw [heR, hrm]
      rw [rootStepLeft_true_some t 0 t.nr_levels r hdl hright, hfR, rootStepRight_false]
      obtain ⟨M, hMin, hwalk⟩ := descLeft_char t hb (t.nr_levels - 1) 1 1 r
        (t.nr_levels + 1) (by omega) (le_refl 1) (by omega)
        (fun ℓ'' p'' i'' ha hb' hm'' => hok1 ℓ'' p'' i'' ha hb' hm'') hrm
      have hwalk' : get_leftmost_node t t.nr_levels r
          = mapGet (lvl t t.nr_levels) M := hwalk
      have hflev : ∀ n : TrieNode,
          ((fun n : TrieNode =>
            { n with left := get_leftmost_node t t.nr_levels r }) n).level
            = n.level := fun n => rfl
      have hbase := BaseInv_writeN t 0 _ hb hflev (fun n => rfl)
        (by intro hc; rw [hrlev] at hc; omega)
      have hroot : OkAt (writeN t 0 (fun n : TrieNode =>
          { n with left := get_leftmost_node t t.nr_levels r })) 0 0 0 := by
        constructor
        · unfold nodeLeftOk
          simp only [lvl_writeN, writeN_nr_levels, subKeys_writeN]
          refine Or.inr ⟨habsL, ?_, Or.inl ⟨M, hMin, ?_⟩⟩
          · rw [readN_writeN_self t 0 _ hrlt]
            exact hdl
          · rw [readN_writeN_self t 0 _ hrlt]
            exact hwalk'
        · unfold nodeRightOk
          simp only [lvl_writeN, writeN_nr_levels, subKeys_writeN]
          refine Or.inl ⟨hpR, ?_, ?_⟩
          · rw [readN_writeN_self t 0 _ hrlt]
            exact heR
          · rw [readN_writeN_self t 0 _ hrlt]
            exact hfR
      exact ⟨hbase, rootStep_others t hb hok1 _ hflev hroot⟩
    · -- both sides absent: the trie below the root is empty
      obtain ⟨habsR, hdr, htypR⟩ : ¬ (mapGet (lvl t 1) 1).isSome = true ∧
          (readN t 0).is_desc_right = true ∧ leafTyped t (readN t 0).right := by
        rcases hw2 with ⟨hp, -, -⟩ | h
        · exact absurd hp hRP
        · exact h
      have hsub0 : subKeys t 1 0 = [] :=
        absent_subKeys_nil t hb 1 0 (le_refl 1) (by omega) habsL
      have hsub1 : subKeys t 1 1 = [] :=
        absent_subKeys_nil t hb 1 1 (le_refl 1) (by omega) habsR
      cases hR : (readN t 0).right with
      | none =>
        rw [rootStepLeft_true_none t 0 t.nr_levels hdl hR, hdr]
        cases hL2 : (readN t 0).left with
        | none =>
          rw [rootStepRight_true_none t 0 t.nr_levels hL2]
          refine ⟨hb, ?_⟩
          refine root_others_id t hb hok1 ⟨?_, ?_⟩
          · unfold nodeLeftOk
            refine Or.inr ⟨habsL, hdl, Or.inr ⟨hsub1, ?_⟩⟩
            rw [hL2]
            exact leafTyped_none t
          · unfold nodeRightOk
            refine Or.inr ⟨habsR, hdr, Or.inr ⟨hsub0, ?_⟩⟩
            rw [hR]
            exact leafTyped_none t
        | some l =>
          obtain ⟨hllt, hllev⟩ := htypL l hL2
          rw [rootStepRight_true_some t 0 t.nr_levels l hL2]
          have hgw : get_rightmost_node t t.nr_levels l = some l :=
            descRight_at_leaf t t.nr_levels l hllev _
          have hflev : ∀ n : TrieNode,
              ((fun n : TrieNode =>
                { n with right := get_rightmost_node t t.nr_levels l }) n).level
                = n.level := fun n => rfl
          have hbase := BaseInv_writeN t 0 _ hb hflev (fun n => rfl)
            (by intro hc; rw [hrlev] at hc; omega)
          have htyl : leafTyped t (some l) := by
            intro j hj
            cases hj
            exact ⟨hllt, hllev⟩
          have hroot : OkAt (writeN t 0 (fun n : TrieNode =>
              { n with right := get_rightmost_node t t.nr_levels l })) 0 0 0 := by
            constructor
            · unfold nodeLeftOk
              simp only [lvl_writeN, writeN_nr_levels, subKeys_writeN]
              refine Or.inr ⟨habsL, ?_, Or.inr ⟨hsub1, ?_⟩⟩
              · rw [readN_writeN_self t 0 _ hrlt]
                exact hdl
              · rw [readN_writeN_self t 0 _ hrlt]
                show leafTyped _ (readN t 0).left
                rw [hL2]
                exact leafTyped_writeN t 0 _ hflev _ htyl
            · unfold nodeRightOk
              simp only [lvl_writeN, writeN_nr_levels, subKeys_writeN]
              refine Or.inr ⟨habsR, ?_, Or.inr ⟨hsub0, ?_⟩⟩
              · rw [readN_writeN_self t 0 _ hrlt]
                exact hdr
              · rw [readN_writeN_self t 0 _ hrlt]
                show leafTyped _ (get_rightmost_node t t.nr_levels l)
                intro j hj
                rw [hgw] at hj
                exact leafTyped_writeN t 0 _ hflev _ htyl j hj
          exact ⟨hbase, rootStep_others t hb hok1 _ hflev hroot⟩
      | some r =>
        obtain ⟨hrlt2, hrlev2⟩ := htypR r hR
        have hr0 : r ≠ 0 := by
          intro he
          rw [he] at hrlev2
          omega
        have hglw : get_leftmost_node t t.nr_levels r = some r :=
          descLeft_at_leaf t t.nr_levels r hrlev2 _
        rw [rootStepLeft_true_some t 0 t.nr_levels r hdl hR, hdr]
        set f1 : TrieNode → TrieNode :=
          fun n => { n with left := get_leftmost_node t t.nr_levels r } with hf1
        have hflev1 : ∀ n : TrieNode, (f1 n).level = n.level := fun n => rfl
        have hb1 : BaseInv (writeN t 0 f1) := BaseInv_writeN t 0 f1 hb hflev1 (fun n => rfl)
          (by intro hc; rw [hrlev] at hc; omega)
        have hleft1 : (readN (writeN t 0 f1) 0).left = some r := by
          rw [readN_writeN_self t 0 f1 hrlt]
          exact hglw
        rw [rootStepRight_true_some (writeN t 0 f1) 0 t.nr_levels r hleft1]
        have hrlev2' : (readN (writeN t 0 f1) r).level = t.nr_levels := by
          rw [readN_writeN_ne t 0 r f1 (fun he => hr0 he.symm)]
          exact hrlev2
        have hgw2 : get_rightmost_node (writeN t 0 f1) t.nr_levels r = some r :=
          descRight_at_leaf (writeN t 0 f1) t.nr_levels r hrlev2' _
        set f2 : TrieNode → TrieNode :=
          fun n => { n with right := get_rightmost_node (writeN t 0 f1) t.nr_levels r } with hf2
        have hflev2 : ∀ n : TrieNode, (f2 n).level = n.level := fun n => rfl
        have hrlev1 : (readN (writeN t 0 f1) 0).level = 0 := by
          rw [readN_writeN_self t 0 f1 hrlt]
          exact hrlev
        have hrlt1 : (0 : Nat) < (writeN t 0 f1).arena.length := by
          rw [writeN_arena_length]
          exact hrlt
        have hb2 : BaseInv (writeN (writeN t 0 f1) 0 f2) :=
          BaseInv_writeN (writeN t 0 f1) 0 f2 hb1 hflev2 (fun n => rfl)
            (by
              intro hc
              rw [hrlev1] at hc
              rw [show (writeN t 0 f1).nr_levels = t.nr_levels from rfl] at hc
              omega)
        have htyr : leafTyped t (some r) := by
          intro j hj
          cases hj
          exact ⟨hrlt2, hrlev2⟩
        have htyr2 : leafTyped (writeN (writeN t 0 f1) 0 f2) (some r) :=
          leafTyped_writeN _ 0 f2 hflev2 _ (leafTyped_writeN t 0 f1 hflev1 _ htyr)
        have hroot : OkAt (writeN (writeN t 0 f1) 0 f2) 0 0 0 := by
          constructor
          · unfold nodeLeftOk
            simp only [lvl_writeN, writeN_nr_levels, subKeys_writeN]
            refine Or.inr ⟨habsL, ?_, Or.inr ⟨hsub1, ?_⟩⟩
            · rw [readN_writeN_self (writeN t 0 f1) 0 f2 hrlt1,
                readN_writeN_self t 0 f1 hrlt]
              exact hdl
            · rw [readN_writeN_self (writeN t 0 f1) 0 f2 hrlt1]
              show leafTyped _ (readN (writeN t 0 f1) 0).left
              rw [hleft1]
              exact htyr2
          · unfold nodeRightOk
            simp only [lvl_writeN, writeN_nr_levels, subKeys_writeN]
            refine Or.inr ⟨habsR, ?_, Or.inr ⟨hsub0, ?_⟩⟩
            · rw [readN_writeN_self (writeN t 0 f1) 0 f2 hrlt1,
                readN_writeN_self t 0 f1 hrlt]
              exact hdr
            · rw [readN_writeN_self (writeN t 0 f1) 0 f2 hrlt1]
              show leafTyped _ (get_rightmost_node (writeN t 0 f1) t.nr_levels r)
              intro j hj
              rw [hgw2] at hj
              exact htyr2 j hj
        have hok1' : ∀ ℓ p i, 1 ≤ ℓ → ℓ < (writeN t 0 f1).nr_levels →
            mapGet (lvl (writeN t 0 f1) ℓ) p = some i → OkAt (writeN t 0 f1) ℓ p i := by
          intro ℓ p i hp1 hp2 hm
          have hp2' : ℓ < t.nr_levels := hp2
          rw [show lvl (writeN t 0 f1) ℓ = lvl t ℓ from rfl] at hm
          have hi0 : i ≠ 0 := by
            intro he
            subst he
            have := hb.level_eq ℓ p 0 (by omega) hm
            omega
          exact okAt_writeN_other t 0 f1 hflev1 ℓ p i hi0 (hok1 ℓ p i hp1 hp2' hm)
        exact ⟨hb2, rootStep_others (writeN t 0 f1) hb1 hok1' f2 hflev2 hroot⟩

/-- The update pass, run from a weakly canonical path, restores the full
invariant. -/
theorem update_inv (t : Xfast) (key : Nat) (hb : BaseInv t)
    (hmid : MidState t key (t.nr_levels - 1)) (hkey : key < 2 ^ t.nr_levels) :
    XfInv (update_descendant_ptr t key) := by
  unfold update_descendant_ptr
  dsimp only
  obtain ⟨hb1, hmid1, hnr1⟩ := upd_fold key t.nr_levels (t.nr_levels - 1) t rfl
    (le_refl _) hb hmid
  exact rootStep_ok _ key t.nr_levels hnr1 hb1 hmid1 (by rw [hnr1]; exact hkey)

/-! ## The structural phase of `insert_key` -/

/-- Congruence: a node's canonical-left status only depends on the level
count, the left-child binding, the leaf map, the node's record, and
leaf-typedness of the arena. -/
theorem nodeLeftOk_congr (t t' : Xfast) (ℓ p i : Nat)
    (hnr : t'.nr_levels = t.nr_levels)
    (hchild : mapGet (lvl t' (ℓ + 1)) (2 * p) = mapGet (lvl t (ℓ + 1)) (2 * p))
    (hleaf : lvl t' t'.nr_levels = lvl t t.nr_levels)
    (hnode : readN t' i = readN t i)
    (harena : t.arena.length ≤ t'.arena.length)
    (hlevpres : ∀ m, m < t.arena.length → (readN t' m).level = (readN t m).level)
    (h : nodeLeftOk t ℓ p i) : nodeLeftOk t' ℓ p i := by
  have hsub : ∀ q, subKeys t' (ℓ + 1) q = subKeys t (ℓ + 1) q :=
    fun q => subKeys_congr hnr hleaf (ℓ + 1) q
  unfold nodeLeftOk at h ⊢
  rw [hchild, hnode, hsub, hleaf]
  rcases h with h | ⟨h1, h2, h3 | h3⟩
  · exact Or.inl h
  · exact Or.inr ⟨h1, h2, Or.inl h3⟩
  · exact Or.inr ⟨h1, h2, Or.inr ⟨h3.1,
      leafTyped_stable t t' hnr harena hlevpres _ h3.2⟩⟩

theorem nodeRightOk_congr (t t' : Xfast) (ℓ p i : Nat)
    (hnr : t'.nr_levels = t.nr_levels)
    (hchild : mapGet (lvl t' (ℓ + 1)) (2 * p + 1) = mapGet (lvl t (ℓ + 1)) (2 * p + 1))
    (hleaf : lvl t' t'.nr_levels = lvl t t.nr_levels)
    (hnode : readN t' i = readN t i)
    (harena : t.arena.length ≤ t'.arena.length)
    (hlevpres : ∀ m, m < t.arena.length → (readN t' m).level = (readN t m).level)
    (h : nodeRightOk t ℓ p i) : nodeRightOk t' ℓ p i := by
  have hsub : ∀ q, subKeys t' (ℓ + 1) q = subKeys t (ℓ + 1) q :=
    fun q => subKeys_congr hnr hleaf (ℓ + 1) q
  unfold nodeRightOk at h ⊢
  rw [hchild, hnode, hsub, hleaf]
  rcases h with h | ⟨h1, h2, h3 | h3⟩
  · exact Or.inl h
  · exact Or.inr ⟨h1, h2, Or.inl h3⟩
  · exact Or.inr ⟨h1, h2, Or.inr ⟨h3.1,
      leafTyped_stable t t' hnr harena hlevpres _ h3.2⟩⟩

theorem nodeLeftWeak_congr (t t' : Xfast) (ℓ p i : Nat)
    (hnr : t'.nr_levels = t.nr_levels)
    (hchild : mapGet (lvl t' (ℓ + 1)) (2 * p) = mapGet (lvl t (ℓ + 1)) (2 * p))
    (hnode : readN t' i = readN t i)
    (harena : t.arena.length ≤ t'.arena.length)
    (hlevpres : ∀ m, m < t.arena.length → (readN t' m).level = (readN t m).level)
    (h : nodeLeftWeak t ℓ p i) : nodeLeftWeak t' ℓ p i := by
  unfold nodeLeftWeak at h ⊢
  rw [hchild, hnode]
  rcases h with h | ⟨h1, h2, h3⟩
  · exact Or.inl h
  · exact Or.inr ⟨h1, h2, leafTyped_stable t t' hnr harena hlevpres _ h3⟩

theorem nodeRightWeak_congr (t t' : Xfast) (ℓ p i : Nat)
    (hnr : t'.nr_levels = t.nr_levels)
    (hchild : mapGet (lvl t' (ℓ + 1)) (2 * p + 1) = mapGet (lvl t (ℓ + 1)) (2 * p + 1))
    (hnode : readN t' i = readN t i)
    (harena : t.arena.length ≤ t'.arena.length)
    (hlevpres : ∀ m, m < t.arena.length → (readN t' m).level = (readN t m).level)
    (h : nodeRightWeak t ℓ p i) : nodeRightWeak t' ℓ p i := by
  unfold nodeRightWeak at h ⊢
  rw [hchild, hnode]
  rcases h with h | ⟨h1, h2, h3⟩
  · exact Or.inl h
  · exact Or.inr ⟨h1, h2, leafTyped_stable t t' hnr harena hlevpres _ h3⟩

theorem xfInv_allocN (t : Xfast) (n : TrieNode) (hinv : XfInv t)
    (hlinks : n.level = t.nr_levels → leafTyped t n.left ∧ leafTyped t n.right) :
    XfInv (allocN t n) := by
  obtain ⟨hb, hok⟩ := hinv
  refine ⟨BaseInv_allocN t n hb hlinks, ?_⟩
  intro ℓ p i hℓ hm
  have hℓ' : ℓ < t.nr_levels := hℓ
  rw [show lvl (allocN t n) ℓ = lvl t ℓ from rfl] at hm
  have hlt := hb.ids_lt ℓ p i (by omega) hm
  exact ⟨nodeLeftOk_allocN t n ℓ p i hlt (hok ℓ p i hℓ' hm).1,
         nodeRightOk_allocN t n ℓ p i hlt (hok ℓ p i hℓ' hm).2⟩

/-- A write that only touches a leaf node and leaves its slots leaf-typed
preserves the whole invariant. -/
theorem xfInv_writeN_leaf (t : Xfast) (j : Nat) (f : TrieNode → TrieNode)
    (hinv : XfInv t)
    (hlevel : ∀ n, (f n).level = n.level) (hkey : ∀ n, (f n).key = n.key)
    (hjlev : (readN t j).level = t.nr_levels)
    (hlinks : leafTyped t (f (readN t j)).left ∧ leafTyped t (f (readN t j)).right) :
    XfInv (writeN t j f) := by
  obtain ⟨hb, hok⟩ := hinv
  refine ⟨BaseInv_writeN t j f hb hlevel hkey (fun _ => hlinks), ?_⟩
  intro ℓ p i hℓ hm
  have hℓ' : ℓ < t.nr_levels := hℓ
  rw [show lvl (writeN t j f) ℓ = lvl t ℓ from rfl] at hm
  have hij : i ≠ j := by
    intro he
    subst he
    have h1 := hb.level_eq ℓ p i (by omega) hm
    rw [hjlev] at h1
    omega
  exact okAt_writeN_other t j f hlevel ℓ p i hij (hok ℓ p i hℓ' hm)

/-- Bookkeeping during `populate_internal_nodes`, after the levels
`1 .. j` of the key's path have been ensured: like `BaseInv`, except that
the key being inserted is not yet stored while its path positions up to
level `j` are already indexed. -/
structure InsBase (t : Xfast) (key : Nat) (j : Nat) : Prop where
  hL : 1 ≤ t.nr_levels
  hlen : t.level_maps.length = t.nr_levels + 1
  h0 : lvl t 0 = [(0, 0)]
  keys_lt : ∀ k, stored t k → k < 2 ^ t.nr_levels
  kabs : ¬ stored t key
  kin : key < 2 ^ t.nr_levels
  jle : j ≤ t.nr_levels - 1
  dom : ∀ ℓ p, 1 ≤ ℓ → ℓ ≤ t.nr_levels →
    ((mapGet (lvl t ℓ) p).isSome ↔
      (∃ k, stored t k ∧ k >>> (t.nr_levels - ℓ) = p) ∨
      (ℓ ≤ j ∧ p = key >>> (t.nr_levels - ℓ)))
  ids_lt : ∀ ℓ p i, ℓ ≤ t.nr_levels → mapGet (lvl t ℓ) p = some i → i < t.arena.length
  level_eq : ∀ ℓ p i, ℓ ≤ t.nr_levels → mapGet (lvl t ℓ) p = some i →
    (readN t i).level = ℓ
  inj : ∀ ℓ p q i, ℓ ≤ t.nr_levels → p ≠ q →
    mapGet (lvl t ℓ) p = some i → mapGet (lvl t ℓ) q = some i → False
  leaf_key : ∀ k i, mapGet (lvl t t.nr_levels) k = some i → (readN t i).key = k
  leaf_links : ∀ i, i < t.arena.length → (readN t i).level = t.nr_levels →
    leafTyped t (readN t i).left ∧ leafTyped t (readN t i).right

/-- Node canonicity during the structural phase: the key's path is weakly
canonical, everything else fully canonical. -/
def InsOk (t : Xfast) (key : Nat) : Prop :=
  ∀ ℓ p i, ℓ < t.nr_levels → mapGet (lvl t ℓ) p = some i →
    if p = key >>> (t.nr_levels - ℓ) then WeakAt t ℓ p i else OkAt t ℓ p i

theorem ins_distinct_pos_ne (t : Xfast) (key j : Nat) (hb : InsBase t key j)
    (ℓ p i ℓ' p' i' : Nat)
    (h1 : ℓ ≤ t.nr_levels) (h2 : ℓ' ≤ t.nr_levels)
    (hm : mapGet (lvl t ℓ) p = some i) (hm' : mapGet (lvl t ℓ') p' = some i')
    (hne : ℓ ≠ ℓ' ∨ p ≠ p') : i ≠ i' := by
  intro he
  subst he
  by_cases hℓe : ℓ = ℓ'
  · subst hℓe
    have hpe : p ≠ p' := by
      rcases hne with h | h
      · exact absurd rfl h
      · exact h
    exact hb.inj ℓ p p' i h1 hpe hm hm'
  · have e1 := hb.level_eq ℓ p i h1 hm
    have e2 := hb.level_eq ℓ' p' i h2 hm'
    omega

/-- Starting point: in a canonical trie with `key` absent, the phase
invariant holds with no path level ensured yet. -/
theorem ins_start (t : Xfast) (key : Nat) (hinv : XfInv t)
    (habs : ¬ stored t key) (hkey : key < 2 ^ t.nr_levels) :
    InsBase t key 0 ∧ InsOk t key := by
  obtain ⟨hb, hok⟩ := hinv
  constructor
  · refine ⟨hb.hL, hb.hlen, hb.h0, hb.keys_lt, habs, hkey, by omega, ?_,
      hb.ids_lt, hb.level_eq, hb.inj, hb.leaf_key, hb.leaf_links⟩
    intro ℓ p h1 h2
    rw [hb.dom ℓ p h1 h2]
    constructor
    · exact Or.inl
    · rintro (h | ⟨h, -⟩)
      · exact h
      · omega
  · intro ℓ p i hℓ hm
    by_cases hp : p = key >>> (t.nr_levels - ℓ)
    · rw [if_pos hp]
      exact weakAt_of_okAt t hb ℓ p i (hok ℓ p i hℓ hm)
    · rw [if_neg hp]
      exact hok ℓ p i hℓ hm

/-- The intermediate state inside `populateStep`'s creating branch: the
fresh internal node is allocated and indexed at its level. -/
def popT2 (t : Xfast) (key L level : Nat) : Xfast :=
  setLvl (allocN t (TrieNode.new_internal level)) level
    (mapInsert (lvl (allocN t (TrieNode.new_internal level)) level)
      (key >>> (L - level)) t.arena.length)

theorem popT2_nr (t : Xfast) (key L level : Nat) :
    (popT2 t key L level).nr_levels = t.nr_levels := rfl

theorem popT2_maps_len (t : Xfast) (key L level : Nat) :
    (popT2 t key L level).level_maps.length = t.level_maps.length := by
  unfold popT2 setLvl allocN
  simp

theorem popT2_lvl_ne (t : Xfast) (key L level lev : Nat) (h : lev ≠ level) :
    lvl (popT2 t key L level) lev = lvl t lev := by
  unfold popT2
  rw [lvl_setLvl_ne _ _ _ _ (Ne.symm h), lvl_allocN]

theorem popT2_lvl_self (t : Xfast) (key L level : Nat)
    (hlt : level < t.level_maps.length) :
    lvl (popT2 t key L level) level
      = mapInsert (lvl t level) (key >>> (L - level)) t.arena.length := by
  unfold popT2
  rw [lvl_setLvl_self _ _ _ (by simpa [allocN] using hlt), lvl_allocN]

theorem popT2_arena_len (t : Xfast) (key L level : Nat) :
    (popT2 t key L level).arena.length = t.arena.length + 1 := by
  unfold popT2 setLvl allocN
  simp

theorem popT2_readN_lt (t : Xfast) (key L level m : Nat) (h : m < t.arena.length) :
    readN (popT2 t key L level) m = readN t m :=
  readN_allocN_lt t _ m h

theorem popT2_readN_new (t : Xfast) (key L level : Nat) :
    readN (popT2 t key L level) t.arena.length = TrieNode.new_internal level :=
  readN_allocN_self t _

/-- The creating branch of `populateStep`, once the parent's presence is
known. -/
theorem populateStep_new (key L : Nat) (t : Xfast) (level pid : Nat)
    (hget : mapGet (lvl t level) (key >>> (L - level)) = none)
    (hpid : mapGet (lvl (popT2 t key L level) (level - 1))
        ((key >>> (L - level)) >>> 1) = some pid) :
    populateStep key L t level =
      if (key >>> (L - level)) &&& 1 ≠ 0 then
        writeN (popT2 t key L level) pid
          (fun n => { n with right := some t.arena.length, is_desc_right := false })
      else
        writeN (popT2 t key L level) pid
          (fun n => { n with left := some t.arena.length, is_desc_left := false }) := by
  unfold populateStep
  dsimp only
  rw [hget]
  show (match mapGet (lvl (popT2 t key L level) (level - 1))
      ((key >>> (L - level)) >>> 1) with
    | none => popT2 t key L level
    | some pid =>
      if (key >>> (L - level)) &&& 1 ≠ 0 then
        writeN (popT2 t key L level) pid
          (fun n => { n with right := some t.arena.length, is_desc_right := false })
      else
        writeN (popT2 t key L level) pid
          (fun n => { n with left := some t.arena.length, is_desc_left := false })) = _
  rw [hpid]

/-- `populateStep`'s creating branch, when the fresh node is its parent's
right child. -/
theorem populateStep_ins_right (t : Xfast) (key j : Nat)
    (hb : InsBase t key j) (hok : InsOk t key) (hj : j + 1 ≤ t.nr_levels - 1)
    (hget : mapGet (lvl t (j + 1)) (key >>> (t.nr_levels - (j + 1))) = none)
    (hsplit : key >>> (t.nr_levels - (j + 1))
      = 2 * (key >>> (t.nr_levels - j)) + (key >>> (t.nr_levels - (j + 1))) % 2)
    (hb1 : (key >>> (t.nr_levels - (j + 1))) % 2 = 1)
    (pid : Nat) (hpid : mapGet (lvl t j) (key >>> (t.nr_levels - j)) = some pid)
    (hpid_lt : pid < t.arena.length) (hpid_lev : (readN t pid).level = j)
    (hWparent : WeakAt t j (key >>> (t.nr_levels - j)) pid)
    (hmlen : j + 1 < t.level_maps.length)
    (hlvl2self : lvl (popT2 t key t.nr_levels (j + 1)) (j + 1)
      = mapInsert (lvl t (j + 1)) (key >>> (t.nr_levels - (j + 1))) t.arena.length) :
    InsBase (writeN (popT2 t key t.nr_levels (j + 1)) pid
        (fun n => { n with right := some t.arena.length, is_desc_right := false }))
      key (j + 1) ∧
    InsOk (writeN (popT2 t key t.nr_levels (j + 1)) pid
        (fun n => { n with right := some t.arena.length, is_desc_right := false })) key ∧
    (∀ m, m < t.arena.length → (readN t m).level = t.nr_levels →
      readN (writeN (popT2 t key t.nr_levels (j + 1)) pid
        (fun n => { n with right := some t.arena.length, is_desc_right := false })) m
        = readN t m) := by
  have hL := hb.hL
  set t2 := popT2 t key t.nr_levels (j + 1) with ht2
  set f : TrieNode → TrieNode :=
    fun n => { n with right := some t.arena.length, is_desc_right := false } with hfdef
  set t3 := writeN t2 pid f with ht3
  have hflev : ∀ n : TrieNode, (f n).level = n.level := fun n => rfl
  have hpid_lt2 : pid < t2.arena.length := by
    rw [ht2, popT2_arena_len]
    omega
  have harena3 : t3.arena.length = t.arena.length + 1 := by
    rw [ht3, writeN_arena_length, ht2, popT2_arena_len]
  have hnr3 : t3.nr_levels = t.nr_levels := rfl
  have hlvlLeq : lvl t3 t.nr_levels = lvl t t.nr_levels := by
    rw [ht3, lvl_writeN, ht2]
    exact popT2_lvl_ne t key t.nr_levels (j + 1) t.nr_levels (by omega)
  have hpid_ne_nid : pid ≠ t.arena.length := by omega
  have hreadn_nid : readN t3 t.arena.length = TrieNode.new_internal (j + 1) := by
    rw [ht3, readN_writeN_ne t2 pid t.arena.length f hpid_ne_nid, ht2, popT2_readN_new]
  have hreadn_pid : readN t3 pid = f (readN t pid) := by
    rw [ht3, readN_writeN_self t2 pid f hpid_lt2, ht2,
      popT2_readN_lt t key t.nr_levels (j + 1) pid hpid_lt]
  have hreadn_other : ∀ m, m ≠ pid → m < t.arena.length → readN t3 m = readN t m := by
    intro m hmp hmlt
    rw [ht3, readN_writeN_ne t2 pid m f (fun he => hmp he.symm), ht2,
      popT2_readN_lt t key t.nr_levels (j + 1) m hmlt]
  have hlevpres : ∀ m, m < t.arena.length → (readN t3 m).level = (readN t m).level := by
    intro m hmlt
    by_cases hmp : m = pid
    · subst hmp
      rw [hreadn_pid]
    · rw [hreadn_other m hmp hmlt]
  have harena_mono : t.arena.length ≤ t3.arena.length := by
    rw [harena3]
    omega
  have hmget31 : ∀ p', mapGet (lvl t3 (j + 1)) p'
      = if p' = key >>> (t.nr_levels - (j + 1)) then some t.arena.length
        else mapGet (lvl t (j + 1)) p' := by
    intro p'
    rw [ht3, lvl_writeN, hlvl2self]
    by_cases hp' : p' = key >>> (t.nr_levels - (j + 1))
    · subst hp'
      rw [mapGet_mapInsert_self, if_pos rfl]
    · rw [mapGet_mapInsert_ne _ _ _ _ hp', if_neg hp']
  have hmget3o : ∀ lev p', lev ≠ j + 1 → mapGet (lvl t3 lev) p' = mapGet (lvl t lev) p' := by
    intro lev p' hlev
    rw [ht3, lvl_writeN, ht2, popT2_lvl_ne t key t.nr_levels (j + 1) lev hlev]
  have hstored : ∀ k, stored t3 k ↔ stored t k := by
    intro k
    unfold stored
    rw [show mapGet (lvl t3 t3.nr_levels) k = mapGet (lvl t t.nr_levels) k from by
      rw [hnr3]
      exact hmget3o t.nr_levels k (by omega)]
  have hex : ∀ ℓ' p', (∃ k, stored t3 k ∧ k >>> (t.nr_levels - ℓ') = p')
      ↔ (∃ k, stored t k ∧ k >>> (t.nr_levels - ℓ') = p') := by
    intro ℓ' p'
    exact exists_congr fun k => and_congr_left fun _ => hstored k
  have habs_child : ∀ c, c >>> 1 = key >>> (t.nr_levels - (j + 1)) →
      ¬ (mapGet (lvl t3 (j + 2)) c).isSome := by
    intro c hc hcontra
    rw [hmget3o (j + 2) c (by omega)] at hcontra
    rcases (hb.dom (j + 2) c (by omega) (by omega)).mp hcontra with ⟨k, hk, hkp⟩ | ⟨hx, -⟩
    · have hk1 : k >>> (t.nr_levels - (j + 1)) = key >>> (t.nr_levels - (j + 1)) := by
        have e1 : k >>> (t.nr_levels - (j + 1)) = (k >>> (t.nr_levels - (j + 2))) >>> 1 := by
          rw [show t.nr_levels - (j + 1) = t.nr_levels - (j + 2) + 1 from by omega, pfx_succ]
        rw [e1, hkp, hc]
      have hpr : (mapGet (lvl t (j + 1)) (key >>> (t.nr_levels - (j + 1)))).isSome := by
        rw [hb.dom (j + 1) _ (by omega) (by omega)]
        exact Or.inl ⟨k, hk, hk1⟩
      rw [hget] at hpr
      simp at hpr
    · omega
  refine ⟨?_, ?_, ?_⟩
  · -- InsBase
    refine ⟨hL, ?_, ?_, ?_, ?_, hb.kin, by omega, ?_, ?_, ?_, ?_, ?_, ?_⟩
    · rw [show t3.level_maps.length = t.level_maps.length from by
        rw [ht3, writeN_level_maps, ht2, popT2_maps_len], hnr3]
      exact hb.hlen
    · rw [ht3, lvl_writeN, ht2, popT2_lvl_ne t key t.nr_levels (j + 1) 0 (by omega)]
      exact hb.h0
    · intro k h
      rw [hnr3]
      exact hb.keys_lt k ((hstored k).mp h)
    · intro h
      exact hb.kabs ((hstored key).mp h)
    · intro ℓ p h1 h2
      show (mapGet (lvl t3 ℓ) p).isSome = true ↔
        (∃ k, stored t3 k ∧ k >>> (t.nr_levels - ℓ) = p) ∨
        (ℓ ≤ j + 1 ∧ p = key >>> (t.nr_levels - ℓ))
      have h2' : ℓ ≤ t.nr_levels := by
        rw [hnr3] at h2
        exact h2
      rw [hex ℓ p]
      by_cases hℓe : ℓ = j + 1
      · subst hℓe
        rw [hmget31 p]
        by_cases hp : p = key >>> (t.nr_levels - (j + 1))
        · rw [if_pos hp]
          constructor
          · intro _
            exact Or.inr ⟨le_refl _, hp⟩
          · intro _
            rfl
        · rw [if_neg hp, hb.dom (j + 1) p (by omega) (by omega)]
          constructor
          · rintro (h | ⟨hx, -⟩)
            · exact Or.inl h
            · omega
          · rintro (h | ⟨-, hc⟩)
            · exact Or.inl h
            · exact absurd hc hp
      · rw [hmget3o ℓ p hℓe, hb.dom ℓ p h1 h2']
        constructor
        · rintro (h | ⟨hx, hc⟩)
          · exact Or.inl h
          · exact Or.inr ⟨by omega, hc⟩
        · rintro (h | ⟨hx, hc⟩)
          · exact Or.inl h
          · exact Or.inr ⟨by omega, hc⟩
    · intro ℓ p i hℓ hm
      have hℓ' : ℓ ≤ t.nr_levels := by
        rw [hnr3] at hℓ
        exact hℓ
      rw [harena3]
      by_cases hℓe : ℓ = j + 1
      · subst hℓe
        rw [hmget31 p] at hm
        by_cases hp : p = key >>> (t.nr_levels - (j + 1))
        · rw [if_pos hp] at hm
          cases hm
          omega
        · rw [if_neg hp] at hm
          have := hb.ids_lt (j + 1) p i (by omega) hm
          omega
      · rw [hmget3o ℓ p hℓe] at hm
        have := hb.ids_lt ℓ p i hℓ' hm
        omega
    · intro ℓ p i hℓ hm
      have hℓ' : ℓ ≤ t.nr_levels := by
        rw [hnr3] at hℓ
        exact hℓ
      by_cases hℓe : ℓ = j + 1
      · subst hℓe
        rw [hmget31 p] at hm
        by_cases hp : p = key >>> (t.nr_levels - (j + 1))
        · rw [if_pos hp] at hm
          cases hm
          rw [hreadn_nid]
          rfl
        · rw [if_neg hp] at hm
          have hi := hb.ids_lt (j + 1) p i (by omega) hm
          rw [hlevpres i hi]
          exact hb.level_eq (j + 1) p i (by omega) hm
      · rw [hmget3o ℓ p hℓe] at hm
        have hi := hb.ids_lt ℓ p i hℓ' hm
        rw [hlevpres i hi]
        exact hb.level_eq ℓ p i hℓ' hm
    · intro ℓ p q i hℓ hpq hmp hmq
      have hℓ' : ℓ ≤ t.nr_levels := by
        rw [hnr3] at hℓ
        exact hℓ
      by_cases hℓe : ℓ = j + 1
      · subst hℓe
        rw [hmget31 p] at hmp
        rw [hmget31 q] at hmq
        by_cases hp : p = key >>> (t.nr_levels - (j + 1))
        · rw [if_pos hp] at hmp
          cases hmp
          have hq : ¬ q = key >>> (t.nr_levels - (j + 1)) := fun he => hpq (hp.trans he.symm)
          rw [if_neg hq] at hmq
          have := hb.ids_lt (j + 1) q _ (by omega) hmq
          omega
        · rw [if_neg hp] at hmp
          by_cases hq : q = key >>> (t.nr_levels - (j + 1))
          · rw [if_pos hq] at hmq
            cases hmq
            have := hb.ids_lt (j + 1) p _ (by omega) hmp
            omega
          · rw [if_neg hq] at hmq
            exact hb.inj (j + 1) p q i (by omega) hpq hmp hmq
      · rw [hmget3o ℓ p hℓe] at hmp
        rw [hmget3o ℓ q hℓe] at hmq
        exact hb.inj ℓ p q i hℓ' hpq hmp hmq
    · intro k i hm
      have hm' : mapGet (lvl t t.nr_levels) k = some i := by
        rw [← hmget3o t.nr_levels k (by omega)]
        exact hm
      have hi := hb.ids_lt t.nr_levels k i (le_refl _) hm'
      have hkeypres : (readN t3 i).key = (readN t i).key := by
        by_cases hip : i = pid
        · subst hip
          rw [hreadn_pid]
        · rw [hreadn_other i hip hi]
      rw [hkeypres]
      exact hb.leaf_key k i hm'
    · intro i hlen hlev
      have hlen' : i < t.arena.length + 1 := by
        rw [← harena3]
        exact hlen
      have hlev' : (readN t3 i).level = t.nr_levels := by
        rw [hnr3] at hlev
        exact hlev
      by_cases hie : i = t.arena.length
      · subst hie
        rw [hreadn_nid] at hlev'
        exfalso
        have hcontra : j + 1 = t.nr_levels := hlev'
        omega
      · have hilt : i < t.arena.length := by omega
        have hip : i ≠ pid := by
          intro he
          subst he
          rw [hreadn_pid, hflev] at hlev'
          omega
        rw [hreadn_other i hip hilt] at hlev' ⊢
        obtain ⟨h1, h2⟩ := hb.leaf_links i hilt hlev'
        exact ⟨leafTyped_stable t t3 hnr3 harena_mono hlevpres _ h1,
               leafTyped_stable t t3 hnr3 harena_mono hlevpres _ h2⟩
  · -- InsOk
    intro ℓ p i hℓ hm
    have hℓ' : ℓ < t.nr_levels := by
      rw [hnr3] at hℓ
      exact hℓ
    show if p = key >>> (t.nr_levels - ℓ) then WeakAt t3 ℓ p i else OkAt t3 ℓ p i
    by_cases hℓe : ℓ = j + 1
    · subst hℓe
      rw [hmget31 p] at hm
      by_cases hp : p = key >>> (t.nr_levels - (j + 1))
      · subst hp
        rw [if_pos rfl] at hm
        cases hm
        rw [if_pos rfl]
        constructor
        · refine Or.inr ⟨habs_child (2 * (key >>> (t.nr_levels - (j + 1))))
            (by rw [Nat.shiftRight_one]; omega), ?_, ?_⟩
          · rw [hreadn_nid]
            rfl
          · rw [hreadn_nid]
            exact leafTyped_none t3
        · refine Or.inr ⟨habs_child (2 * (key >>> (t.nr_levels - (j + 1))) + 1)
            (by rw [Nat.shiftRight_one]; omega), ?_, ?_⟩
          · rw [hreadn_nid]
            rfl
          · rw [hreadn_nid]
            exact leafTyped_none t3
      · rw [if_neg hp] at hm
        rw [if_neg hp]
        have hold := hok (j + 1) p i (by omega) hm
        rw [if_neg hp] at hold
        have hi := hb.ids_lt (j + 1) p i (by omega) hm
        have hip : i ≠ pid := by
          intro he
          subst he
          have e1 := hb.level_eq (j + 1) p i (by omega) hm
          omega
        exact ⟨nodeLeftOk_congr t t3 (j + 1) p i hnr3
            (hmget3o (j + 1 + 1) (2 * p) (by omega))
            (show lvl t3 t3.nr_levels = lvl t t.nr_levels from hlvlLeq)
            (hreadn_other i hip hi) harena_mono hlevpres hold.1,
          nodeRightOk_congr t t3 (j + 1) p i hnr3
            (hmget3o (j + 1 + 1) (2 * p + 1) (by omega))
            (show lvl t3 t3.nr_levels = lvl t t.nr_levels from hlvlLeq)
            (hreadn_other i hip hi) harena_mono hlevpres hold.2⟩
    · rw [hmget3o ℓ p hℓe] at hm
      have hold := hok ℓ p i hℓ' hm
      have hilt := hb.ids_lt ℓ p i (by omega) hm
      by_cases hp : p = key >>> (t.nr_levels - ℓ)
      · rw [if_pos hp]
        rw [if_pos hp] at hold
        by_cases hℓj : j = ℓ
        · subst hℓj
          subst hp
          have hieq : i = pid := by
            have hh := hpid
            rw [hm] at hh
            exact Option.some.inj hh
          subst hieq
          constructor
          · have hstep1 : nodeLeftWeak t2 j (key >>> (t.nr_levels - j)) i := by
              refine nodeLeftWeak_congr t t2 j (key >>> (t.nr_levels - j)) i rfl ?_ ?_ ?_ ?_
                hWparent.1
              · rw [hlvl2self, mapGet_mapInsert_ne _ _ _ _ (by omega)]
              · rw [ht2]
                exact popT2_readN_lt t key t.nr_levels (j + 1) i hpid_lt
              · rw [ht2, popT2_arena_len]
                omega
              · intro m hmlt
                rw [ht2, popT2_readN_lt t key t.nr_levels (j + 1) m hmlt]
            exact nodeLeftWeak_writeN_self t2 f hflev (fun n => rfl) (fun n => rfl)
              j (key >>> (t.nr_levels - j)) i hpid_lt2 hstep1
          · refine Or.inl ⟨?_, ?_, ?_⟩
            · rw [show 2 * (key >>> (t.nr_levels - j)) + 1
                  = key >>> (t.nr_levels - (j + 1)) from by omega, hmget31, if_pos rfl]
              rfl
            · rw [hreadn_pid, show 2 * (key >>> (t.nr_levels - j)) + 1
                  = key >>> (t.nr_levels - (j + 1)) from by omega, hmget31, if_pos rfl]
            · rw [hreadn_pid]
        · have hip : i ≠ pid := by
            intro he
            subst he
            have e1 := hb.level_eq ℓ p i (by omega) hm
            omega
          exact ⟨nodeLeftWeak_congr t t3 ℓ p i hnr3
              (hmget3o (ℓ + 1) (2 * p) (by omega))
              (hreadn_other i hip hilt) harena_mono hlevpres hold.1,
            nodeRightWeak_congr t t3 ℓ p i hnr3
              (hmget3o (ℓ + 1) (2 * p + 1) (by omega))
              (hreadn_other i hip hilt) harena_mono hlevpres hold.2⟩
      · rw [if_neg hp]
        rw [if_neg hp] at hold
        have hip : i ≠ pid := by
          intro he
          subst he
          by_cases hℓj : j = ℓ
          · subst hℓj
            exact hb.inj j p _ i (by omega) hp hm hpid
          · have e1 := hb.level_eq ℓ p i (by omega) hm
            omega
        have hchildl : mapGet (lvl t3 (ℓ + 1)) (2 * p) = mapGet (lvl t (ℓ + 1)) (2 * p) := by
          by_cases hℓj : j = ℓ
          · subst hℓj
            rw [hmget31 (2 * p), if_neg (by intro hc; omega)]
          · exact hmget3o (ℓ + 1) (2 * p) (by omega)
        have hchildr : mapGet (lvl t3 (ℓ + 1)) (2 * p + 1)
            = mapGet (lvl t (ℓ + 1)) (2 * p + 1) := by
          by_cases hℓj : j = ℓ
          · subst hℓj
            rw [hmget31 (2 * p + 1), if_neg (by intro hc; apply hp; omega)]
          · exact hmget3o (ℓ + 1) (2 * p + 1) (by omega)
        exact ⟨nodeLeftOk_congr t t3 ℓ p i hnr3 hchildl
            (show lvl t3 t3.nr_levels = lvl t t.nr_levels from hlvlLeq)
            (hreadn_other i hip hilt) harena_mono hlevpres hold.1,
          nodeRightOk_congr t t3 ℓ p i hnr3 hchildr
            (show lvl t3 t3.nr_levels = lvl t t.nr_levels from hlvlLeq)
            (hreadn_other i hip hilt) harena_mono hlevpres hold.2⟩
  · -- leaves untouched
    intro m hmlt hmlev
    have hmp : m ≠ pid := by
      intro he
      subst he
      omega
    exact hreadn_other m hmp hmlt

/-- `populateStep`'s creating branch, when the fresh node is its parent's
left child. -/
theorem populateStep_ins_left (t : Xfast) (key j : Nat)
    (hb : InsBase t key j) (hok : InsOk t key) (hj : j + 1 ≤ t.nr_levels - 1)
    (hget : mapGet (lvl t (j + 1)) (key >>> (t.nr_levels - (j + 1))) = none)
    (hsplit : key >>> (t.nr_levels - (j + 1))
      = 2 * (key >>> (t.nr_levels - j)) + (key >>> (t.nr_levels - (j + 1))) % 2)
    (hb0 : (key >>> (t.nr_levels - (j + 1))) % 2 = 0)
    (pid : Nat) (hpid : mapGet (lvl t j) (key >>> (t.nr_levels - j)) = some pid)
    (hpid_lt : pid < t.arena.length) (hpid_lev : (readN t pid).level = j)
    (hWparent : WeakAt t j (key >>> (t.nr_levels - j)) pid)
    (hmlen : j + 1 < t.level_maps.length)
    (hlvl2self : lvl (popT2 t key t.nr_levels (j + 1)) (j + 1)
      = mapInsert (lvl t (j + 1)) (key >>> (t.nr_levels - (j + 1))) t.arena.length) :
    InsBase (writeN (popT2 t key t.nr_levels (j + 1)) pid
        (fun n => { n with left := some t.arena.length, is_desc_left := false }))
      key (j + 1) ∧
    InsOk (writeN (popT2 t key t.nr_levels (j + 1)) pid
        (fun n => { n with left := some t.arena.length, is_desc_left := false })) key ∧
    (∀ m, m < t.arena.length → (readN t m).level = t.nr_levels →
      readN (writeN (popT2 t key t.nr_levels (j + 1)) pid
        (fun n => { n with left := some t.arena.length, is_desc_left := false })) m
        = readN t m) := by
  have hL := hb.hL
  set t2 := popT2 t key t.nr_levels (j + 1) with ht2
  set f : TrieNode → TrieNode :=
    fun n => { n with left := some t.arena.length, is_desc_left := false } with hfdef
  set t3 := writeN t2 pid f with ht3
  have hflev : ∀ n : TrieNode, (f n).level = n.level := fun n => rfl
  have hpid_lt2 : pid < t2.arena.length := by
    rw [ht2, popT2_arena_len]
    omega
  have harena3 : t3.arena.length = t.arena.length + 1 := by
    rw [ht3, writeN_arena_length, ht2, popT2_arena_len]
  have hnr3 : t3.nr_levels = t.nr_levels := rfl
  have hlvlLeq : lvl t3 t.nr_levels = lvl t t.nr_levels := by
    rw [ht3, lvl_writeN, ht2]
    exact popT2_lvl_ne t key t.nr_levels (j + 1) t.nr_levels (by omega)
  have hpid_ne_nid : pid ≠ t.arena.length := by omega
  have hreadn_nid : readN t3 t.arena.length = TrieNode.new_internal (j + 1) := by
    rw [ht3, readN_writeN_ne t2 pid t.arena.length f hpid_ne_nid, ht2, popT2_readN_new]
  have hreadn_pid : readN t3 pid = f (readN t pid) := by
    rw [ht3, readN_writeN_self t2 pid f hpid_lt2, ht2,
      popT2_readN_lt t key t.nr_levels (j + 1) pid hpid_lt]
  have hreadn_other : ∀ m, m ≠ pid → m < t.arena.length → readN t3 m = readN t m := by
    intro m hmp hmlt
    rw [ht3, readN_writeN_ne t2 pid m f (fun he => hmp he.symm), ht2,
      popT2_readN_lt t key t.nr_levels (j + 1) m hmlt]
  have hlevpres : ∀ m, m < t.arena.length → (readN t3 m).level = (readN t m).level := by
    intro m hmlt
    by_cases hmp : m = pid
    · subst hmp
      rw [hreadn_pid]
    · rw [hreadn_other m hmp hmlt]
  have harena_mono : t.arena.length ≤ t3.arena.length := by
    rw [harena3]
    omega
  have hmget31 : ∀ p', mapGet (lvl t3 (j + 1)) p'
      = if p' = key >>> (t.nr_levels - (j + 1)) then some t.arena.length
        else mapGet (lvl t (j + 1)) p' := by
    intro p'
    rw [ht3, lvl_writeN, hlvl2self]
    by_cases hp' : p' = key >>> (t.nr_levels - (j + 1))
    · subst hp'
      rw [mapGet_mapInsert_self, if_pos rfl]
    · rw [mapGet_mapInsert_ne _ _ _ _ hp', if_neg hp']
  have hmget3o : ∀ lev p', lev ≠ j + 1 → mapGet (lvl t3 lev) p' = mapGet (lvl t lev) p' := by
    intro lev p' hlev
    rw [ht3, lvl_writeN, ht2, popT2_lvl_ne t key t.nr_levels (j + 1) lev hlev]
  have hstored : ∀ k, stored t3 k ↔ stored t k := by
    intro k
    unfold stored
    rw [show mapGet (lvl t3 t3.nr_levels) k = mapGet (lvl t t.nr_levels) k from by
      rw [hnr3]
      exact hmget3o t.nr_levels k (by omega)]
  have hex : ∀ ℓ' p', (∃ k, stored t3 k ∧ k >>> (t.nr_levels - ℓ') = p')
      ↔ (∃ k, stored t k ∧ k >>> (t.nr_levels - ℓ') = p') := by
    intro ℓ' p'
    exact exists_congr fun k => and_congr_left fun _ => hstored k
  have habs_child : ∀ c, c >>> 1 = key >>> (t.nr_levels - (j + 1)) →
      ¬ (mapGet (lvl t3 (j + 2)) c).isSome := by
    intro c hc hcontra
    rw [hmget3o (j + 2) c (by omega)] at hcontra
    rcases (hb.dom (j + 2) c (by omega) (by omega)).mp hcontra with ⟨k, hk, hkp⟩ | ⟨hx, -⟩
    · have hk1 : k >>> (t.nr_levels - (j + 1)) = key >>> (t.nr_levels - (j + 1)) := by
        have e1 : k >>> (t.nr_levels - (j + 1)) = (k >>> (t.nr_levels - (j + 2))) >>> 1 := by
          rw [show t.nr_levels - (j + 1) = t.nr_levels - (j + 2) + 1 from by omega, pfx_succ]
        rw [e1, hkp, hc]
      have hpr : (mapGet (lvl t (j + 1)) (key >>> (t.nr_levels - (j + 1)))).isSome := by
        rw [hb.dom (j + 1) _ (by omega) (by omega)]
        exact Or.inl ⟨k, hk, hk1⟩
      rw [hget] at hpr
      simp at hpr
    · omega
  refine ⟨?_, ?_, ?_⟩
  · -- InsBase
    refine ⟨hL, ?_, ?_, ?_, ?_, hb.kin, by omega, ?_, ?_, ?_, ?_, ?_, ?_⟩
    · rw [show t3.level_maps.length = t.level_maps.length from by
        rw [ht3, writeN_level_maps, ht2, popT2_maps_len], hnr3]
      exact hb.hlen
    · rw [ht3, lvl_writeN, ht2, popT2_lvl_ne t key t.nr_levels (j + 1) 0 (by omega)]
      exact hb.h0
    · intro k h
      rw [hnr3]
      exact hb.keys_lt k ((hstored k).mp h)
    · intro h
      exact hb.kabs ((hstored key).mp h)
    · intro ℓ p h1 h2
      show (mapGet (lvl t3 ℓ) p).isSome = true ↔
        (∃ k, stored t3 k ∧ k >>> (t.nr_levels - ℓ) = p) ∨
        (ℓ ≤ j + 1 ∧ p = key >>> (t.nr_levels - ℓ))
      have h2' : ℓ ≤ t.nr_levels := by
        rw [hnr3] at h2
        exact h2
      rw [hex ℓ p]
      by_cases hℓe : ℓ = j + 1
      · subst hℓe
        rw [hmget31 p]
        by_cases hp : p = key >>> (t.nr_levels - (j + 1))
        · rw [if_pos hp]
          constructor
          · intro _
            exact Or.inr ⟨le_refl _, hp⟩
          · intro _
            rfl
        · rw [if_neg hp, hb.dom (j + 1) p (by omega) (by omega)]
          constructor
          · rintro (h | ⟨hx, -⟩)
            · exact Or.inl h
            · omega
          · rintro (h | ⟨-, hc⟩)
            · exact Or.inl h
            · exact absurd hc hp
      · rw [hmget3o ℓ p hℓe, hb.dom ℓ p h1 h2']
        constructor
        · rintro (h | ⟨hx, hc⟩)
          · exact Or.inl h
          · exact Or.inr ⟨by omega, hc⟩
        · rintro (h | ⟨hx, hc⟩)
          · exact Or.inl h
          · exact Or.inr ⟨by omega, hc⟩
    · intro ℓ p i hℓ hm
      have hℓ' : ℓ ≤ t.nr_levels := by
        rw [hnr3] at hℓ
        exact hℓ
      rw [harena3]
      by_cases hℓe : ℓ = j + 1
      · subst hℓe
        rw [hmget31 p] at hm
        by_cases hp : p = key >>> (t.nr_levels - (j + 1))
        · rw [if_pos hp] at hm
          cases hm
          omega
        · rw [if_neg hp] at hm
          have := hb.ids_lt (j + 1) p i (by omega) hm
          omega
      · rw [hmget3o ℓ p hℓe] at hm
        have := hb.ids_lt ℓ p i hℓ' hm
        omega
    · intro ℓ p i hℓ hm
      have hℓ' : ℓ ≤ t.nr_levels := by
        rw [hnr3] at hℓ
        exact hℓ
      by_cases hℓe : ℓ = j + 1
      · subst hℓe
        rw [hmget31 p] at hm
        by_cases hp : p = key >>> (t.nr_levels - (j + 1))
        · rw [if_pos hp] at hm
          cases hm
          rw [hreadn_nid]
          rfl
        · rw [if_neg hp] at hm
          have hi := hb.ids_lt (j + 1) p i (by omega) hm
          rw [hlevpres i hi]
          exact hb.level_eq (j + 1) p i (by omega) hm
      · rw [hmget3o ℓ p hℓe] at hm
        have hi := hb.ids_lt ℓ p i hℓ' hm
        rw [hlevpres i hi]
        exact hb.level_eq ℓ p i hℓ' hm
    · intro ℓ p q i hℓ hpq hmp hmq
      have hℓ' : ℓ ≤ t.nr_levels := by
        rw [hnr3] at hℓ
        exact hℓ
      by_cases hℓe : ℓ = j + 1
      · subst hℓe
        rw [hmget31 p] at hmp
        rw [hmget31 q] at hmq
        by_cases hp : p = key >>> (t.nr_levels - (j + 1))
        · rw [if_pos hp] at hmp
          cases hmp
          have hq : ¬ q = key >>> (t.nr_levels - (j + 1)) := fun he => hpq (hp.trans he.symm)
          rw [if_neg hq] at hmq
          have := hb.ids_lt (j + 1) q _ (by omega) hmq
          omega
        · rw [if_neg hp] at hmp
          by_cases hq : q = key >>> (t.nr_levels - (j + 1))
          · rw [if_pos hq] at hmq
            cases hmq
            have := hb.ids_lt (j + 1) p _ (by omega) hmp
            omega
          · rw [if_neg hq] at hmq
            exact hb.inj (j + 1) p q i (by omega) hpq hmp hmq
      · rw [hmget3o ℓ p hℓe] at hmp
        rw [hmget3o ℓ q hℓe] at hmq
        exact hb.inj ℓ p q i hℓ' hpq hmp hmq
    · intro k i hm
      have hm' : mapGet (lvl t t.nr_levels) k = some i := by
        rw [← hmget3o t.nr_levels k (by omega)]
        exact hm
      have hi := hb.ids_lt t.nr_levels k i (le_refl _) hm'
      have hkeypres : (readN t3 i).key = (readN t i).key := by
        by_cases hip : i = pid
        · subst hip
          rw [hreadn_pid]
        · rw [hreadn_other i hip hi]
      rw [hkeypres]
      exact hb.leaf_key k i hm'
    · intro i hlen hlev
      have hlen' : i < t.arena.length + 1 := by
        rw [← harena3]
        exact hlen
      have hlev' : (readN t3 i).level = t.nr_levels := by
        rw [hnr3] at hlev
        exact hlev
      by_cases hie : i = t.arena.length
      · subst hie
        rw [hreadn_nid] at hlev'
        exfalso
        have hcontra : j + 1 = t.nr_levels := hlev'
        omega
      · have hilt : i < t.arena.length := by omega
        have hip : i ≠ pid := by
          intro he
          subst he
          rw [hreadn_pid, hflev] at hlev'
          omega
        rw [hreadn_other i hip hilt] at hlev' ⊢
        obtain ⟨h1, h2⟩ := hb.leaf_links i hilt hlev'
        exact ⟨leafTyped_stable t t3 hnr3 harena_mono hlevpres _ h1,
               leafTyped_stable t t3 hnr3 harena_mono hlevpres _ h2⟩
  · -- InsOk
    intro ℓ p i hℓ hm
    have hℓ' : ℓ < t.nr_levels := by
      rw [hnr3] at hℓ
      exact hℓ
    show if p = key >>> (t.nr_levels - ℓ) then WeakAt t3 ℓ p i else OkAt t3 ℓ p i
    by_cases hℓe : ℓ = j + 1
    · subst hℓe
      rw [hmget31 p] at hm
      by_cases hp : p = key >>> (t.nr_levels - (j + 1))
      · subst hp
        rw [if_pos rfl] at hm
        cases hm
        rw [if_pos rfl]
        constructor
        · refine Or.inr ⟨habs_child (2 * (key >>> (t.nr_levels - (j + 1))))
            (by rw [Nat.shiftRight_one]; omega), ?_, ?_⟩
          · rw [hreadn_nid]
            rfl
          · rw [hreadn_nid]
            exact leafTyped_none t3
        · refine Or.inr ⟨habs_child (2 * (key >>> (t.nr_levels - (j + 1))) + 1)
            (by rw [Nat.shiftRight_one]; omega), ?_, ?_⟩
          · rw [hreadn_nid]
            rfl
          · rw [hreadn_nid]
            exact leafTyped_none t3
      · rw [if_neg hp] at hm
        rw [if_neg hp]
        have hold := hok (j + 1) p i (by omega) hm
        rw [if_neg hp] at hold
        have hi := hb.ids_lt (j + 1) p i (by omega) hm
        have hip : i ≠ pid := by
          intro he
          subst he
          have e1 := hb.level_eq (j + 1) p i (by omega) hm
          omega
        exact ⟨nodeLeftOk_congr t t3 (j + 1) p i hnr3
            (hmget3o (j + 1 + 1) (2 * p) (by omega))
            (show lvl t3 t3.nr_levels = lvl t t.nr_levels from hlvlLeq)
            (hreadn_other i hip hi) harena_mono hlevpres hold.1,
          nodeRightOk_congr t t3 (j + 1) p i hnr3
            (hmget3o (j + 1 + 1) (2 * p + 1) (by omega))
            (show lvl t3 t3.nr_levels = lvl t t.nr_levels from hlvlLeq)
            (hreadn_other i hip hi) harena_mono hlevpres hold.2⟩
    · rw [hmget3o ℓ p hℓe] at hm
      have hold := hok ℓ p i hℓ' hm
      have hilt := hb.ids_lt ℓ p i (by omega) hm
      by_cases hp : p = key >>> (t.nr_levels - ℓ)
      · rw [if_pos hp]
        rw [if_pos hp] at hold
        by_cases hℓj : j = ℓ
        · subst hℓj
          subst hp
          have hieq : i = pid := by
            have hh := hpid
            rw [hm] at hh
            exact Option.some.inj hh
          subst hieq
          constructor
          · refine Or.inl ⟨?_, ?_, ?_⟩
            · rw [show 2 * (key >>> (t.nr_levels - j))
                  = key >>> (t.nr_levels - (j + 1)) from by omega, hmget31, if_pos rfl]
              rfl
            · rw [hreadn_pid, show 2 * (key >>> (t.nr_levels - j))
                  = key >>> (t.nr_levels - (j + 1)) from by omega, hmget31, if_pos rfl]
            · rw [hreadn_pid]
          · have hstep1 : nodeRightWeak t2 j (key >>> (t.nr_levels - j)) i := by
              refine nodeRightWeak_congr t t2 j (key >>> (t.nr_levels - j)) i rfl ?_ ?_ ?_ ?_
                hWparent.2
              · rw [hlvl2self, mapGet_mapInsert_ne _ _ _ _ (by omega)]
              · rw [ht2]
                exact popT2_readN_lt t key t.nr_levels (j + 1) i hpid_lt
              · rw [ht2, popT2_arena_len]
                omega
              · intro m hmlt
                rw [ht2, popT2_readN_lt t key t.nr_levels (j + 1) m hmlt]
            exact nodeRightWeak_writeN_self t2 f hflev (fun n => rfl) (fun n => rfl)
              j (key >>> (t.nr_levels - j)) i hpid_lt2 hstep1
        · have hip : i ≠ pid := by
            intro he
            subst he
            have e1 := hb.level_eq ℓ p i (by omega) hm
            omega
          exact ⟨nodeLeftWeak_congr t t3 ℓ p i hnr3
              (hmget3o (ℓ + 1) (2 * p) (by omega))
              (hreadn_other i hip hilt) harena_mono hlevpres hold.1,
            nodeRightWeak_congr t t3 ℓ p i hnr3
              (hmget3o (ℓ + 1) (2 * p + 1) (by omega))
              (hreadn_other i hip hilt) harena_mono hlevpres hold.2⟩
      · rw [if_neg hp]
        rw [if_neg hp] at hold
        have hip : i ≠ pid := by
          intro he
          subst he
          by_cases hℓj : j = ℓ
          · subst hℓj
            exact hb.inj j p _ i (by omega) hp hm hpid
          · have e1 := hb.level_eq ℓ p i (by omega) hm
            omega
        have hchildl : mapGet (lvl t3 (ℓ + 1)) (2 * p) = mapGet (lvl t (ℓ + 1)) (2 * p) := by
          by_cases hℓj : j = ℓ
          · subst hℓj
            rw [hmget31 (2 * p), if_neg (by intro hc; apply hp; omega)]
          · exact hmget3o (ℓ + 1) (2 * p) (by omega)
        have hchildr : mapGet (lvl t3 (ℓ + 1)) (2 * p + 1)
            = mapGet (lvl t (ℓ + 1)) (2 * p + 1) := by
          by_cases hℓj : j = ℓ
          · subst hℓj
            rw [hmget31 (2 * p + 1), if_neg (by intro hc; omega)]
          · exact hmget3o (ℓ + 1) (2 * p + 1) (by omega)
        exact ⟨nodeLeftOk_congr t t3 ℓ p i hnr3 hchildl
            (show lvl t3 t3.nr_levels = lvl t t.nr_levels from hlvlLeq)
            (hreadn_other i hip hilt) harena_mono hlevpres hold.1,
          nodeRightOk_congr t t3 ℓ p i hnr3 hchildr
            (show lvl t3 t3.nr_levels = lvl t t.nr_levels from hlvlLeq)
            (hreadn_other i hip hilt) harena_mono hlevpres hold.2⟩
  · -- leaves untouched
    intro m hmlt hmlev
    have hmp : m ≠ pid := by
      intro he
      subst he
      omega
    exact hreadn_other m hmp hmlt

/-- One `populate_internal_nodes` iteration keeps the phase invariant and
ensures the path position of its level. -/
theorem populateStep_ins (t : Xfast) (key j : Nat)
    (hb : InsBase t key j) (hok : InsOk t key) (hj : j + 1 ≤ t.nr_levels - 1) :
    InsBase (populateStep key t.nr_levels t (j + 1)) key (j + 1) ∧
    InsOk (populateStep key t.nr_levels t (j + 1)) key ∧
    (∀ m, m < t.arena.length → (readN t m).level = t.nr_levels →
      readN (populateStep key t.nr_levels t (j + 1)) m = readN t m) := by
  have hL := hb.hL
  cases hget : mapGet (lvl t (j + 1)) (key >>> (t.nr_levels - (j + 1))) with
  | some nid0 =>
    have heq : populateStep key t.nr_levels t (j + 1) = t := by
      unfold populateStep
      dsimp only
      rw [hget]
    rw [heq]
    refine ⟨?_, hok, fun m _ _ => rfl⟩
    refine ⟨hb.hL, hb.hlen, hb.h0, hb.keys_lt, hb.kabs, hb.kin, by omega, ?_,
      hb.ids_lt, hb.level_eq, hb.inj, hb.leaf_key, hb.leaf_links⟩
    intro ℓ p h1 h2
    rw [hb.dom ℓ p h1 h2]
    constructor
    · rintro (h | ⟨ha, hc⟩)
      · exact Or.inl h
      · exact Or.inr ⟨by omega, hc⟩
    · rintro (h | ⟨ha, hc⟩)
      · exact Or.inl h
      · by_cases hcase : ℓ ≤ j
        · exact Or.inr ⟨hcase, hc⟩
        · have he : ℓ = j + 1 := by omega
          subst he
          subst hc
          have hpres : (mapGet (lvl t (j + 1)) (key >>> (t.nr_levels - (j + 1)))).isSome := by
            rw [hget]
            rfl
          rcases (hb.dom (j + 1) _ (by omega) (by omega)).mp hpres with h | ⟨hx, -⟩
          · exact Or.inl h
          · omega
  | none =>
    -- the step creates a fresh internal node for the path at level j+1
    have harith1 : (key >>> (t.nr_levels - (j + 1))) >>> 1 = key >>> (t.nr_levels - j) := by
      rw [← pfx_succ key (t.nr_levels - (j + 1)),
        show t.nr_levels - (j + 1) + 1 = t.nr_levels - j from by omega]
    have hsplit : key >>> (t.nr_levels - (j + 1))
        = 2 * (key >>> (t.nr_levels - j)) + (key >>> (t.nr_levels - (j + 1))) % 2 := by
      have h := pfx_child key (t.nr_levels - (j + 1))
      rw [show t.nr_levels - (j + 1) + 1 = t.nr_levels - j from by omega] at h
      exact h
    obtain ⟨pid, hpid⟩ : ∃ pid, mapGet (lvl t j) (key >>> (t.nr_levels - j)) = some pid := by
      rcases Nat.eq_zero_or_pos j with hj0 | hjpos
      · subst hj0
        refine ⟨0, ?_⟩
        rw [show t.nr_levels - 0 = t.nr_levels from rfl,
          pfx_zero_of_lt key _ hb.kin, hb.h0]
        rfl
      · have hpres : (mapGet (lvl t j) (key >>> (t.nr_levels - j))).isSome := by
          rw [hb.dom j _ hjpos (by omega)]
          exact Or.inr ⟨le_refl j, rfl⟩
        exact Option.isSome_iff_exists.mp hpres
    have hmlen : j + 1 < t.level_maps.length := by
      rw [hb.hlen]
      omega
    have hpid2 : mapGet (lvl (popT2 t key t.nr_levels (j + 1)) (j + 1 - 1))
        ((key >>> (t.nr_levels - (j + 1))) >>> 1) = some pid := by
      rw [show j + 1 - 1 = j from rfl, popT2_lvl_ne t key t.nr_levels (j + 1) j (by omega),
        harith1]
      exact hpid
    have hpid_lt : pid < t.arena.length := hb.ids_lt j _ pid (by omega) hpid
    have hpid_lev : (readN t pid).level = j := hb.level_eq j _ pid (by omega) hpid
    have hWparent : WeakAt t j (key >>> (t.nr_levels - j)) pid := by
      have h := hok j _ pid (by omega) hpid
      rw [if_pos rfl] at h
      exact h
    have hlvl2self : lvl (popT2 t key t.nr_levels (j + 1)) (j + 1)
        = mapInsert (lvl t (j + 1)) (key >>> (t.nr_levels - (j + 1))) t.arena.length :=
      popT2_lvl_self t key t.nr_levels (j + 1) hmlen
    rw [populateStep_new key t.nr_levels t (j + 1) pid hget hpid2]
    -- abbreviations for the two sides
    by_cases hbit : (key >>> (t.nr_levels - (j + 1))) &&& 1 ≠ 0
    · rw [if_pos hbit]
      rw [Nat.and_one_is_mod] at hbit
      have hb1 : (key >>> (t.nr_levels - (j + 1))) % 2 = 1 := by omega
      exact populateStep_ins_right t key j hb hok hj hget hsplit hb1 pid hpid
        hpid_lt hpid_lev hWparent hmlen hlvl2self
    · rw [if_neg hbit]
      rw [Nat.and_one_is_mod] at hbit
      have hb0 : (key >>> (t.nr_levels - (j + 1))) % 2 = 0 := by omega
      exact populateStep_ins_left t key j hb hok hj hget hsplit hb0 pid hpid
        hpid_lt hpid_lev hWparent hmlen hlvl2self

/-- `populateStep` never changes the level count and never shrinks the
arena. -/
theorem populateStep_frame (key L : Nat) (t : Xfast) (level : Nat) :
    (populateStep key L t level).nr_levels = t.nr_levels ∧
    t.arena.length ≤ (populateStep key L t level).arena.length := by
  cases hg : mapGet (lvl t level) (key >>> (L - level)) with
  | some nid0 =>
    have heq : populateStep key L t level = t := by
      unfold populateStep
      dsimp only
      rw [hg]
    rw [heq]
    exact ⟨rfl, le_refl _⟩
  | none =>
    cases hp : mapGet (lvl (popT2 t key L level) (level - 1)) ((key >>> (L - level)) >>> 1) with
    | none =>
      have heq : populateStep key L t level = popT2 t key L level := by
        unfold populateStep
        dsimp only
        rw [hg]
        show (match mapGet (lvl (popT2 t key L level) (level - 1))
            ((key >>> (L - level)) >>> 1) with
          | none => popT2 t key L level
          | some pid =>
            if (key >>> (L - level)) &&& 1 ≠ 0 then
              writeN (popT2 t key L level) pid
                (fun n => { n with right := some t.arena.length, is_desc_right := false })
            else
              writeN (popT2 t key L level) pid
                (fun n => { n with left := some t.arena.length, is_desc_left := false })) = _
        rw [hp]
      rw [heq, popT2_nr, popT2_arena_len]
      exact ⟨rfl, by omega⟩
    | some pid =>
      rw [populateStep_new key L t level pid hg hp]
      by_cases hbit : (key >>> (L - level)) &&& 1 ≠ 0
      · rw [if_pos hbit]
        refine ⟨rfl, ?_⟩
        rw [writeN_arena_length, popT2_arena_len]
        omega
      · rw [if_neg hbit]
        refine ⟨rfl, ?_⟩
        rw [writeN_arena_length, popT2_arena_len]
        omega

/-- The whole `populate_internal_nodes` loop, by induction on the number of
levels processed. -/
theorem pop_fold (key L : Nat) : ∀ (n : Nat) (t : Xfast), t.nr_levels = L → n ≤ L - 1 →
    InsBase t key 0 → InsOk t key →
    InsBase ((List.range' 1 n).foldl (populateStep key L) t) key n ∧
    InsOk ((List.range' 1 n).foldl (populateStep key L) t) key ∧
    ((List.range' 1 n).foldl (populateStep key L) t).nr_levels = L ∧
    t.arena.length ≤ ((List.range' 1 n).foldl (populateStep key L) t).arena.length ∧
    (∀ m, m < t.arena.length → (readN t m).level = L →
      readN ((List.range' 1 n).foldl (populateStep key L) t) m = readN t m) := by
  intro n
  induction n with
  | zero =>
    intro t hnr _ hb hok
    exact ⟨hb, hok, hnr, le_refl _, fun m _ _ => rfl⟩
  | succ n ih =>
    intro t hnr hle hb hok
    rw [List.range'_1_concat 1 n, List.foldl_append, List.foldl_cons, List.foldl_nil]
    obtain ⟨ihb, ihok, ihnr, iha, ihleaf⟩ := ih t hnr (by omega) hb hok
    have hj' : n + 1 ≤ ((List.range' 1 n).foldl (populateStep key L) t).nr_levels - 1 := by
      rw [ihnr]
      omega
    have hstep := populateStep_ins ((List.range' 1 n).foldl (populateStep key L) t)
      key n ihb ihok hj'
    rw [ihnr] at hstep
    rw [show 1 + n = n + 1 from Nat.add_comm 1 n]
    have hfr := populateStep_frame key L ((List.range' 1 n).foldl (populateStep key L) t) (n + 1)
    refine ⟨hstep.1, hstep.2.1, ?_, ?_, ?_⟩
    · rw [hfr.1, ihnr]
    · exact le_trans iha hfr.2
    · intro m hm hlev
      have hm' : m < ((List.range' 1 n).foldl (populateStep key L) t).arena.length :=
        lt_of_lt_of_le hm iha
      have hlev' : (readN ((List.range' 1 n).foldl (populateStep key L) t) m).level = L := by
        rw [ihleaf m hm hlev]
        exact hlev
      rw [hstep.2.2 m hm' hlev', ihleaf m hm hlev]

/-- Canonical-left transfer across a change of the leaf map that leaves the
relevant subtree's key set, its child binding, and the stored keys' leaf
bindings unchanged. -/
theorem nodeLeftOk_mapCh (tc te : Xfast) (ℓ p i : Nat)
    (hnr : te.nr_levels = tc.nr_levels)
    (hchild : mapGet (lvl te (ℓ + 1)) (2 * p) = mapGet (lvl tc (ℓ + 1)) (2 * p))
    (hnode : readN te i = readN tc i)
    (harena : tc.arena.length ≤ te.arena.length)
    (hlevpres : ∀ m, m < tc.arena.length → (readN te m).level = (readN tc m).level)
    (hsub : subKeys te (ℓ + 1) (2 * p + 1) = subKeys tc (ℓ + 1) (2 * p + 1))
    (hleafm : ∀ m, stored tc m → mapGet (lvl te te.nr_levels) m
      = mapGet (lvl tc tc.nr_levels) m)
    (h : nodeLeftOk tc ℓ p i) : nodeLeftOk te ℓ p i := by
  unfold nodeLeftOk at h ⊢
  rw [hchild, hnode, hsub]
  rcases h with h | ⟨h1, h2, h3 | h3⟩
  · exact Or.inl h
  · obtain ⟨m, hm1, hm2⟩ := h3
    have hmem : m ∈ subKeys tc (ℓ + 1) (2 * p + 1) := ((listMinO_spec _ m).mp hm1).1
    have hst : stored tc m := ((mem_subKeys_iff tc _ _ m).mp hmem).1
    refine Or.inr ⟨h1, h2, Or.inl ⟨m, hm1, ?_⟩⟩
    rw [hleafm m hst]
    exact hm2
  · exact Or.inr ⟨h1, h2, Or.inr ⟨h3.1,
      leafTyped_stable tc te hnr harena hlevpres _ h3.2⟩⟩

theorem nodeRightOk_mapCh (tc te : Xfast) (ℓ p i : Nat)
    (hnr : te.nr_levels = tc.nr_levels)
    (hchild : mapGet (lvl te (ℓ + 1)) (2 * p + 1) = mapGet (lvl tc (ℓ + 1)) (2 * p + 1))
    (hnode : readN te i = readN tc i)
    (harena : tc.arena.length ≤ te.arena.length)
    (hlevpres : ∀ m, m < tc.arena.length → (readN te m).level = (readN tc m).level)
    (hsub : subKeys te (ℓ + 1) (2 * p) = subKeys tc (ℓ + 1) (2 * p))
    (hleafm : ∀ m, stored tc m → mapGet (lvl te te.nr_levels) m
      = mapGet (lvl tc tc.nr_levels) m)
    (h : nodeRightOk tc ℓ p i) : nodeRightOk te ℓ p i := by
  unfold nodeRightOk at h ⊢
  rw [hchild, hnode, hsub]
  rcases h with h | ⟨h1, h2, h3 | h3⟩
  · exact Or.inl h
  · obtain ⟨m, hm1, hm2⟩ := h3
    have hmem : m ∈ subKeys tc (ℓ + 1) (2 * p) := ((listMaxO_spec _ m).mp hm1).1
    have hst : stored tc m := ((mem_subKeys_iff tc _ _ m).mp hmem).1
    refine Or.inr ⟨h1, h2, Or.inl ⟨m, hm1, ?_⟩⟩
    rw [hleafm m hst]
    exact hm2
  · exact Or.inr ⟨h1, h2, Or.inr ⟨h3.1,
      leafTyped_stable tc te hnr harena hlevpres _ h3.2⟩⟩

/-- Registering the fresh leaf and hooking it to its parent as a right
child restores `BaseInv` and leaves only the key's path weakened. -/
theorem insert_glue_right (tc : Xfast) (key nid pid' : Nat)
    (hb : InsBase tc key (tc.nr_levels - 1)) (hok : InsOk tc key)
    (hnid_lt : nid < tc.arena.length)
    (hnid_lev : (readN tc nid).level = tc.nr_levels)
    (hnid_key : (readN tc nid).key = key)
    (hb1 : key % 2 = 1)
    (hpp : mapGet (lvl tc (tc.nr_levels - 1)) (key >>> 1) = some pid') :
    BaseInv (writeN (setLvl tc tc.nr_levels (mapInsert (lvl tc tc.nr_levels) key nid)) pid'
      (fun n => { n with right := some nid, is_desc_right := false })) ∧
    MidState (writeN (setLvl tc tc.nr_levels (mapInsert (lvl tc tc.nr_levels) key nid)) pid'
      (fun n => { n with right := some nid, is_desc_right := false })) key
      (tc.nr_levels - 1) := by
  have hL := hb.hL
  set td := setLvl tc tc.nr_levels (mapInsert (lvl tc tc.nr_levels) key nid) with htd
  set f : TrieNode → TrieNode :=
    fun n => { n with right := some nid, is_desc_right := false } with hfdef
  set te := writeN td pid' f with hte
  have hflev : ∀ n : TrieNode, (f n).level = n.level := fun n => rfl
  have hfkey : ∀ n : TrieNode, (f n).key = n.key := fun n => rfl
  have hfleft : ∀ n : TrieNode, (f n).left = n.left := fun n => rfl
  have hfdl : ∀ n : TrieNode, (f n).is_desc_left = n.is_desc_left := fun n => rfl
  have hlenL : tc.nr_levels < tc.level_maps.length := by
    rw [hb.hlen]
    omega
  have habs : mapGet (lvl tc tc.nr_levels) key = none := by
    have h := hb.kabs
    unfold stored at h
    cases hm : mapGet (lvl tc tc.nr_levels) key with
    | none => rfl
    | some x => exact absurd (by rw [hm]; rfl) h
  have hpid_lt : pid' < tc.arena.length := hb.ids_lt (tc.nr_levels - 1) _ pid' (by omega) hpp
  have hpid_lev : (readN tc pid').level = tc.nr_levels - 1 :=
    hb.level_eq (tc.nr_levels - 1) _ pid' (by omega) hpp
  have hWp : WeakAt tc (tc.nr_levels - 1) (key >>> 1) pid' := by
    have h := hok (tc.nr_levels - 1) (key >>> 1) pid' (by omega) hpp
    rw [if_pos (by rw [show tc.nr_levels - (tc.nr_levels - 1) = 1 from by omega])] at h
    exact h
  have htd_lvl_ne : ∀ ℓ', ℓ' ≠ tc.nr_levels → lvl td ℓ' = lvl tc ℓ' := by
    intro ℓ' h
    rw [htd, lvl_setLvl_ne _ _ _ _ (fun he => h he.symm)]
  have htd_lvlL : lvl td tc.nr_levels = mapInsert (lvl tc tc.nr_levels) key nid := by
    rw [htd]
    exact lvl_setLvl_self tc tc.nr_levels _ hlenL
  have htd_read : ∀ m, readN td m = readN tc m := by
    intro m
    rw [htd]
    rfl
  have hpid_lt_td : pid' < td.arena.length := by
    rw [htd, setLvl_arena]
    exact hpid_lt
  have hlvl_e : ∀ ℓ', lvl te ℓ' = lvl td ℓ' := by
    intro ℓ'
    rw [hte, lvl_writeN]
  have hte_nrs : te.nr_levels = tc.nr_levels := rfl
  have hte_arena : te.arena.length = tc.arena.length := by
    rw [hte, writeN_arena_length, htd, setLvl_arena]
  have harena_mono : tc.arena.length ≤ te.arena.length := le_of_eq hte_arena.symm
  have hte_read_pid : readN te pid' = f (readN tc pid') := by
    rw [hte, readN_writeN_self td pid' f hpid_lt_td, htd_read pid']
  have hte_read_other : ∀ m, m ≠ pid' → readN te m = readN tc m := by
    intro m hm
    rw [hte, readN_writeN_ne td pid' m f (fun he => hm he.symm), htd_read m]
  have hlevpres_e : ∀ m, m < tc.arena.length → (readN te m).level = (readN tc m).level := by
    intro m hmlt
    by_cases hmp : m = pid'
    · subst hmp
      rw [hte_read_pid]
    · rw [hte_read_other m hmp]
  have hleafm_td : ∀ m, m ≠ key →
      mapGet (lvl td tc.nr_levels) m = mapGet (lvl tc tc.nr_levels) m := by
    intro m hm
    rw [htd_lvlL, mapGet_mapInsert_ne _ _ _ _ hm]
  have hkeyins : mapGet (lvl td tc.nr_levels) key = some nid := by
    rw [htd_lvlL]
    exact mapGet_mapInsert_self _ _ _
  have hstored_td : ∀ k, stored td k ↔ k = key ∨ stored tc k := by
    intro k
    unfold stored
    show (mapGet (lvl td tc.nr_levels) k).isSome = true ↔
      k = key ∨ (mapGet (lvl tc tc.nr_levels) k).isSome = true
    by_cases hk : k = key
    · rw [hk, hkeyins]
      simp
    · rw [hleafm_td k hk]
      simp [hk]
  have hsub_td : ∀ ℓ' q, subKeys td ℓ' q
      = if key >>> (tc.nr_levels - ℓ') = q then key :: subKeys tc ℓ' q
        else subKeys tc ℓ' q := by
    intro ℓ' q
    rw [htd]
    exact subKeys_insert tc key nid hlenL habs ℓ' q
  have hleafm_e : ∀ m, stored tc m →
      mapGet (lvl te te.nr_levels) m = mapGet (lvl tc tc.nr_levels) m := by
    intro m hst
    have hm : m ≠ key := fun he => hb.kabs (he ▸ hst)
    show mapGet (lvl td tc.nr_levels) m = mapGet (lvl tc tc.nr_levels) m
    exact hleafm_td m hm
  constructor
  · -- BaseInv for the relinked state
    refine ⟨hb.hL, ?_, ?_, ?_, ?_, ?_, ?_, ?_, ?_, ?_⟩
    · have h1 : te.level_maps.length = tc.level_maps.length := by
        rw [hte, writeN_level_maps, htd]
        unfold setLvl
        simp
      rw [hte_nrs, h1]
      exact hb.hlen
    · rw [hlvl_e 0, htd_lvl_ne 0 (by omega)]
      exact hb.h0
    · intro k h
      rw [hte_nrs]
      rcases (hstored_td k).mp h with he | hs
      · rw [he]
        exact hb.kin
      · exact hb.keys_lt k hs
    · intro ℓ p h1 h2
      have h2' : ℓ ≤ tc.nr_levels := by
        rw [hte_nrs] at h2
        exact h2
      show (mapGet (lvl te ℓ) p).isSome = true ↔
        ∃ k, stored te k ∧ k >>> (tc.nr_levels - ℓ) = p
      by_cases hℓL : ℓ = tc.nr_levels
      · subst hℓL
        rw [Nat.sub_self]
        constructor
        · intro hsome
          refine ⟨p, ?_, Nat.shiftRight_zero⟩
          exact hsome
        · rintro ⟨k, hk, he⟩
          rw [Nat.shiftRight_zero] at he
          rw [← he]
          exact hk
      · rw [hlvl_e ℓ, htd_lvl_ne ℓ hℓL]
        constructor
        · intro hsome
          rcases (hb.dom ℓ p h1 h2').mp hsome with ⟨k, hk, he⟩ | ⟨hx, he⟩
          · exact ⟨k, (hstored_td k).mpr (Or.inr hk), he⟩
          · exact ⟨key, (hstored_td key).mpr (Or.inl rfl), he.symm⟩
        · rintro ⟨k, hk, he⟩
          rcases (hstored_td k).mp hk with hke | hks
          · refine (hb.dom ℓ p h1 h2').mpr (Or.inr ⟨by omega, ?_⟩)
            rw [← he, hke]
          · exact (hb.dom ℓ p h1 h2').mpr (Or.inl ⟨k, hks, he⟩)
    · intro ℓ p i hℓ hm
      have hℓ' : ℓ ≤ tc.nr_levels := by
        rw [hte_nrs] at hℓ
        exact hℓ
      rw [hte_arena]
      by_cases hℓL : ℓ = tc.nr_levels
      · subst hℓL
        rw [hlvl_e, htd_lvlL] at hm
        by_cases hpk : p = key
        · rw [hpk, mapGet_mapInsert_self] at hm
          cases hm
          exact hnid_lt
        · rw [mapGet_mapInsert_ne _ _ _ _ hpk] at hm
          exact hb.ids_lt tc.nr_levels p i (le_refl _) hm
      · rw [hlvl_e, htd_lvl_ne ℓ hℓL] at hm
        exact hb.ids_lt ℓ p i hℓ' hm
    · intro ℓ p i hℓ hm
      have hℓ' : ℓ ≤ tc.nr_levels := by
        rw [hte_nrs] at hℓ
        exact hℓ
      by_cases hℓL : ℓ = tc.nr_levels
      · subst hℓL
        rw [hlvl_e, htd_lvlL] at hm
        by_cases hpk : p = key
        · rw [hpk, mapGet_mapInsert_self] at hm
          cases hm
          rw [hlevpres_e nid hnid_lt]
          exact hnid_lev
        · rw [mapGet_mapInsert_ne _ _ _ _ hpk] at hm
          have hi := hb.ids_lt tc.nr_levels p i (le_refl _) hm
          rw [hlevpres_e i hi]
          exact hb.level_eq tc.nr_levels p i (le_refl _) hm
      · rw [hlvl_e, htd_lvl_ne ℓ hℓL] at hm
        have hi := hb.ids_lt ℓ p i hℓ' hm
        rw [hlevpres_e i hi]
        exact hb.level_eq ℓ p i hℓ' hm
    · intro ℓ p q i hℓ hpq hmp hmq
      have hℓ' : ℓ ≤ tc.nr_levels := by
        rw [hte_nrs] at hℓ
        exact hℓ
      by_cases hℓL : ℓ = tc.nr_levels
      · subst hℓL
        rw [hlvl_e, htd_lvlL] at hmp hmq
        by_cases hpk : p = key
        · rw [hpk, mapGet_mapInsert_self] at hmp
          cases hmp
          have hqk : q ≠ key := fun he => hpq (hpk.trans he.symm)
          rw [mapGet_mapInsert_ne _ _ _ _ hqk] at hmq
          have h2 := hb.leaf_key q nid hmq
          rw [hnid_key] at h2
          exact hqk h2.symm
        · rw [mapGet_mapInsert_ne _ _ _ _ hpk] at hmp
          by_cases hqk : q = key
          · rw [hqk, mapGet_mapInsert_self] at hmq
            cases hmq
            have h2 := hb.leaf_key p nid hmp
            rw [hnid_key] at h2
            exact hpk h2.symm
          · rw [mapGet_mapInsert_ne _ _ _ _ hqk] at hmq
            exact hb.inj tc.nr_levels p q i (le_refl _) hpq hmp hmq
      · rw [hlvl_e, htd_lvl_ne ℓ hℓL] at hmp hmq
        exact hb.inj ℓ p q i hℓ' hpq hmp hmq
    · intro k i hm
      have hm' : mapGet (lvl te tc.nr_levels) k = some i := hm
      rw [hlvl_e, htd_lvlL] at hm'
      by_cases hk : k = key
      · rw [hk, mapGet_mapInsert_self] at hm'
        cases hm'
        have hkp : (readN te nid).key = (readN tc nid).key := by
          by_cases hnp : nid = pid'
          · rw [hnp, hte_read_pid]
          · rw [hte_read_other nid hnp]
        rw [hk, hkp, hnid_key]
      · rw [mapGet_mapInsert_ne _ _ _ _ hk] at hm'
        have hkp : (readN te i).key = (readN tc i).key := by
          by_cases hipd : i = pid'
          · rw [hipd, hte_read_pid]
          · rw [hte_read_other i hipd]
        rw [hkp]
        exact hb.leaf_key k i hm'
    · intro i hlen hlev
      have hlen' : i < tc.arena.length := by
        rw [hte_arena] at hlen
        exact hlen
      have hlev' : (readN tc i).level = tc.nr_levels := by
        rw [← hlevpres_e i hlen']
        exact hlev
      have hip : i ≠ pid' := by
        intro he
        subst he
        omega
      obtain ⟨h1, h2⟩ := hb.leaf_links i hlen' hlev'
      rw [hte_read_other i hip]
      exact ⟨leafTyped_stable tc te hte_nrs harena_mono hlevpres_e _ h1,
             leafTyped_stable tc te hte_nrs harena_mono hlevpres_e _ h2⟩
  · -- MidState: only the key's path is weakened
    intro ℓ p i hℓ hm
    have hℓ' : ℓ < tc.nr_levels := hℓ
    have hm0 := hm
    rw [hlvl_e ℓ, htd_lvl_ne ℓ (by omega)] at hm0
    show if ℓ ≤ tc.nr_levels - 1 ∧ p = key >>> (tc.nr_levels - ℓ) then WeakAt te ℓ p i
      else OkAt te ℓ p i
    by_cases hp : p = key >>> (tc.nr_levels - ℓ)
    · rw [if_pos ⟨by omega, hp⟩]
      by_cases hℓtop : ℓ = tc.nr_levels - 1
      · subst hℓtop
        have hp1 : p = key >>> 1 := by
          rw [hp, show tc.nr_levels - (tc.nr_levels - 1) = 1 from by omega]
        subst hp1
        have hieq : i = pid' := by
          have hh := hpp
          rw [hm0] at hh
          exact Option.some.inj hh
        subst hieq
        have harith : tc.nr_levels - 1 + 1 = tc.nr_levels := by omega
        constructor
        · have hne2 : 2 * (key >>> 1) ≠ key := by
            rw [Nat.shiftRight_one]
            omega
          have hWl := hWp.1
          unfold nodeLeftWeak at hWl ⊢
          rw [harith] at hWl ⊢
          rw [hlvl_e tc.nr_levels, htd_lvlL, mapGet_mapInsert_ne _ _ _ _ hne2,
            hte_read_pid, hfleft, hfdl]
          rcases hWl with ⟨hs, hptr, hflag⟩ | ⟨hs, hflag, hlt⟩
          · exact Or.inl ⟨hs, hptr, hflag⟩
          · exact Or.inr ⟨hs, hflag,
              leafTyped_stable tc te hte_nrs harena_mono hlevpres_e _ hlt⟩
        · unfold nodeRightWeak
          rw [harith]
          have hckey : 2 * (key >>> 1) + 1 = key := by
            rw [Nat.shiftRight_one]
            omega
          refine Or.inl ⟨?_, ?_, ?_⟩
          · rw [hckey, hlvl_e tc.nr_levels, htd_lvlL, mapGet_mapInsert_self]
            rfl
          · rw [hte_read_pid, hckey, hlvl_e tc.nr_levels, htd_lvlL, mapGet_mapInsert_self]
          · rw [hte_read_pid]
      · have hW := hok ℓ p i hℓ' hm0
        rw [if_pos hp] at hW
        have hip : i ≠ pid' := by
          intro he
          subst he
          have e1 := hb.level_eq ℓ p i (by omega) hm0
          omega
        have hchildl : mapGet (lvl te (ℓ + 1)) (2 * p) = mapGet (lvl tc (ℓ + 1)) (2 * p) := by
          rw [hlvl_e (ℓ + 1), htd_lvl_ne (ℓ + 1) (by omega)]
        have hchildr : mapGet (lvl te (ℓ + 1)) (2 * p + 1)
            = mapGet (lvl tc (ℓ + 1)) (2 * p + 1) := by
          rw [hlvl_e (ℓ + 1), htd_lvl_ne (ℓ + 1) (by omega)]
        exact ⟨nodeLeftWeak_congr tc te ℓ p i hte_nrs hchildl
            (hte_read_other i hip) harena_mono hlevpres_e hW.1,
          nodeRightWeak_congr tc te ℓ p i hte_nrs hchildr
            (hte_read_other i hip) harena_mono hlevpres_e hW.2⟩
    · rw [if_neg (by intro hc; exact hp hc.2)]
      have hOk := hok ℓ p i hℓ' hm0
      rw [if_neg hp] at hOk
      have hip : i ≠ pid' := by
        intro he
        subst he
        by_cases hℓtop : ℓ = tc.nr_levels - 1
        · subst hℓtop
          refine hb.inj (tc.nr_levels - 1) p (key >>> 1) i (by omega) ?_ hm0 hpp
          intro hpe
          apply hp
          rw [hpe, show tc.nr_levels - (tc.nr_levels - 1) = 1 from by omega]
        · have e1 := hb.level_eq ℓ p i (by omega) hm0
          omega
      have hchl : key >>> (tc.nr_levels - (ℓ + 1)) ≠ 2 * p := by
        intro hc
        apply hp
        have h1 : (key >>> (tc.nr_levels - (ℓ + 1))) >>> 1 = key >>> (tc.nr_levels - ℓ) := by
          rw [← pfx_succ, show tc.nr_levels - (ℓ + 1) + 1 = tc.nr_levels - ℓ from by omega]
        rw [hc, Nat.shiftRight_one] at h1
        omega
      have hchr : key >>> (tc.nr_levels - (ℓ + 1)) ≠ 2 * p + 1 := by
        intro hc
        apply hp
        have h1 : (key >>> (tc.nr_levels - (ℓ + 1))) >>> 1 = key >>> (tc.nr_levels - ℓ) := by
          rw [← pfx_succ, show tc.nr_levels - (ℓ + 1) + 1 = tc.nr_levels - ℓ from by omega]
        rw [hc, Nat.shiftRight_one] at h1
        omega
      have hchildl : mapGet (lvl te (ℓ + 1)) (2 * p) = mapGet (lvl tc (ℓ + 1)) (2 * p) := by
        by_cases hc1 : ℓ + 1 = tc.nr_levels
        · rw [hlvl_e (ℓ + 1), hc1, htd_lvlL,
            mapGet_mapInsert_ne _ _ _ _ (fun hc => hchl (by
              rw [show tc.nr_levels - (ℓ + 1) = 0 from by omega, Nat.shiftRight_zero]
              exact hc.symm))]
        · rw [hlvl_e (ℓ + 1), htd_lvl_ne (ℓ + 1) hc1]
      have hchildr : mapGet (lvl te (ℓ + 1)) (2 * p + 1)
          = mapGet (lvl tc (ℓ + 1)) (2 * p + 1) := by
        by_cases hc1 : ℓ + 1 = tc.nr_levels
        · rw [hlvl_e (ℓ + 1), hc1, htd_lvlL,
            mapGet_mapInsert_ne _ _ _ _ (fun hc => hchr (by
              rw [show tc.nr_levels - (ℓ + 1) = 0 from by omega, Nat.shiftRight_zero]
              exact hc.symm))]
        · rw [hlvl_e (ℓ + 1), htd_lvl_ne (ℓ + 1) hc1]
      have hsubl : subKeys te (ℓ + 1) (2 * p) = subKeys tc (ℓ + 1) (2 * p) := by
        have h1 : subKeys te (ℓ + 1) (2 * p) = subKeys td (ℓ + 1) (2 * p) := rfl
        rw [h1, hsub_td (ℓ + 1) (2 * p), if_neg hchl]
      have hsubr : subKeys te (ℓ + 1) (2 * p + 1) = subKeys tc (ℓ + 1) (2 * p + 1) := by
        have h1 : subKeys te (ℓ + 1) (2 * p + 1) = subKeys td (ℓ + 1) (2 * p + 1) := rfl
        rw [h1, hsub_td (ℓ + 1) (2 * p + 1), if_neg hchr]
      exact ⟨nodeLeftOk_mapCh tc te ℓ p i hte_nrs hchildl (hte_read_other i hip)
          harena_mono hlevpres_e hsubr hleafm_e hOk.1,
        nodeRightOk_mapCh tc te ℓ p i hte_nrs hchildr (hte_read_other i hip)
          harena_mono hlevpres_e hsubl hleafm_e hOk.2⟩

/-- Registering the fresh leaf and hooking it to its parent as a left
child restores `BaseInv` and leaves only the key's path weakened. -/
theorem insert_glue_left (tc : Xfast) (key nid pid' : Nat)
    (hb : InsBase tc key (tc.nr_levels - 1)) (hok : InsOk tc key)
    (hnid_lt : nid < tc.arena.length)
    (hnid_lev : (readN tc nid).level = tc.nr_levels)
    (hnid_key : (readN tc nid).key = key)
    (hb0 : key % 2 = 0)
    (hpp : mapGet (lvl tc (tc.nr_levels - 1)) (key >>> 1) = some pid') :
    BaseInv (writeN (setLvl tc tc.nr_levels (mapInsert (lvl tc tc.nr_levels) key nid)) pid'
      (fun n => { n with left := some nid, is_desc_left := false })) ∧
    MidState (writeN (setLvl tc tc.nr_levels (mapInsert (lvl tc tc.nr_levels) key nid)) pid'
      (fun n => { n with left := some nid, is_desc_left := false })) key
      (tc.nr_levels - 1) := by
  have hL := hb.hL
  set td := setLvl tc tc.nr_levels (mapInsert (lvl tc tc.nr_levels) key nid) with htd
  set f : TrieNode → TrieNode :=
    fun n => { n with left := some nid, is_desc_left := false } with hfdef
  set te := writeN td pid' f with hte
  have hflev : ∀ n : TrieNode, (f n).level = n.level := fun n => rfl
  have hfkey : ∀ n : TrieNode, (f n).key = n.key := fun n => rfl
  have hfright : ∀ n : TrieNode, (f n).right = n.right := fun n => rfl
  have hfdr : ∀ n : TrieNode, (f n).is_desc_right = n.is_desc_right := fun n => rfl
  have hlenL : tc.nr_levels < tc.level_maps.length := by
    rw [hb.hlen]
    omega
  have habs : mapGet (lvl tc tc.nr_levels) key = none := by
    have h := hb.kabs
    unfold stored at h
    cases hm : mapGet (lvl tc tc.nr_levels) key with
    | none => rfl
    | some x => exact absurd (by rw [hm]; rfl) h
  have hpid_lt : pid' < tc.arena.length := hb.ids_lt (tc.nr_levels - 1) _ pid' (by omega) hpp
  have hpid_lev : (readN tc pid').level = tc.nr_levels - 1 :=
    hb.level_eq (tc.nr_levels - 1) _ pid' (by omega) hpp
  have hWp : WeakAt tc (tc.nr_levels - 1) (key >>> 1) pid' := by
    have h := hok (tc.nr_levels - 1) (key >>> 1) pid' (by omega) hpp
    rw [if_pos (by rw [show tc.nr_levels - (tc.nr_levels - 1) = 1 from by omega])] at h
    exact h
  have htd_lvl_ne : ∀ ℓ', ℓ' ≠ tc.nr_levels → lvl td ℓ' = lvl tc ℓ' := by
    intro ℓ' h
    rw [htd, lvl_setLvl_ne _ _ _ _ (fun he => h he.symm)]
  have htd_lvlL : lvl td tc.nr_levels = mapInsert (lvl tc tc.nr_levels) key nid := by
    rw [htd]
    exact lvl_setLvl_self tc tc.nr_levels _ hlenL
  have htd_read : ∀ m, readN td m = readN tc m := by
    intro m
    rw [htd]
    rfl
  have hpid_lt_td : pid' < td.arena.length := by
    rw [htd, setLvl_arena]
    exact hpid_lt
  have hlvl_e : ∀ ℓ', lvl te ℓ' = lvl td ℓ' := by
    intro ℓ'
    rw [hte, lvl_writeN]
  have hte_nrs : te.nr_levels = tc.nr_levels := rfl
  have hte_arena : te.arena.length = tc.arena.length := by
    rw [hte, writeN_arena_length, htd, setLvl_arena]
  have harena_mono : tc.arena.length ≤ te.arena.length := le_of_eq hte_arena.symm
  have hte_read_pid : readN te pid' = f (readN tc pid') := by
    rw [hte, readN_writeN_self td pid' f hpid_lt_td, htd_read pid']
  have hte_read_other : ∀ m, m ≠ pid' → readN te m = readN tc m := by
    intro m hm
    rw [hte, readN_writeN_ne td pid' m f (fun he => hm he.symm), htd_read m]
  have hlevpres_e : ∀ m, m < tc.arena.length → (readN te m).level = (readN tc m).level := by
    intro m hmlt
    by_cases hmp : m = pid'
    · subst hmp
      rw [hte_read_pid]
    · rw [hte_read_other m hmp]
  have hleafm_td : ∀ m, m ≠ key →
      mapGet (lvl td tc.nr_levels) m = mapGet (lvl tc tc.nr_levels) m := by
    intro m hm
    rw [htd_lvlL, mapGet_mapInsert_ne _ _ _ _ hm]
  have hkeyins : mapGet (lvl td tc.nr_levels) key = some nid := by
    rw [htd_lvlL]
    exact mapGet_mapInsert_self _ _ _
  have hstored_td : ∀ k, stored td k ↔ k = key ∨ stored tc k := by
    intro k
    unfold stored
    show (mapGet (lvl td tc.nr_levels) k).isSome = true ↔
      k = key ∨ (mapGet (lvl tc tc.nr_levels) k).isSome = true
    by_cases hk : k = key
    · rw [hk, hkeyins]
      simp
    · rw [hleafm_td k hk]
      simp [hk]
  have hsub_td : ∀ ℓ' q, subKeys td ℓ' q
      = if key >>> (tc.nr_levels - ℓ') = q then key :: subKeys tc ℓ' q
        else subKeys tc ℓ' q := by
    intro ℓ' q
    rw [htd]
    exact subKeys_insert tc key nid hlenL habs ℓ' q
  have hleafm_e : ∀ m, stored tc m →
      mapGet (lvl te te.nr_levels) m = mapGet (lvl tc tc.nr_levels) m := by
    intro m hst
    have hm : m ≠ key := fun he => hb.kabs (he ▸ hst)
    show mapGet (lvl td tc.nr_levels) m = mapGet (lvl tc tc.nr_levels) m
    exact hleafm_td m hm
  constructor
  · -- BaseInv for the relinked state
    refine ⟨hb.hL, ?_, ?_, ?_, ?_, ?_, ?_, ?_, ?_, ?_⟩
    · have h1 : te.level_maps.length = tc.level_maps.length := by
        rw [hte, writeN_level_maps, htd]
        unfold setLvl
        simp
      rw [hte_nrs, h1]
      exact hb.hlen
    · rw [hlvl_e 0, htd_lvl_ne 0 (by omega)]
      exact hb.h0
    · intro k h
      rw [hte_nrs]
      rcases (hstored_td k).mp h with he | hs
      · rw [he]
        exact hb.kin
      · exact hb.keys_lt k hs
    · intro ℓ p h1 h2
      have h2' : ℓ ≤ tc.nr_levels := by
        rw [hte_nrs] at h2
        exact h2
      show (mapGet (lvl te ℓ) p).isSome = true ↔
        ∃ k, stored te k ∧ k >>> (tc.nr_levels - ℓ) = p
      by_cases hℓL : ℓ = tc.nr_levels
      · subst hℓL
        rw [Nat.sub_self]
        constructor
        · intro hsome
          refine ⟨p, ?_, Nat.shiftRight_zero⟩
          exact hsome
        · rintro ⟨k, hk, he⟩
          rw [Nat.shiftRight_zero] at he
          rw [← he]
          exact hk
      · rw [hlvl_e ℓ, htd_lvl_ne ℓ hℓL]
        constructor
        · intro hsome
          rcases (hb.dom ℓ p h1 h2').mp hsome with ⟨k, hk, he⟩ | ⟨hx, he⟩
          · exact ⟨k, (hstored_td k).mpr (Or.inr hk), he⟩
          · exact ⟨key, (hstored_td key).mpr (Or.inl rfl), he.symm⟩
        · rintro ⟨k, hk, he⟩
          rcases (hstored_td k).mp hk with hke | hks
          · refine (hb.dom ℓ p h1 h2').mpr (Or.inr ⟨by omega, ?_⟩)
            rw [← he, hke]
          · exact (hb.dom ℓ p h1 h2').mpr (Or.inl ⟨k, hks, he⟩)
    · intro ℓ p i hℓ hm
      have hℓ' : ℓ ≤ tc.nr_levels := by
        rw [hte_nrs] at hℓ
        exact hℓ
      rw [hte_arena]
      by_cases hℓL : ℓ = tc.nr_levels
      · subst hℓL
        rw [hlvl_e, htd_lvlL] at hm
        by_cases hpk : p = key
        · rw [hpk, mapGet_mapInsert_self] at hm
          cases hm
          exact hnid_lt
        · rw [mapGet_mapInsert_ne _ _ _ _ hpk] at hm
          exact hb.ids_lt tc.nr_levels p i (le_refl _) hm
      · rw [hlvl_e, htd_lvl_ne ℓ hℓL] at hm
        exact hb.ids_lt ℓ p i hℓ' hm
    · intro ℓ p i hℓ hm
      have hℓ' : ℓ ≤ tc.nr_levels := by
        rw [hte_nrs] at hℓ
        exact hℓ
      by_cases hℓL : ℓ = tc.nr_levels
      · subst hℓL
        rw [hlvl_e, htd_lvlL] at hm
        by_cases hpk : p = key
        · rw [hpk, mapGet_mapInsert_self] at hm
          cases hm
          rw [hlevpres_e nid hnid_lt]
          exact hnid_lev
        · rw [mapGet_mapInsert_ne _ _ _ _ hpk] at hm
          have hi := hb.ids_lt tc.nr_levels p i (le_refl _) hm
          rw [hlevpres_e i hi]
          exact hb.level_eq tc.nr_levels p i (le_refl _) hm
      · rw [hlvl_e, htd_lvl_ne ℓ hℓL] at hm
        have hi := hb.ids_lt ℓ p i hℓ' hm
        rw [hlevpres_e i hi]
        exact hb.level_eq ℓ p i hℓ' hm
    · intro ℓ p q i hℓ hpq hmp hmq
      have hℓ' : ℓ ≤ tc.nr_levels := by
        rw [hte_nrs] at hℓ
        exact hℓ
      by_cases hℓL : ℓ = tc.nr_levels
      · subst hℓL
        rw [hlvl_e, htd_lvlL] at hmp hmq
        by_cases hpk : p = key
        · rw [hpk, mapGet_mapInsert_self] at hmp
          cases hmp
          have hqk : q ≠ key := fun he => hpq (hpk.trans he.symm)
          rw [mapGet_mapInsert_ne _ _ _ _ hqk] at hmq
          have h2 := hb.leaf_key q nid hmq
          rw [hnid_key] at h2
          exact hqk h2.symm
        · rw [mapGet_mapInsert_ne _ _ _ _ hpk] at hmp
          by_cases hqk : q = key
          · rw [hqk, mapGet_mapInsert_self] at hmq
            cases hmq
            have h2 := hb.leaf_key p nid hmp
            rw [hnid_key] at h2
            exact hpk h2.symm
          · rw [mapGet_mapInsert_ne _ _ _ _ hqk] at hmq
            exact hb.inj tc.nr_levels p q i (le_refl _) hpq hmp hmq
      · rw [hlvl_e, htd_lvl_ne ℓ hℓL] at hmp hmq
        exact hb.inj ℓ p q i hℓ' hpq hmp hmq
    · intro k i hm
      have hm' : mapGet (lvl te tc.nr_levels) k = some i := hm
      rw [hlvl_e, htd_lvlL] at hm'
      by_cases hk : k = key
      · rw [hk, mapGet_mapInsert_self] at hm'
        cases hm'
        have hkp : (readN te nid).key = (readN tc nid).key := by
          by_cases hnp : nid = pid'
          · rw [hnp, hte_read_pid]
          · rw [hte_read_other nid hnp]
        rw [hk, hkp, hnid_key]
      · rw [mapGet_mapInsert_ne _ _ _ _ hk] at hm'
        have hkp : (readN te i).key = (readN tc i).key := by
          by_cases hipd : i = pid'
          · rw [hipd, hte_read_pid]
          · rw [hte_read_other i hipd]
        rw [hkp]
        exact hb.leaf_key k i hm'
    · intro i hlen hlev
      have hlen' : i < tc.arena.length := by
        rw [hte_arena] at hlen
        exact hlen
      have hlev' : (readN tc i).level = tc.nr_levels := by
        rw [← hlevpres_e i hlen']
        exact hlev
      have hip : i ≠ pid' := by
        intro he
        subst he
        omega
      obtain ⟨h1, h2⟩ := hb.leaf_links i hlen' hlev'
      rw [hte_read_other i hip]
      exact ⟨leafTyped_stable tc te hte_nrs harena_mono hlevpres_e _ h1,
             leafTyped_stable tc te hte_nrs harena_mono hlevpres_e _ h2⟩
  · -- MidState: only the key's path is weakened
    intro ℓ p i hℓ hm
    have hℓ' : ℓ < tc.nr_levels := hℓ
    have hm0 := hm
    rw [hlvl_e ℓ, htd_lvl_ne ℓ (by omega)] at hm0
    show if ℓ ≤ tc.nr_levels - 1 ∧ p = key >>> (tc.nr_levels - ℓ) then WeakAt te ℓ p i
      else OkAt te ℓ p i
    by_cases hp : p = key >>> (tc.nr_levels - ℓ)
    · rw [if_pos ⟨by omega, hp⟩]
      by_cases hℓtop : ℓ = tc.nr_levels - 1
      · subst hℓtop
        have hp1 : p = key >>> 1 := by
          rw [hp, show tc.nr_levels - (tc.nr_levels - 1) = 1 from by omega]
        subst hp1
        have hieq : i = pid' := by
          have hh := hpp
          rw [hm0] at hh
          exact Option.some.inj hh
        subst hieq
        have harith : tc.nr_levels - 1 + 1 = tc.nr_levels := by omega
        constructor
        · unfold nodeLeftWeak
          rw [harith]
          have hckey : 2 * (key >>> 1) = key := by
            rw [Nat.shiftRight_one]
            omega
          refine Or.inl ⟨?_, ?_, ?_⟩
          · rw [hckey, hlvl_e tc.nr_levels, htd_lvlL, mapGet_mapInsert_self]
            rfl
          · rw [hte_read_pid, hckey, hlvl_e tc.nr_levels, htd_lvlL, mapGet_mapInsert_self]
          · rw [hte_read_pid]
        · have hne2 : 2 * (key >>> 1) + 1 ≠ key := by
            rw [Nat.shiftRight_one]
            omega
          have hWr := hWp.2
          unfold nodeRightWeak at hWr ⊢
          rw [harith] at hWr ⊢
          rw [hlvl_e tc.nr_levels, htd_lvlL, mapGet_mapInsert_ne _ _ _ _ hne2,
            hte_read_pid, hfright, hfdr]
          rcases hWr with ⟨hs, hptr, hflag⟩ | ⟨hs, hflag, hlt⟩
          · exact Or.inl ⟨hs, hptr, hflag⟩
          · exact Or.inr ⟨hs, hflag,
              leafTyped_stable tc te hte_nrs harena_mono hlevpres_e _ hlt⟩
      · have hW := hok ℓ p i hℓ' hm0
        rw [if_pos hp] at hW
        have hip : i ≠ pid' := by
          intro he
          subst he
          have e1 := hb.level_eq ℓ p i (by omega) hm0
          omega
        have hchildl : mapGet (lvl te (ℓ + 1)) (2 * p) = mapGet (lvl tc (ℓ + 1)) (2 * p) := by
          rw [hlvl_e (ℓ + 1), htd_lvl_ne (ℓ + 1) (by omega)]
        have hchildr : mapGet (lvl te (ℓ + 1)) (2 * p + 1)
            = mapGet (lvl tc (ℓ + 1)) (2 * p + 1) := by
          rw [hlvl_e (ℓ + 1), htd_lvl_ne (ℓ + 1) (by omega)]
        exact ⟨nodeLeftWeak_congr tc te ℓ p i hte_nrs hchildl
            (hte_read_other i hip) harena_mono hlevpres_e hW.1,
          nodeRightWeak_congr tc te ℓ p i hte_nrs hchildr
            (hte_read_other i hip) harena_mono hlevpres_e hW.2⟩
    · rw [if_neg (by intro hc; exact hp hc.2)]
      have hOk := hok ℓ p i hℓ' hm0
      rw [if_neg hp] at hOk
      have hip : i ≠ pid' := by
        intro he
        subst he
        by_cases hℓtop : ℓ = tc.nr_levels - 1
        · subst hℓtop
          refine hb.inj (tc.nr_levels - 1) p (key >>> 1) i (by omega) ?_ hm0 hpp
          intro hpe
          apply hp
          rw [hpe, show tc.nr_levels - (tc.nr_levels - 1) = 1 from by omega]
        · have e1 := hb.level_eq ℓ p i (by omega) hm0
          omega
      have hchl : key >>> (tc.nr_levels - (ℓ + 1)) ≠ 2 * p := by
        intro hc
        apply hp
        have h1 : (key >>> (tc.nr_levels - (ℓ + 1))) >>> 1 = key >>> (tc.nr_levels - ℓ) := by
          rw [← pfx_succ, show tc.nr_levels - (ℓ + 1) + 1 = tc.nr_levels - ℓ from by omega]
        rw [hc, Nat.shiftRight_one] at h1
        omega
      have hchr : key >>> (tc.nr_levels - (ℓ + 1)) ≠ 2 * p + 1 := by
        intro hc
        apply hp
        have h1 : (key >>> (tc.nr_levels - (ℓ + 1))) >>> 1 = key >>> (tc.nr_levels - ℓ) := by
          rw [← pfx_succ, show tc.nr_levels - (ℓ + 1) + 1 = tc.nr_levels - ℓ from by omega]
        rw [hc, Nat.shiftRight_one] at h1
        omega
      have hchildl : mapGet (lvl te (ℓ + 1)) (2 * p) = mapGet (lvl tc (ℓ + 1)) (2 * p) := by
        by_cases hc1 : ℓ + 1 = tc.nr_levels
        · rw [hlvl_e (ℓ + 1), hc1, htd_lvlL,
            mapGet_mapInsert_ne _ _ _ _ (fun hc => hchl (by
              rw [show tc.nr_levels - (ℓ + 1) = 0 from by omega, Nat.shiftRight_zero]
              exact hc.symm))]
        · rw [hlvl_e (ℓ + 1), htd_lvl_ne (ℓ + 1) hc1]
      have hchildr : mapGet (lvl te (ℓ + 1)) (2 * p + 1)
          = mapGet (lvl tc (ℓ + 1)) (2 * p + 1) := by
        by_cases hc1 : ℓ + 1 = tc.nr_levels
        · rw [hlvl_e (ℓ + 1), hc1, htd_lvlL,
            mapGet_mapInsert_ne _ _ _ _ (fun hc => hchr (by
              rw [show tc.nr_levels - (ℓ + 1) = 0 from by omega, Nat.shiftRight_zero]
              exact hc.symm))]
        · rw [hlvl_e (ℓ + 1), htd_lvl_ne (ℓ + 1) hc1]
      have hsubl : subKeys te (ℓ + 1) (2 * p) = subKeys tc (ℓ + 1) (2 * p) := by
        have h1 : subKeys te (ℓ + 1) (2 * p) = subKeys td (ℓ + 1) (2 * p) := rfl
        rw [h1, hsub_td (ℓ + 1) (2 * p), if_neg hchl]
      have hsubr : subKeys te (ℓ + 1) (2 * p + 1) = subKeys tc (ℓ + 1) (2 * p + 1) := by
        have h1 : subKeys te (ℓ + 1) (2 * p + 1) = subKeys td (ℓ + 1) (2 * p + 1) := rfl
        rw [h1, hsub_td (ℓ + 1) (2 * p + 1), if_neg hchr]
      exact ⟨nodeLeftOk_mapCh tc te ℓ p i hte_nrs hchildl (hte_read_other i hip)
          harena_mono hlevpres_e hsubr hleafm_e hOk.1,
        nodeRightOk_mapCh tc te ℓ p i hte_nrs hchildr (hte_read_other i hip)
          harena_mono hlevpres_e hsubl hleafm_e hOk.2⟩

theorem leafTyped_some (t : Xfast) (j : Nat) (hlt : j < t.arena.length)
    (hlev : (readN t j).level = t.nr_levels) : leafTyped t (some j) := by
  intro i hi
  cases hi
  exact ⟨hlt, hlev⟩

/-- The leaf-chain splice preserves the invariant: every write touches a
leaf and installs leaf-typed pointers. -/
theorem chainSplice_inv (t : Xfast) (nid : Nat) (pr su : Option Nat)
    (hinv : XfInv t)
    (hnid_lt : nid < t.arena.length)
    (hnid_lev : (readN t nid).level = t.nr_levels)
    (hpr : leafTyped t pr) (hsu : leafTyped t su) :
    XfInv (chainSplice t nid pr su) ∧
    (chainSplice t nid pr su).nr_levels = t.nr_levels ∧
    (chainSplice t nid pr su).arena.length = t.arena.length ∧
    (∀ ℓ, lvl (chainSplice t nid pr su) ℓ = lvl t ℓ) ∧
    (∀ m, (readN (chainSplice t nid pr su) m).level = (readN t m).level ∧
      (readN (chainSplice t nid pr su) m).key = (readN t m).key) := by
  cases pr with
  | none =>
    cases su with
    | none =>
      exact ⟨hinv, rfl, rfl, fun ℓ => rfl, fun m => ⟨rfl, rfl⟩⟩
    | some sid =>
      obtain ⟨hsid_lt, hsid_lev⟩ := hsu sid rfl
      set f3 : TrieNode → TrieNode :=
        fun n => { n with left := (readN t sid).left, right := some sid } with hf3
      set u3 := writeN t nid f3 with hu3
      set f4 : TrieNode → TrieNode := fun n => { n with left := some nid } with hf4
      have heq : chainSplice t nid none (some sid) = writeN u3 sid f4 := rfl
      rw [heq]
      have hinv3 : XfInv u3 := by
        refine xfInv_writeN_leaf t nid f3 hinv (fun n => rfl) (fun n => rfl) hnid_lev ⟨?_, ?_⟩
        · exact (hinv.1.leaf_links sid hsid_lt hsid_lev).1
        · exact leafTyped_some t sid hsid_lt hsid_lev
      have hu3_lev : ∀ m, (readN u3 m).level = (readN t m).level :=
        writeN_level_pres t nid f3 (fun n => rfl)
      have hu3_key : ∀ m, (readN u3 m).key = (readN t m).key :=
        writeN_key_pres t nid f3 (fun n => rfl)
      have hinv4 : XfInv (writeN u3 sid f4) := by
        refine xfInv_writeN_leaf u3 sid f4 hinv3 (fun n => rfl) (fun n => rfl) ?_ ⟨?_, ?_⟩
        · show (readN u3 sid).level = t.nr_levels
          rw [hu3_lev sid]
          exact hsid_lev
        · exact leafTyped_some u3 nid (by rw [hu3, writeN_arena_length]; exact hnid_lt)
            (by rw [hu3_lev nid]; exact hnid_lev)
        · exact (hinv3.1.leaf_links sid (by rw [hu3, writeN_arena_length]; exact hsid_lt)
            (by rw [hu3_lev sid]; exact hsid_lev)).2
      refine ⟨hinv4, rfl, ?_, fun ℓ => rfl, ?_⟩
      · rw [writeN_arena_length, hu3, writeN_arena_length]
      · intro m
        constructor
        · rw [writeN_level_pres u3 sid f4 (fun n => rfl) m, hu3_lev m]
        · rw [writeN_key_pres u3 sid f4 (fun n => rfl) m, hu3_key m]
  | some pid =>
    obtain ⟨hpid_lt2, hpid_lev2⟩ := hpr pid rfl
    set f1 : TrieNode → TrieNode :=
      fun n => { n with right := (readN t pid).right, left := some pid } with hf1
    set u1 := writeN t nid f1 with hu1
    set f2 : TrieNode → TrieNode := fun n => { n with right := some nid } with hf2
    set u2 := writeN u1 pid f2 with hu2
    have hinv1 : XfInv u1 := by
      refine xfInv_writeN_leaf t nid f1 hinv (fun n => rfl) (fun n => rfl) hnid_lev ⟨?_, ?_⟩
      · exact leafTyped_some t pid hpid_lt2 hpid_lev2
      · exact (hinv.1.leaf_links pid hpid_lt2 hpid_lev2).2
    have hu1_lev : ∀ m, (readN u1 m).level = (readN t m).level :=
      writeN_level_pres t nid f1 (fun n => rfl)
    have hu1_key : ∀ m, (readN u1 m).key = (readN t m).key :=
      writeN_key_pres t nid f1 (fun n => rfl)
    have hinv2 : XfInv u2 := by
      refine xfInv_writeN_leaf u1 pid f2 hinv1 (fun n => rfl) (fun n => rfl) ?_ ⟨?_, ?_⟩
      · show (readN u1 pid).level = t.nr_levels
        rw [hu1_lev pid]
        exact hpid_lev2
      · exact (hinv1.1.leaf_links pid (by rw [hu1, writeN_arena_length]; exact hpid_lt2)
          (by rw [hu1_lev pid]; exact hpid_lev2)).1
      · exact leafTyped_some u1 nid (by rw [hu1, writeN_arena_length]; exact hnid_lt)
          (by rw [hu1_lev nid]; exact hnid_lev)
    have hu2_lev : ∀ m, (readN u2 m).level = (readN t m).level := by
      intro m
      rw [hu2, writeN_level_pres u1 pid f2 (fun n => rfl) m, hu1_lev m]
    have hu2_key : ∀ m, (readN u2 m).key = (readN t m).key := by
      intro m
      rw [hu2, writeN_key_pres u1 pid f2 (fun n => rfl) m, hu1_key m]
    have hu2_arena : u2.arena.length = t.arena.length := by
      rw [hu2, writeN_arena_length, hu1, writeN_arena_length]
    cases su with
    | none =>
      have heq : chainSplice t nid (some pid) none = u2 := rfl
      rw [heq]
      refine ⟨hinv2, rfl, hu2_arena, fun ℓ => rfl, fun m => ⟨hu2_lev m, hu2_key m⟩⟩
    | some sid =>
      obtain ⟨hsid_lt, hsid_lev⟩ := hsu sid rfl
      set f3 : TrieNode → TrieNode :=
        fun n => { n with left := (readN u2 sid).left, right := some sid } with hf3
      set u3 := writeN u2 nid f3 with hu3
      set f4 : TrieNode → TrieNode := fun n => { n with left := some nid } with hf4
      have heq : chainSplice t nid (some pid) (some sid) = writeN u3 sid f4 := rfl
      rw [heq]
      have hinv3 : XfInv u3 := by
        refine xfInv_writeN_leaf u2 nid f3 hinv2 (fun n => rfl) (fun n => rfl) ?_ ⟨?_, ?_⟩
        · show (readN u2 nid).level = t.nr_levels
          rw [hu2_lev nid]
          exact hnid_lev
        · exact (hinv2.1.leaf_links sid (by rw [hu2_arena]; exact hsid_lt)
            (by rw [hu2_lev sid]; exact hsid_lev)).1
        · exact leafTyped_some u2 sid (by rw [hu2_arena]; exact hsid_lt)
            (by rw [hu2_lev sid]; exact hsid_lev)
      have hu3_lev : ∀ m, (readN u3 m).level = (readN t m).level := by
        intro m
        rw [hu3, writeN_level_pres u2 nid f3 (fun n => rfl) m, hu2_lev m]
      have hu3_key : ∀ m, (readN u3 m).key = (readN t m).key := by
        intro m
        rw [hu3, writeN_key_pres u2 nid f3 (fun n => rfl) m, hu2_key m]
      have hu3_arena : u3.arena.length = t.arena.length := by
        rw [hu3, writeN_arena_length, hu2_arena]
      have hinv4 : XfInv (writeN u3 sid f4) := by
        refine xfInv_writeN_leaf u3 sid f4 hinv3 (fun n => rfl) (fun n => rfl) ?_ ⟨?_, ?_⟩
        · show (readN u3 sid).level = t.nr_levels
          rw [hu3_lev sid]
          exact hsid_lev
        · exact leafTyped_some u3 nid (by rw [hu3_arena]; exact hnid_lt)
            (by rw [hu3_lev nid]; exact hnid_lev)
        · exact (hinv3.1.leaf_links sid (by rw [hu3_arena]; exact hsid_lt)
            (by rw [hu3_lev sid]; exact hsid_lev)).2
      refine ⟨hinv4, rfl, ?_, fun ℓ => rfl, ?_⟩
      · rw [writeN_arena_length, hu3_arena]
      · intro m
        constructor
        · rw [writeN_level_pres u3 sid f4 (fun n => rfl) m, hu3_lev m]
        · rw [writeN_key_pres u3 sid f4 (fun n => rfl) m, hu3_key m]

/-- `insert_key` preserves the full invariant when the key is new and in
range. -/
theorem insert_inv (t0 : Xfast) (key v : Nat) (hinv : XfInv t0)
    (habs : ¬ stored t0 key) (hkey : key < 2 ^ t0.nr_levels) :
    XfInv (insert_key t0 key v) := by
  have hL0 := hinv.1.hL
  set ta := allocN t0 (TrieNode.mk_leaf key v t0.nr_levels) with hta
  have hinva : XfInv ta := by
    rw [hta]
    exact xfInv_allocN t0 _ hinv (fun _ => ⟨leafTyped_none t0, leafTyped_none t0⟩)
  have hta_arena : ta.arena.length = t0.arena.length + 1 := by
    rw [hta]
    unfold allocN
    simp
  have hta_read_nid : readN ta t0.arena.length = TrieNode.mk_leaf key v t0.nr_levels := by
    rw [hta]
    exact readN_allocN_self t0 _
  have hta_lvl : ∀ ℓ, lvl ta ℓ = lvl t0 ℓ := by
    intro ℓ
    rw [hta, lvl_allocN]
  have hnid_lt_a : t0.arena.length < ta.arena.length := by omega
  have hnid_lev_a : (readN ta t0.arena.length).level = ta.nr_levels := by
    rw [hta_read_nid]
    rfl
  set pr := find_predecessor ta key with hpr
  set su := find_successor ta key with hsu
  have hprT : leafTyped ta pr := by
    rw [hpr]
    exact find_predecessor_leafTyped ta key hinva hkey
  have hsuT : leafTyped ta su := by
    rw [hsu]
    exact find_successor_leafTyped ta key hinva hkey
  obtain ⟨hinvb, htb_nr, htb_arena, htb_lvl, htb_node⟩ :=
    chainSplice_inv ta t0.arena.length pr su hinva hnid_lt_a hnid_lev_a hprT hsuT
  set tb := chainSplice ta t0.arena.length pr su with htb
  have htb_nr' : tb.nr_levels = t0.nr_levels := htb_nr
  have hstored_b : ∀ k, stored tb k ↔ stored t0 k := by
    intro k
    unfold stored
    rw [htb_nr', htb_lvl t0.nr_levels, hta_lvl t0.nr_levels]
  have habs_b : ¬ stored tb key := fun h => habs ((hstored_b key).mp h)
  have hkey_b : key < 2 ^ tb.nr_levels := by
    rw [htb_nr']
    exact hkey
  obtain ⟨hb0, hok0⟩ := ins_start tb key hinvb habs_b hkey_b
  have htc_eq : populate_internal_nodes tb key
      = (List.range' 1 (t0.nr_levels - 1)).foldl (populateStep key t0.nr_levels) tb := by
    unfold populate_internal_nodes
    rw [htb_nr']
  obtain ⟨hbc, hokc, hnrc, hac, hleafc⟩ := pop_fold key t0.nr_levels (t0.nr_levels - 1) tb
    htb_nr' (le_refl _) hb0 hok0
  set tc := (List.range' 1 (t0.nr_levels - 1)).foldl (populateStep key t0.nr_levels) tb with htc
  have hnid_lt_b : t0.arena.length < tb.arena.length := by omega
  have hnid_lev_b : (readN tb t0.arena.length).level = t0.nr_levels := by
    rw [(htb_node t0.arena.length).1, hta_read_nid]
    rfl
  have hnid_key_b : (readN tb t0.arena.length).key = key := by
    rw [(htb_node t0.arena.length).2, hta_read_nid]
    rfl
  have hreads_c : readN tc t0.arena.length = readN tb t0.arena.length :=
    hleafc t0.arena.length hnid_lt_b hnid_lev_b
  have hnid_lt_c : t0.arena.length < tc.arena.length := lt_of_lt_of_le hnid_lt_b hac
  have hnid_lev_c : (readN tc t0.arena.length).level = tc.nr_levels := by
    rw [hreads_c, hnrc]
    exact hnid_lev_b
  have hnid_key_c : (readN tc t0.arena.length).key = key := by
    rw [hreads_c]
    exact hnid_key_b
  have hbc' : InsBase tc key (tc.nr_levels - 1) := by
    rw [hnrc]
    exact hbc
  have hLtc : 1 ≤ tc.nr_levels := hbc'.hL
  have hkey_c : key < 2 ^ tc.nr_levels := by
    rw [hnrc]
    exact hkey
  obtain ⟨pid', hpp⟩ : ∃ pid',
      mapGet (lvl tc (tc.nr_levels - 1)) (key >>> 1) = some pid' := by
    rcases Nat.lt_or_ge 1 tc.nr_levels with h2 | h1
    · have hsome : (mapGet (lvl tc (tc.nr_levels - 1)) (key >>> 1)).isSome := by
        rw [hbc'.dom (tc.nr_levels - 1) (key >>> 1) (by omega) (by omega)]
        refine Or.inr ⟨le_refl _, ?_⟩
        rw [show tc.nr_levels - (tc.nr_levels - 1) = 1 from by omega]
      exact Option.isSome_iff_exists.mp hsome
    · have he1 : t0.nr_levels = 1 := by
        rw [hnrc] at h1
        omega
      have hklt : key < 2 := by
        rw [he1] at hkey
        simpa using hkey
      have hk1 : key >>> 1 = 0 := by
        rw [Nat.shiftRight_one]
        omega
      refine ⟨0, ?_⟩
      rw [show tc.nr_levels - 1 = 0 from by omega, hbc'.h0, hk1]
      rfl
  show XfInv (update_descendant_ptr (leafLink (setLvl (populate_internal_nodes tb key)
    t0.nr_levels (mapInsert (lvl (populate_internal_nodes tb key) t0.nr_levels) key
    t0.arena.length)) key t0.arena.length t0.nr_levels) key)
  rw [htc_eq, ← hnrc]
  have hpd : mapGet (lvl (setLvl tc tc.nr_levels (mapInsert (lvl tc tc.nr_levels) key
      t0.arena.length)) (tc.nr_levels - 1)) (key >>> 1) = some pid' := by
    rw [lvl_setLvl_ne _ _ _ _ (by omega)]
    exact hpp
  have hlink_eq : leafLink (setLvl tc tc.nr_levels (mapInsert (lvl tc tc.nr_levels) key
      t0.arena.length)) key t0.arena.length tc.nr_levels
      = if key &&& 1 ≠ 0 then
          writeN (setLvl tc tc.nr_levels (mapInsert (lvl tc tc.nr_levels) key t0.arena.length))
            pid' (fun n => { n with right := some t0.arena.length, is_desc_right := false })
        else
          writeN (setLvl tc tc.nr_levels (mapInsert (lvl tc tc.nr_levels) key t0.arena.length))
            pid' (fun n => { n with left := some t0.arena.length, is_desc_left := false }) := by
    unfold leafLink
    rw [hpd]
  rw [hlink_eq]
  by_cases hbit : key &&& 1 ≠ 0
  · rw [if_pos hbit]
    rw [Nat.and_one_is_mod] at hbit
    have hb1 : key % 2 = 1 := by omega
    obtain ⟨hbase, hmid⟩ := insert_glue_right tc key t0.arena.length pid' hbc' hokc
      hnid_lt_c hnid_lev_c hnid_key_c hb1 hpp
    exact update_inv _ key hbase hmid hkey_c
  · rw [if_neg hbit]
    rw [Nat.and_one_is_mod] at hbit
    have hb0' : key % 2 = 0 := by omega
    obtain ⟨hbase, hmid⟩ := insert_glue_left tc key t0.arena.length pid' hbc' hokc
      hnid_lt_c hnid_lev_c hnid_key_c hb0' hpp
    exact update_inv _ key hbase hmid hkey_c
